import Mathlib

/-!
Verification of the core e-book conversion subsystem of `ebook-converter-bot`:
the `.bok` (legacy tabular database) to EPUB synthesiser
(`ebook_converter_bot/utils/bok_to_epub.py`) and the EPUB package repair and
mutation engine (`ebook_converter_bot/utils/epub.py`).

The embedding is shallow: Python strings are modelled as `List Char` (Unicode
scalar values, matching CPython's code-point view of `str`), byte strings as
`List Nat` (each < 256), dictionaries as insertion-ordered association lists
(CPython 3.7+ semantics), and the zip container as an ordered list of entries
carrying name, payload, compression mode and modification time.  XML payloads
are modelled structurally (tag / attribute list / children / text / tail, as
in an lxml element tree); `etree.tostring` followed by `etree.fromstring` is
the identity on this representation, which models lxml's stable round-trip.
All definitions are executable and derived from the source files, never from
the specification text; the few definitions that formalise the *specification
side* of a claim are explicitly named `spec...`.
-/

namespace EbookConv

/-- Python strings are sequences of Unicode code points. -/
abbrev Str := List Char

/-- Coerce a Lean string literal into the model representation. -/
def str (s : String) : Str := s.data

/-- Whitespace per CPython's `str`/`re` (`\s`, `str.strip`, `str.isspace`):
ASCII whitespace plus the Unicode space separators and separators used by
CPython's database of whitespace code points. -/
def isPySpace (c : Char) : Bool :=
  let n := c.toNat
  (9 ≤ n ∧ n ≤ 13) || n == 32 || (28 ≤ n ∧ n ≤ 31) || n == 0x85 || n == 0xA0 ||
    n == 0x1680 || (0x2000 ≤ n ∧ n ≤ 0x200A) || n == 0x2028 || n == 0x2029 ||
    n == 0x202F || n == 0x205F || n == 0x3000

/-- ASCII decimal digit. -/
def isAsciiDigit (c : Char) : Bool := 48 ≤ c.toNat && c.toNat ≤ 57

/-- Arabic-Indic digit (U+0660..U+0669). -/
def isArabicIndicDigit (c : Char) : Bool := 0x660 ≤ c.toNat && c.toNat ≤ 0x669

/-- Extended Arabic-Indic digit (U+06F0..U+06F9). -/
def isExtArabicIndicDigit (c : Char) : Bool := 0x6F0 ≤ c.toNat && c.toNat ≤ 0x6F9

/-- Any digit accepted by the converter's numeric regexes
(`[0-9٠-٩۰-۹]`). -/
def isAnyDigit (c : Char) : Bool :=
  isAsciiDigit c || isArabicIndicDigit c || isExtArabicIndicDigit c

/-- Decimal value of a digit in any of the three supported scripts, as used by
CPython's `int()` (which accepts any Unicode decimal digit). -/
def digitVal (c : Char) : Nat :=
  if isAsciiDigit c then c.toNat - 48
  else if isArabicIndicDigit c then c.toNat - 0x660
  else if isExtArabicIndicDigit c then c.toNat - 0x6F0
  else 0

/-- Python `str.strip()` of leading whitespace. -/
def lstripWs (s : Str) : Str := s.dropWhile isPySpace

/-- Python `str.strip()`: drop whitespace on both ends. -/
def stripWs (s : Str) : Str := (((s.dropWhile isPySpace).reverse).dropWhile isPySpace).reverse

/-- Python `str.lower` restricted to what the repair engine needs: ASCII
letters are lowercased (file names and CSS bytes compared by the code are
ASCII-cased; other code points are left unchanged, as `lower` does for
caseless scripts). -/
def charLowerAscii (c : Char) : Char :=
  if 65 ≤ c.toNat && c.toNat ≤ 90 then Char.ofNat (c.toNat + 32) else c

/-- Lowercasing of a model string. -/
def lowerStr (s : Str) : Str := s.map charLowerAscii

/-- Python `a.startswith(b)`. -/
def strStarts (s pre : Str) : Bool := pre.isPrefixOf s

/-- Python `a.endswith(b)`. -/
def strEnds (s suf : Str) : Bool := suf.isSuffixOf s

/-- Python `b in a` (substring containment). -/
def strHasInfix (s pat : Str) : Bool :=
  match s with
  | [] => pat.isEmpty
  | _ :: t => pat.isPrefixOf s || strHasInfix t pat

/-- Python `s.replace(old, new)` for a single-character `old` and arbitrary
`new` (the only shapes the converter uses). -/
def replaceChar (s : Str) (old : Char) (new : Str) : Str :=
  s.flatMap (fun c => if c == old then new else [c])

/-- Python `s.removeprefix(p)`. -/
def dropPre (s p : Str) : Str := if p.isPrefixOf s then s.drop p.length else s

/-- Decimal digit character for a value < 10. -/
def decDigitChar (n : Nat) : Char := Char.ofNat (48 + n % 10)

/-- Digit emitter with structural fuel (any fuel at least the digit count
computes the numeral; `natDecimal` supplies enough). -/
def natDecimalCore : Nat → Nat → Str
  | 0, _ => []
  | fuel + 1, n =>
    if n < 10 then [decDigitChar n]
    else natDecimalCore fuel (n / 10) ++ [decDigitChar (n % 10)]

/-- Decimal representation of a natural number, most significant digit first,
as produced by CPython's `str(int)` for non-negative values. -/
def natDecimal (n : Nat) : Str := natDecimalCore (n + 1) n

/-- Decimal representation of an integer (`str(int)` in CPython). -/
def intDecimal (i : Int) : Str :=
  if i < 0 then '-' :: natDecimal i.natAbs else natDecimal i.natAbs

/-! ### Text Normalizer (`bok_to_epub.py`, §4.1 of the spec)

`ARABIC_RE = [؀-ۿ]`, `HIGH_LATIN_RE = [À-ÿ]`. -/

/-- Code point in the Arabic block matched by `ARABIC_RE`. -/
def isArabicChar (c : Char) : Bool := 0x600 ≤ c.toNat && c.toNat ≤ 0x6FF

/-- Python `ARABIC_RE.search(s)` succeeds. -/
def hasArabic (s : Str) : Bool := s.any isArabicChar

/-- Code point in the high-Latin range matched by `HIGH_LATIN_RE`. -/
def isHighLatin (c : Char) : Bool := 0xC0 ≤ c.toNat && c.toNat ≤ 0xFF

/-- Number of high-Latin characters, `len(HIGH_LATIN_RE.findall(s))`. -/
def highLatinCount (s : Str) : Nat := s.countP isHighLatin

/-- Upper half of the Windows-1256 decoding table: code point assigned to
byte `0x80 + i`.  Windows-1256 defines every byte value, so decoding with
`errors="ignore"` never drops input. -/
def cp1256Hi : List Nat :=
  [8364, 1662, 8218, 402, 8222, 8230, 8224, 8225, 710, 8240, 1657, 8249, 338,
   1670, 1688, 1672, 1711, 8216, 8217, 8220, 8221, 8226, 8211, 8212, 1705,
   8482, 1681, 8250, 339, 8204, 8205, 1722, 160, 1548, 162, 163, 164, 165,
   166, 167, 168, 169, 1726, 171, 172, 173, 174, 175, 176, 177, 178, 179,
   180, 181, 182, 183, 184, 185, 1563, 187, 188, 189, 190, 1567, 1729, 1569,
   1570, 1571, 1572, 1573, 1574, 1575, 1576, 1577, 1578, 1579, 1580, 1581,
   1582, 1583, 1584, 1585, 1586, 1587, 1588, 1589, 1590, 215, 1591, 1592,
   1593, 1594, 1600, 1601, 1602, 1603, 224, 1604, 226, 1605, 1606, 1607,
   1608, 231, 232, 233, 234, 235, 1609, 1610, 238, 239, 1611, 1612, 1613,
   1614, 244, 1615, 1616, 247, 1617, 249, 1618, 251, 252, 8206, 8207, 1746]

/-- Windows-1256 decoding of a single byte. -/
def cp1256Byte (b : Nat) : Nat := if b < 128 then b else cp1256Hi.getD (b - 128) 0

/-- Decode a byte list under Windows-1256 (`bytes.decode("cp1256")`; the
codec is total, so the `errors="ignore"` in the source never fires). -/
def cp1256Decode (bs : List Nat) : Str := bs.map (fun b => Char.ofNat (cp1256Byte (b % 256)))

/-- Fuel-driven bit counter. -/
def bitLenCore : Nat → Nat → Nat
  | 0, _ => 0
  | fuel + 1, m => if m == 0 then 0 else bitLenCore fuel (m / 2) + 1

/-- Bit length of a natural number (index of the highest set bit plus
one). -/
def bitLen (m : Nat) : Nat := bitLenCore m m

/-- CPython's `int(n * 0.2)` for a non-negative `n`, computed exactly: the
IEEE-754 double nearest to 0.2 is 3602879701896397 / 2^54; the product is
rounded to 53 significant bits with round-half-to-even and then truncated.
For every realistic length (`n < 2^49`) this equals `n / 5`. -/
def pyIntTimesPointTwo (n : Nat) : Nat :=
  let p := n * 3602879701896397
  if p < 2 ^ 53 then p / 2 ^ 54
  else
    let s := bitLen p - 53
    let q := p / 2 ^ s
    let r := p % 2 ^ s
    let q2 := if 2 ^ s < 2 * r || (2 * r == 2 ^ s && q % 2 == 1) then q + 1 else q
    q2 * 2 ^ s / 2 ^ 54

/-- Low-byte reinterpretation `bytes(ord(ch) & 0xFF for ch in value)`
decoded under Windows-1256. -/
def lowByteCp1256 (s : Str) : Str := cp1256Decode (s.map (fun c => c.toNat % 256))

/-- Model of `fix_arabic_mojibake` (`bok_to_epub.py`). -/
def fix_arabic_mojibake (value : Str) : Str :=
  if hasArabic value then value
  else if highLatinCount value < max 4 (pyIntTimesPointTwo value.length) then value
  else
    let decoded := lowByteCp1256 value
    if hasArabic decoded then decoded else value

/-! ### Generic regex-substitution scanner

`re.sub` for the patterns used by the converter: all of them consume at
least one character per match, so a matcher reports a replacement together
with `k` where `k + 1` characters of the input were consumed. -/

/-- Fuel-driven scan body of `subScan` (each step consumes at least one
character, so fuel equal to the input length computes the full scan). -/
def subScanCore (m : Str → Option (Str × Nat)) : Nat → Str → Str
  | _, [] => []
  | 0, s => s
  | fuel + 1, c :: t =>
    match m (c :: t) with
    | some (repl, k) => repl ++ subScanCore m fuel (t.drop k)
    | none => c :: subScanCore m fuel t

/-- Left-to-right, non-overlapping substitution scan, as `re.sub` performs
for patterns that cannot match the empty string.  `m s = some (repl, k)`
means the pattern matches a prefix of `s` of length `k + 1`, replaced by
`repl`. -/
def subScan (m : Str → Option (Str × Nat)) (s : Str) : Str :=
  subScanCore m s.length s

/-! ### Content segmenter helpers (`bok_to_epub.py`) -/

/-- Python `escape_xml`: the five XML reserved characters, ampersand first. -/
def escape_xml (s : Str) : Str :=
  let s := replaceChar s '&' (str "&amp;")
  let s := replaceChar s '<' (str "&lt;")
  let s := replaceChar s '>' (str "&gt;")
  let s := replaceChar s '"' (str "&quot;")
  replaceChar s (Char.ofNat 39) (str "&apos;")

/-- Python `digits_to_ascii`: map Arabic-Indic and extended Arabic-Indic
digits to ASCII via `str(ord(ch) - base)`. -/
def digits_to_ascii (s : Str) : Str :=
  s.flatMap fun c =>
    if isArabicIndicDigit c then natDecimal (c.toNat - 0x660)
    else if isExtArabicIndicDigit c then natDecimal (c.toNat - 0x6F0)
    else [c]

/-- Count of zero bytes at odd offsets (`u8[1::2] == 0`). -/
def oddZeroCount : List Nat → Nat
  | _ :: b :: t => (if b % 256 == 0 then 1 else 0) + oddZeroCount t
  | _ => 0

/-- Fuel-driven body of `utf16leDecode`. -/
def utf16leCore : Nat → List Nat → Option Str
  | _, [] => some []
  | 0, _ :: _ => none
  | _, [_] => none
  | fuel + 1, a :: b :: t =>
    let u := a % 256 + 256 * (b % 256)
    if 0xD800 ≤ u && u ≤ 0xDBFF then
      match t with
      | c :: d :: t2 =>
        let v := c % 256 + 256 * (d % 256)
        if 0xDC00 ≤ v && v ≤ 0xDFFF then
          (utf16leCore fuel t2).map
            (Char.ofNat (0x10000 + (u - 0xD800) * 0x400 + (v - 0xDC00)) :: ·)
        else none
      | _ => none
    else if 0xDC00 ≤ u && u ≤ 0xDFFF then none
    else (utf16leCore fuel t).map (Char.ofNat u :: ·)

/-- UTF-16LE decoding with surrogate-pair combination; `none` models
`UnicodeDecodeError` (odd length or unpaired surrogate). -/
def utf16leDecode (l : List Nat) : Option Str := utf16leCore l.length l

/-- Model of `decode_bytes`: the UTF-16 sniff (`len >= 16` and more than a
quarter of odd-offset bytes zero; the float comparison
`zero_count / max(1, len/2) > 0.25` is exact as `8 * zero_count > len` for
every list small enough to exist in memory), then UTF-16LE, then cp1256.
The cp1256 codec is total, so the source's UTF-8 fallback and final `""`
are unreachable and the model folds them into the cp1256 branch. -/
def decode_bytes (b : List Nat) : Str :=
  let n := b.length
  let maybeUtf16 := decide (16 ≤ n) && decide (n < 8 * oddZeroCount b)
  if maybeUtf16 then
    match utf16leDecode b with
    | some s => s
    | none => cp1256Decode b
  else cp1256Decode b

/-- Cell values handed over by the legacy-source capability.  The source can
also produce floats; the model restricts cells to text, bytes, integers and
absent values (spec §6), which is what every claim exercises. -/
inductive Cell where
  | cs (v : Str)
  | ci (v : Int)
  | cb (v : List Nat)
  | cnone
deriving DecidableEq, Repr

/-- Model of `decode_value`: decode, mojibake repair, NUL stripping, and the
legacy keheh-for-tatweel glyph substitution (U+06A9 to U+0640). -/
def decode_value (v : Cell) : Str :=
  let s : Str :=
    match v with
    | .cs s => s
    | .cnone => []
    | .cb b => decode_bytes b
    | .ci i => intDecimal i
  match v with
  | .cnone => []
  | _ =>
    let s := fix_arabic_mojibake s
    let s := replaceChar s (Char.ofNat 0) []
    replaceChar s (Char.ofNat 0x6A9) [Char.ofNat 0x640]

/-- Python `\w` (word character) over the blocks this converter can see:
ASCII alphanumerics and underscore, Latin-1 letters, and Arabic-block
letters, digits and tatweel.  (The full Unicode alphanumeric table is out
of scope; only these blocks are reachable through the code's regexes.) -/
def isPyWord (c : Char) : Bool :=
  let n := c.toNat
  (48 ≤ n && n ≤ 57) || (65 ≤ n && n ≤ 90) || (97 ≤ n && n ≤ 122) || n == 95 ||
    n == 0xAA || n == 0xB5 || n == 0xBA ||
    (0xC0 ≤ n && n ≤ 0xD6) || (0xD8 ≤ n && n ≤ 0xF6) || (0xF8 ≤ n && n ≤ 0xFF) ||
    (0x620 ≤ n && n ≤ 0x64A) || (0x660 ≤ n && n ≤ 0x669) ||
    (0x66E ≤ n && n ≤ 0x6D3) || n == 0x6D5 || (0x6E5 ≤ n && n ≤ 0x6E6) ||
    (0x6EE ≤ n && n ≤ 0x6FC) || n == 0x6FF || n == 0x640

/-- Tag names of `LOOKS_LIKE_HTML_RE` (case-insensitive, `h[1-6]` expanded). -/
def htmlSignatureTags : List Str :=
  [str "p", str "br", str "div", str "span", str "h1", str "h2", str "h3",
   str "h4", str "h5", str "h6", str "font"]

/-- Match of `LOOKS_LIKE_HTML_RE` at the head of `s`: `<`, optional `/`, a
signature tag, then a word boundary. -/
def htmlSigAt (s : Str) : Bool :=
  match s with
  | '<' :: r =>
    let r := match r with | '/' :: r2 => r2 | _ => r
    htmlSignatureTags.any fun tag =>
      strStarts (lowerStr r) tag &&
        (match (r.drop tag.length).head? with
         | none => true
         | some c => !isPyWord c)
  | _ => false

/-- Model of `looks_like_html` (`LOOKS_LIKE_HTML_RE.search`). -/
def looks_like_html (s : Str) : Bool :=
  match s with
  | [] => false
  | _ :: t => htmlSigAt s || looks_like_html t

/-- Tag names of `VOID_TAG_RE`, in alternation order. -/
def voidTags : List Str :=
  [str "br", str "hr", str "img", str "input", str "meta", str "link",
   str "area", str "base", str "col", str "embed", str "source", str "track",
   str "wbr"]

/-- Match of `VOID_TAG_RE` at the head of `s`, returning the replacement
`<\1\2 />` (original casing preserved) and consumed length minus one. -/
def voidTagMatch (s : Str) : Option (Str × Nat) :=
  match s with
  | '<' :: r =>
    (voidTags.filterMap fun tag =>
      if strStarts (lowerStr r) tag then
        let name := r.take tag.length
        let rest := r.drop tag.length
        match rest with
        | '>' :: _ => some ('<' :: name ++ str " />", tag.length + 1)
        | '/' :: '>' :: _ => some ('<' :: name ++ str " />", tag.length + 2)
        | c :: _ =>
          if isPySpace c then
            let attrs := rest.takeWhile (fun x => !(x == '>'))
            if (rest.drop attrs.length).head? == some '>' then
              some ('<' :: name ++ attrs ++ str " />", tag.length + attrs.length + 1)
            else none
          else none
        | [] => none
      else none).head?
  | _ => none

/-- Model of `sanitize_html_for_xhtml` (`VOID_TAG_RE` substitution). -/
def sanitize_html_for_xhtml (s : Str) : Str := subScan voidTagMatch s

/-- Model of `to_int`: integers pass through; strings must fully match
`\s*[0-9٠-٩۰-۹]+\s*` and are parsed as a decimal numeral. -/
def to_int (v : Cell) : Option Int :=
  match v with
  | .ci i => some i
  | .cs s =>
    let a := s.dropWhile isPySpace
    let core := a.takeWhile isAnyDigit
    if core.isEmpty || !(a.drop core.length).all isPySpace then none
    else some (core.foldl (fun acc c => acc * 10 + (digitVal c : Int)) 0)
  | _ => none

/-- Normalisation of line endings, `replace("\r\n", "\n").replace("\r", "\n")`
fused into one pass. -/
def normalizeNewlines : Str → Str
  | [] => []
  | '\r' :: '\n' :: t => '\n' :: normalizeNewlines t
  | '\r' :: t => '\n' :: normalizeNewlines t
  | c :: t => c :: normalizeNewlines t

/-- Fuel-driven body of `splitNewlineRuns`. -/
def splitNlCore : Nat → Str → List Str
  | 0, s => [s]
  | fuel + 1, s =>
    let seg := s.takeWhile (fun c => !(c == '\n'))
    match s.dropWhile (fun c => !(c == '\n')) with
    | [] => [seg]
    | _ :: t => seg :: splitNlCore fuel (t.dropWhile (· == '\n'))

/-- Python `re.split(r"\n+", s)`: segments separated by maximal newline
runs. -/
def splitNewlineRuns (s : Str) : List Str := splitNlCore s.length s

/-- Dash characters of the numbered-item regexes (`-`, en dash, em dash). -/
def isSplitDash (c : Char) : Bool := c == '-' || c.toNat == 0x2013 || c.toNat == 0x2014

/-- Suffix check `\s*[-–—]\s+` shared by the numbered-item patterns. -/
def dashThenSpace (u : Str) : Bool :=
  let u2 := u.dropWhile isPySpace
  match u2 with
  | d :: c :: _ => isSplitDash d && isPySpace c
  | _ => false

/-- Lookahead body of `NUMBERED_SPLIT_RE` after the `^`/whitespace branch: a
homogeneous run of one to four digits of a single script, then
`\s*[-–—]\s+`. -/
def numItemAt (u : Str) : Bool :=
  [isAsciiDigit, isArabicIndicDigit, isExtArabicIndicDigit].any fun cls =>
    let run := u.takeWhile cls
    decide (1 ≤ run.length) && decide (run.length ≤ 4) && dashThenSpace (u.drop run.length)

/-- Split positions of `NUMBERED_SPLIT_RE` (a zero-width lookahead): position
0 when the line opens with a numbered item (or a space followed by one), and
any later position holding a whitespace/no-break-space character followed by
a numbered item. -/
def numberedSplitPoints (s : Str) : List Nat :=
  (List.range s.length).filter fun i =>
    if i == 0 then
      numItemAt s ||
        (match s.head? with
         | some c => isPySpace c && numItemAt (s.drop 1)
         | none => false)
    else
      match (s.drop i).head? with
      | some c => isPySpace c && numItemAt (s.drop (i + 1))
      | none => false

/-- Fuel-driven body of `cutAt`. -/
def cutAtCore : Nat → Str → List Nat → List Str
  | _, s, [] => [s]
  | 0, s, _ :: _ => [s]
  | fuel + 1, s, p :: rest => s.take p :: cutAtCore fuel (s.drop p) (rest.map (· - p))

/-- Cut a string at ascending positions, yielding the `re.split` segments. -/
def cutAt (s : Str) (ps : List Nat) : List Str := cutAtCore ps.length s ps

/-- Python `re.split(NUMBERED_SPLIT_RE, line)`. -/
def numberedSplit (s : Str) : List Str := cutAt s (numberedSplitPoints s)

/-- The basmala literal of the first Quranic substitution. -/
def basmala : Str := str "بسم الله الرحمن الرحيم"

/-- The `تفسير` literal. -/
def tafsirLit : Str := str "تفسير"

/-- The `سورة` literal. -/
def surahLit : Str := str "سورة"

/-- Lookahead `(?=سورة|تفسير\s+سورة)`. -/
def surahLook (u : Str) : Bool :=
  strStarts u surahLit ||
    (strStarts u tafsirLit &&
      (let r := u.drop tafsirLit.length
       (match r.head? with | some c => isPySpace c | none => false) &&
         strStarts (r.dropWhile isPySpace) surahLit))

/-- Matcher of `re.sub(r"بسم الله الرحمن الرحيم\s+(?=سورة|تفسير\s+سورة)",
"بسم الله الرحمن الرحيم\n", text)`. -/
def basmalaMatch (s : Str) : Option (Str × Nat) :=
  if strStarts s basmala then
    let rest := s.drop basmala.length
    let run := rest.takeWhile isPySpace
    if run.isEmpty then none
    else if surahLook (rest.drop run.length) then
      some (basmala ++ ['\n'], basmala.length + run.length - 1)
    else none
  else none

/-- Lookahead `(?=تفسير\s+سورة\s+)`. -/
def tafsirSurahLook (u : Str) : Bool :=
  strStarts u tafsirLit &&
    (let r := u.drop tafsirLit.length
     (match r.head? with | some c => isPySpace c | none => false) &&
       (let r2 := r.dropWhile isPySpace
        strStarts r2 surahLit &&
          (match (r2.drop surahLit.length).head? with
           | some c => isPySpace c
           | none => false)))

/-- Matcher of `re.sub(r"(?<!^)(\s+)(?=تفسير\s+سورة\s+)", "\n", text)`:
a maximal whitespace run followed by the lookahead. -/
def tafsirBreakMatch (s : Str) : Option (Str × Nat) :=
  let run := s.takeWhile isPySpace
  if run.isEmpty then none
  else if tafsirSurahLook (s.drop run.length) then some (['\n'], run.length - 1)
  else none

/-- The second Quranic substitution; its `(?<!^)` lookbehind never matches at
position 0, so scanning starts at offset 1. -/
def tafsirBreakSub (s : Str) : Str :=
  match s with
  | [] => []
  | c :: t => c :: subScan tafsirBreakMatch t

/-- Model of `split_plain_text` (`bok_to_epub.py`): strip NULs, normalise
newlines, strip, apply the two Quranic heading substitutions, split on
newline runs, and re-split over-long lines at numbered-item boundaries. -/
def split_plain_text (raw : Str) : List Str :=
  let text := stripWs (normalizeNewlines (replaceChar raw (Char.ofNat 0) []))
  let text := subScan basmalaMatch text
  let text := tafsirBreakSub text
  if text.isEmpty then []
  else
    ((splitNewlineRuns text).map stripWs).filter (fun l => !l.isEmpty) |>.flatMap fun line =>
      if line.length < 220 then [line]
      else
        let parts := ((numberedSplit line).map stripWs).filter (fun p => !p.isEmpty)
        if 2 ≤ parts.length then parts else [line]

/-- Model of `to_html_paragraphs`. -/
def to_html_paragraphs (text : Cell) : List Str :=
  let raw := stripWs (replaceChar (decode_value text) (Char.ofNat 0) [])
  if raw.isEmpty then []
  else if looks_like_html raw then [raw]
  else
    let parts := split_plain_text raw
    if parts.isEmpty then [str "<p>" ++ escape_xml raw ++ str "</p>"]
    else parts.map fun p => str "<p>" ++ escape_xml p ++ str "</p>"

/-- Model of `is_heading_text` (`^(?:تفسير\s+سورة|سورة)\s+`). -/
def is_heading_text (s : Str) : Bool :=
  (strStarts s tafsirLit &&
    (let r := s.drop tafsirLit.length
     (match r.head? with | some c => isPySpace c | none => false) &&
       (let r2 := r.dropWhile isPySpace
        strStarts r2 surahLit &&
          (match (r2.drop surahLit.length).head? with
           | some c => isPySpace c
           | none => false)))) ||
  (strStarts s surahLit &&
    (match (s.drop surahLit.length).head? with
     | some c => isPySpace c
     | none => false))

/-- Matcher of `TAG_RE` (`<[^>]+>`): replace by a single space. -/
def tagMatch (s : Str) : Option (Str × Nat) :=
  match s with
  | '<' :: r =>
    let span := r.takeWhile (fun c => !(c == '>'))
    if span.isEmpty then none
    else if (r.drop span.length).head? == some '>' then some ([' '], span.length + 1)
    else none
  | _ => none

/-- Matcher collapsing whitespace runs (`\s+` to a single space). -/
def wsRunMatch (s : Str) : Option (Str × Nat) :=
  let run := s.takeWhile isPySpace
  if run.isEmpty then none else some ([' '], run.length - 1)

/-- Model of `strip_tags_and_ws`. -/
def strip_tags_and_ws (html : Str) : Str :=
  stripWs (subScan wsRunMatch (subScan tagMatch html))

/-! ### Page & TOC Builder (`bok_to_epub.py`, §4.4 of the spec) -/

/-- Content-table column assignment (`ContentCols`). -/
structure ContentCols where
  text : Str
  id : Option Str
  page : Option Str
  part : Option Str
deriving DecidableEq, Repr

/-- A produced content page (`pages` dictionaries in `build_pages`). -/
structure Page where
  pageNumber : Nat
  page : Int
  part : Option Int
  textHtml : Str
deriving DecidableEq, Repr

/-- A parsed table: mapping from column name to the ordered cell values
(CPython dict, insertion-ordered, keys unique). -/
abbrev Tbl := List (Str × List Cell)

/-- Python `table.get(col)`. -/
def tblGet (t : Tbl) (c : Str) : Option (List Cell) :=
  (t.find? (fun kv => kv.1 == c)).map (·.2)

/-- Python `table.get(col) or []`. -/
def tblGetD (t : Tbl) (c : Str) : List Cell := (tblGet t c).getD []

/-- Python truthiness of an optional column name (`None` and `""` falsy). -/
def optColTruthy (o : Option Str) : Option Str :=
  match o with
  | some [] => none
  | x => x

/-- Python `max((len(v) for v in table.values()), default=0)`. -/
def tblRowSpan (t : Tbl) : Nat := (t.map (fun kv => kv.2.length)).foldr max 0

/-- Insertion-ordered dict update `d[k] = v` (update in place, else append). -/
def setAssoc {α β : Type} [BEq α] : List (α × β) → α → β → List (α × β)
  | [], k, v => [(k, v)]
  | kv :: t, k, v => if kv.1 == k then (k, v) :: t else kv :: setAssoc t k v

/-- Assoc-list lookup (`dict.get`). -/
def getAssoc {α β : Type} [BEq α] (m : List (α × β)) (k : α) : Option β :=
  (m.find? (fun kv => kv.1 == k)).map (·.2)

/-- Model of `_make_chunks`: one chunk per heading/numbered-item boundary
when `split_numbered` is on and the row is plain text, else a single chunk
of rendered paragraphs. -/
def _make_chunks (raw : Str) (splitNumbered : Bool) : List (List Str) :=
  if !splitNumbered || looks_like_html raw then
    let paras := to_html_paragraphs (.cs raw)
    if paras.isEmpty then [] else [paras]
  else
    let partsTxt := (split_plain_text raw).map stripWs
    let chunksTxt :=
      (partsTxt.foldl
        (fun (acc : List (List Str) × List Str) t =>
          if t.isEmpty then acc
          else if !acc.2.isEmpty && (is_heading_text t ||
              (let run := t.takeWhile isAnyDigit
               decide (1 ≤ run.length) && decide (run.length ≤ 4) &&
                 dashThenSpace (t.drop run.length))) then
            (acc.1 ++ [acc.2], [t])
          else (acc.1, acc.2 ++ [t]))
        ([], [])
      |> fun acc => if acc.2.isEmpty then acc.1 else acc.1 ++ [acc.2])
    (chunksTxt.filter (fun l => !l.isEmpty)).map fun lst =>
      lst.map fun p => str "<p>" ++ escape_xml p ++ str "</p>"

/-- Model of `_anchor_chunk_index`: index of the first chunk whose first
paragraph, de-tagged, is a heading; else 0. -/
def _anchor_chunk_index (chunks : List (List Str)) : Nat :=
  let rec go : List (List Str) → Nat → Nat
    | [], _ => 0
    | chunk :: rest, idx =>
      if is_heading_text (strip_tags_and_ws (chunk.headD [])) then idx
      else go rest (idx + 1)
  go chunks 0

/-- Model of `_footer`: part/page lines joined by `" - "`, empty pieces and
page 0 omitted. -/
def _footer (partDisplay : Str) (page : Option Int) : Str :=
  let pieces := [
    (if partDisplay.isEmpty then [] else str "الجزء: " ++ partDisplay),
    (match page with
     | some p => if p == 0 then [] else str "الصفحة: " ++ intDecimal p
     | none => [])]
  List.intercalate (str " - ") (pieces.filter (fun x => !x.isEmpty))

/-- State accumulated by the `build_pages` loop. -/
structure BPState where
  pages : List Page
  idToPageNumber : List (Int × Nat)
  idToSnippet : List (Int × Str)
deriving DecidableEq, Repr

/-- One chunk iteration of the inner `build_pages` loop. -/
def buildChunkStep (isTocStart : Bool) (anchorChunkIndex : Nat) (idv : Option Int)
    (pv : Option Int) (partv : Option Int) (footer : Str)
    (st : BPState) (ci : Nat) (paras : List Str) : BPState :=
  let out :=
    (if isTocStart && ci == anchorChunkIndex then
      [str "<a id=\"toc_" ++ intDecimal (idv.getD 0) ++ str "\"></a>"]
     else []) ++ paras
  let body := str "<div>" ++ out.flatten ++ str "</div>"
  let textHtml :=
    if footer.isEmpty then body
    else body ++ str "<div class=\"text-center\">" ++ footer ++ str "</div>"
  let pageNumber := st.pages.length + 1
  let pages := st.pages ++
    [{ pageNumber := pageNumber, page := (pv.getD 0), part := partv,
       textHtml := sanitize_html_for_xhtml textHtml }]
  let idMap :=
    match idv with
    | some i =>
      if !isTocStart || ci == anchorChunkIndex then setAssoc st.idToPageNumber i pageNumber
      else st.idToPageNumber
    | none => st.idToPageNumber
  { st with pages := pages, idToPageNumber := idMap }

/-- One row iteration of the outer `build_pages` loop. -/
def isTocStartOf (tocStarts : Option (List Int)) (idv : Option Int) : Bool :=
  match tocStarts, idv with
  | some ts, some i0 => !ts.isEmpty && ts.contains i0
  | _, _ => false

def buildRowStep (texts ids pagesCol parts : List Cell) (idCol pageCol partCol : Option Str)
    (tocStarts : Option (List Int)) (splitNumbered : Bool)
    (st : BPState) (i : Nat) : BPState :=
  let raw := stripWs (replaceChar (decode_value (texts.getD i (.cs []))) (Char.ofNat 0) [])
  if raw.isEmpty then st
  else
    let idv := if idCol.isSome then to_int (ids.getD i .cnone) else none
    let pv := if pageCol.isSome then to_int (pagesCol.getD i .cnone) else none
    let partRaw := parts.getD i .cnone
    let partv := if partCol.isSome then to_int partRaw else none
    let partText :=
      if partCol.isSome && partv.isNone then
        stripWs (replaceChar (decode_value partRaw) (Char.ofNat 0) [])
      else []
    let partDisplay :=
      match partv with
      | some p => intDecimal p
      | none => partText
    let chunks := _make_chunks raw splitNumbered
    if chunks.isEmpty then st
    else
      let isTocStart := isTocStartOf tocStarts idv
      let anchorChunkIndex := if isTocStart then _anchor_chunk_index chunks else 0
      let footer := _footer partDisplay pv
      let st2 :=
        (chunks.enum.foldl
          (fun acc (pc : Nat × List Str) =>
            buildChunkStep isTocStart anchorChunkIndex idv pv partv footer acc pc.1 pc.2)
          st)
      let snippets :=
        match idv with
        | some i0 =>
          if st2.idToSnippet.any (fun kv => kv.1 == i0) then st2.idToSnippet
          else
            let flat := chunks.flatten
            let lines := (flat.take 2).map strip_tags_and_ws
            st2.idToSnippet ++ [(i0, stripWs (List.intercalate ['\n'] lines))]
        | none => st2.idToSnippet
      { st2 with idToSnippet := snippets }

/-- Model of `build_pages`. -/
def build_pages (contentTable : Tbl) (cols : ContentCols)
    (tocStarts : Option (List Int)) (splitNumbered : Bool) : BPState :=
  let n := tblRowSpan contentTable
  let texts := tblGetD contentTable cols.text
  let idCol := optColTruthy cols.id
  let pageCol := optColTruthy cols.page
  let partCol := optColTruthy cols.part
  let ids := match idCol with | some c => tblGetD contentTable c | none => []
  let pagesCol := match pageCol with | some c => tblGetD contentTable c | none => []
  let parts := match partCol with | some c => tblGetD contentTable c | none => []
  (List.range n).foldl
    (buildRowStep texts ids pagesCol parts idCol pageCol partCol tocStarts splitNumbered)
    ⟨[], [], []⟩

/-! ### Sorting (CPython `sorted` / `list.sort` are stable) -/

/-- Stable insertion of `x` before the first element `y` with `le x y`. -/
def sInsert {α : Type} (le : α → α → Bool) (x : α) : List α → List α
  | [] => [x]
  | y :: t => if le x y then x :: y :: t else y :: sInsert le x t

/-- Stable sort (insertion sort): with `le a b` deciding `key a ≤ key b`
this computes exactly what CPython's stable `sorted` returns. -/
def stableSort {α : Type} (le : α → α → Bool) : List α → List α
  | [] => []
  | x :: t => sInsert le x (stableSort le t)

/-- Code-point lexicographic strict order on strings (Python `str <`). -/
def strLt : Str → Str → Bool
  | [], [] => false
  | [], _ :: _ => true
  | _ :: _, [] => false
  | x :: xs, y :: ys => x < y || (x == y && strLt xs ys)

/-- Python `str <=`. -/
def strLe (a b : Str) : Bool := a == b || strLt a b

/-- Python `max(xs, key=f)` for nonempty `xs`: first element with maximal
key. -/
def maxByFirst {α : Type} (f : α → Nat) : List α → Option α
  | [] => none
  | x :: t => some (t.foldl (fun acc y => if f acc < f y then y else acc) x)

/-! ### Table Selector and metadata (`bok_to_epub.py`, §4.2 of the spec) -/

/-- A table of the legacy database: header column names, header row count,
and the parsed rows.  The model receives these from the legacy-source
capability (the code delegates all binary parsing to `AccessParser`). -/
structure MdbTable where
  cols : List Str
  numRows : Nat
  data : Tbl
deriving DecidableEq, Repr

/-- The legacy database: insertion-ordered catalog of named tables. -/
structure MdbDb where
  catalog : List (Str × MdbTable)
deriving DecidableEq, Repr

/-- Model of `get_col_names` (drops falsy column names, as the source's
comprehension does). -/
def get_col_names (db : MdbDb) (name : Str) : List Str :=
  match getAssoc db.catalog name with
  | some t => t.cols.filter (fun c => !c.isEmpty)
  | none => []

/-- Model of `get_row_count`. -/
def get_row_count (db : MdbDb) (name : Str) : Nat :=
  match getAssoc db.catalog name with
  | some t => t.numRows
  | none => 0

/-- Model of `db.parse_table(name)` (callers only pass catalog names). -/
def parse_table (db : MdbDb) (name : Str) : Tbl :=
  match getAssoc db.catalog name with
  | some t => t.data
  | none => []

/-- Model of `pick_main_content_table`: largest table whose name starts with
the content prefix letter `b`, else the empty name. -/
def pick_main_content_table (db : MdbDb) (tableNames : List Str) : Str :=
  let bTables := tableNames.filter (fun t => strStarts (lowerStr t) (str "b"))
  match maxByFirst (get_row_count db) bTables with
  | some t => t
  | none => []

/-- Model of `pick_main_toc_table`. -/
def pick_main_toc_table (db : MdbDb) (tableNames : List Str) (contentTable : Str) : Str :=
  let fromSuffix :=
    match contentTable with
    | c :: rest => if charLowerAscii c == 'b' then
        let want := 't' :: rest
        if tableNames.contains want then some want else none
      else none
    | [] => none
  match fromSuffix with
  | some w => w
  | none =>
    let tTables := tableNames.filter (fun t => strStarts (lowerStr t) (str "t"))
    match maxByFirst (get_row_count db) tTables with
    | some t => t
    | none => []

/-- First-row cell of a column, decoded and stripped
(`decode_value((tbl.get(key) or [""])[0]).strip()`). -/
def firstCellText (tbl : Tbl) (key : Str) : Str :=
  let vals := tblGetD tbl key
  stripWs (decode_value (vals.headD (.cs [])))

/-- The `pick` helper of `extract_metadata`: exact lowercase key match over
the synonym list, then substring match. -/
def metaPick (mainTbl : Tbl) (cands : List Str) : Str :=
  let keys := mainTbl.map (·.1)
  let key :=
    match keys.find? (fun k => cands.contains (lowerStr k)) with
    | some k => some k
    | none => keys.find? (fun k => cands.any (fun c => strHasInfix (lowerStr k) c))
  match key with
  | some k => if k.isEmpty then [] else firstCellText mainTbl k
  | none => []

/-- Strip a `.bok`/`.mdb`/`.accdb` extension (case-insensitive), as the
title fallback does. -/
def stripBokExt (name : Str) : Str :=
  if strEnds (lowerStr name) (str ".bok") then name.take (name.length - 4)
  else if strEnds (lowerStr name) (str ".mdb") then name.take (name.length - 4)
  else if strEnds (lowerStr name) (str ".accdb") then name.take (name.length - 6)
  else name

/-- Model of `extract_metadata`. -/
def extract_metadata (db : MdbDb) (tableNames : List Str) (fallbackName : Str) :
    Str × Str × Str :=
  let meta :=
    if tableNames.contains (str "Main") then str "Main"
    else if tableNames.contains (str "main") then str "main"
    else []
  let (title0, author, card0) :=
    if meta.isEmpty then ([], [], [])
    else
      let mainTbl := parse_table db meta
      (metaPick mainTbl [str "title", str "book", str "bk", str "name"],
       metaPick mainTbl [str "author", str "auth"],
       metaPick mainTbl [str "betaka", str "card", str "about"])
  let card :=
    if !card0.isEmpty then card0
    else
      match tableNames.find?
          (fun t => (get_col_names db t).any (fun c => strHasInfix (lowerStr c) (str "betaka"))) with
      | some t =>
        let rows := parse_table db t
        match (rows.map (·.1)).find? (fun k => strHasInfix (lowerStr k) (str "betaka")) with
        | some key => firstCellText rows key
        | none => []
      | none => []
  let title := if !title0.isEmpty then title0 else stripBokExt fallbackName
  let cardHtml :=
    if card.isEmpty then []
    else sanitize_html_for_xhtml (to_html_paragraphs (.cs card)).flatten
  let authorLine :=
    if author.isEmpty then []
    else str "<p>المؤلف: " ++ escape_xml author ++ str "</p>"
  let about := str "<div>\n<h1>" ++ escape_xml title ++ str "</h1>\n" ++ authorLine ++
    str "\n" ++ cardHtml ++ str "\n</div>"
  (stripWs title, stripWs author, about)

/-- Maximum of a list of integers with default 0 (`max(xs) if xs else 0`). -/
def intListMax (xs : List Int) : Int :=
  match xs with
  | [] => 0
  | x :: t => t.foldl (fun a b => if a < b then b else a) x

/-- Model of `pick_page_col`: prefer an exact `page` column (else a column
containing `page`), but switch to `hno` when its preview values dwarf the
page numbers. -/
def pick_page_col (contentTable : Tbl) (cols : List Str) : Option Str :=
  let pageCol :=
    if cols.contains (str "page") then str "page"
    else match cols.find? (fun c => strHasInfix (lowerStr c) (str "page")) with
      | some c => c
      | none => []
  if pageCol.isEmpty then none
  else if !cols.contains (str "hno") then some pageCol
  else
    let hnoVals := ((tblGetD contentTable (str "hno")).take 80).filterMap to_int
    let maxHno := intListMax hnoVals
    let pageVals := ((tblGetD contentTable pageCol).take 80).filterMap to_int
    let maxPage := intListMax pageVals
    if max (50 : Int) (maxPage + 50) < maxHno then some (str "hno") else some pageCol

/-! ### Raw TOC parsing, nesting and mapping (`bok_to_epub.py`) -/

/-- A flat raw TOC entry. -/
structure RawTocItem where
  start : Int
  text : Str
  level : Option Int
deriving DecidableEq, Repr

/-- Dedup key `f"{start}|{level or ''}|{text}"` (`level or ''` collapses
`None` and 0). -/
def rawTocKey (start : Int) (level : Option Int) (text : Str) : Str :=
  intDecimal start ++ str "|" ++
    (match level with
     | some l => if l == 0 then [] else intDecimal l
     | none => []) ++ str "|" ++ text

/-- Model of `parse_raw_toc`. -/
def parse_raw_toc (tocTable : Tbl) (textCol startCol : Str) (levelCol : Option Str) :
    Option (List RawTocItem) :=
  if textCol.isEmpty || startCol.isEmpty then none
  else
    let n := tblRowSpan tocTable
    let texts := tblGetD tocTable textCol
    let starts := tblGetD tocTable startCol
    let levels := match levelCol with | some c => tblGetD tocTable c | none => []
    let step := fun (acc : List RawTocItem × List Str) (i : Nat) =>
      let text := stripWs (decode_value (texts.getD i (.cs [])))
      let start := to_int (starts.getD i .cnone)
      let level := if levelCol.isSome then to_int (levels.getD i .cnone) else none
      match start with
      | none => acc
      | some st =>
        if text.isEmpty then acc
        else if strStarts text (str "الجزء") &&
            (match (text.drop (str "الجزء").length).head? with
             | some c => isPySpace c
             | none => false) then acc
        else
          let key := rawTocKey st level text
          if acc.2.contains key then acc
          else (acc.1 ++ [⟨st, text, level⟩], acc.2 ++ [key])
    let items := ((List.range n).foldl step ([], [])).1
    let levelsOnly := items.filterMap (·.level)
    let items :=
      match levelsOnly with
      | [] => items
      | l0 :: lrest =>
        let mn := lrest.foldl (fun a b => if b < a then b else a) l0
        let shift : Int := if mn ≤ 0 then 1 - mn else if 1 < mn then 1 - mn else 0
        if shift == 0 then items
        else items.map fun it =>
          match it.level with
          | some l => { it with level := some (l + shift) }
          | none => it
    if items.isEmpty then none else some items

/-- A mapped TOC entry (`text`, target page, in-document anchor). -/
structure TocEnt where
  text : Str
  page : Nat
  anchor : Str
deriving DecidableEq, Repr

/-- Node of the TOC forest handed to the renderers: either a
`(entry, children)` tuple produced by `nest_by_level` or a plain entry
dictionary from the flat paths. -/
inductive TocT where
  | tup (e : TocEnt) (kids : List TocT)
  | ent (e : TocEnt)

/-- Pop all frames of level at least `lv` (`while len(stack) > 1 and
stack[-1][0] >= level: stack.pop()`), attaching each finished node to the
frame below it, or to the root once the stack empties (in the source the
lists are shared by reference, so attachment happened at push time). -/
def nestPopCore (lv : Int) :
    Nat → List TocT × List (Int × TocEnt × List TocT) →
      List TocT × List (Int × TocEnt × List TocT)
  | _, (root, []) => (root, [])
  | 0, st => st
  | fuel + 1, (root, (l, e, kids) :: rest) =>
    if lv ≤ l then
      match rest with
      | [] => (root ++ [TocT.tup e kids], [])
      | (l2, e2, k2) :: r2 => nestPopCore lv fuel (root, (l2, e2, k2 ++ [TocT.tup e kids]) :: r2)
    else (root, (l, e, kids) :: rest)

/-- The `while ... stack.pop()` loop. -/
def nestPop (lv : Int) (st : List TocT × List (Int × TocEnt × List TocT)) :
    List TocT × List (Int × TocEnt × List TocT) :=
  nestPopCore lv st.2.length st

/-- Fuel-driven body of `nestFlushAll`. -/
def nestFlushCore :
    Nat → List TocT × List (Int × TocEnt × List TocT) → List TocT
  | _, (root, []) => root
  | 0, (root, _) => root
  | fuel + 1, (root, (_, e, kids) :: rest) =>
    match rest with
    | [] => root ++ [TocT.tup e kids]
    | (l2, e2, k2) :: r2 => nestFlushCore fuel (root, (l2, e2, k2 ++ [TocT.tup e kids]) :: r2)

/-- Detach every remaining frame at the end of the walk. -/
def nestFlushAll (st : List TocT × List (Int × TocEnt × List TocT)) : List TocT :=
  nestFlushCore st.2.length st

/-- Model of `nest_by_level` on mapped items carrying an optional level. -/
def nest_by_level (items : List (TocEnt × Option Int)) : List TocT :=
  let step := fun (st : List TocT × List (Int × TocEnt × List TocT)) (it : TocEnt × Option Int) =>
    let level : Int :=
      match it.2 with
      | some l => if 0 < l then l else 1
      | none => 1
    let st := nestPop level st
    (st.1, (level, it.1, []) :: st.2)
  nestFlushAll (items.foldl step ([], []))

/-- Find the first `<p[^>]*>` (case-insensitive) opening; return the content
up to the first following `</p>` if one exists (`re.search` of
`<p[^>]*>([\s\S]*?)</p>`). -/
def firstParagraphContent : Str → Option Str
  | [] => none
  | c :: t =>
    (if c == '<' && (t.head?.map charLowerAscii) == some 'p' then
      let r := t.drop 1
      let span := r.takeWhile (fun x => !(x == '>'))
      if (r.drop span.length).head? == some '>' then
        let rec findClose : Str → Option Str
          | [] => none
          | d :: u =>
            if strStarts (lowerStr (d :: u)) (str "</p>") then some []
            else (findClose u).map (d :: ·)
        findClose (r.drop (span.length + 1))
      else none
    else none).orElse fun _ => firstParagraphContent t

/-- Model of `auto_toc_from_pages`: scan each page's first paragraph for a
heading, dedup by text, cap the title length. -/
def auto_toc_from_pages (pages : List Page) : Option (List TocEnt) :=
  let step := fun (acc : List TocEnt × List Str) (page : Page) =>
    match firstParagraphContent page.textHtml with
    | none => acc
    | some content =>
      let t := strip_tags_and_ws content
      if t.isEmpty || 100 < t.length then acc
      else if is_heading_text t && !acc.2.contains t then
        (acc.1 ++ [⟨t, page.pageNumber, []⟩], acc.2 ++ [t])
      else acc
  let items := (pages.foldl step ([], [])).1
  if items.isEmpty then none else some items

/-- Model of `map_toc`: resolve anchors to page numbers, prefer the
`تفسير` variant of a `سورة` heading when the target snippet carries it,
dedup, and either sort flat or nest by level. -/
def map_toc (rawToc : List RawTocItem) (idToPageNumber : List (Int × Nat))
    (idToSnippet : List (Int × Str)) : Option (List TocT) :=
  if rawToc.isEmpty then none
  else
    let step := fun (acc : List (TocEnt × Option Int) × List Str) (entry : RawTocItem) =>
      let start := entry.start
      let pn : Option Nat :=
        match getAssoc idToPageNumber start with
        | some p => if p == 0 then (if start == 0 then some 1 else none) else some p
        | none => if start == 0 then some 1 else none
      match pn with
      | none => acc
      | some pageNumber =>
        let text0 := entry.text
        let snippet := (getAssoc idToSnippet start).getD []
        let text :=
          if strStarts text0 (str "سورة ") then
            let alt := str "تفسير " ++ text0
            if strHasInfix snippet alt then alt else text0
          else text0
        let level := entry.level
        let key := natDecimal pageNumber ++ str "|" ++
          (match level with
           | some l => if l == 0 then [] else intDecimal l
           | none => []) ++ str "|" ++ text
        if acc.2.contains key then acc
        else (acc.1 ++ [(⟨text, pageNumber, if start == 0 then [] else str "toc_" ++ intDecimal start⟩, level)], acc.2 ++ [key])
    let items := (rawToc.foldl step ([], [])).1
    if items.isEmpty then none
    else if !items.any (fun it => it.2.isSome) then
      some ((stableSort (fun a b => a.1.page ≤ b.1.page) items).map (fun it => TocT.ent it.1))
    else some (nest_by_level items)

/-! ### Package Serializer (`write_epub` and renderers, §4.5 of the spec) -/

/-- The complete book model handed to the serializer. -/
structure EpubBook where
  title : Str
  author : Str
  about : Str
  pages : List Page
  tocTree : List TocT

/-- The shared right-to-left stylesheet (`BASE_CSS`). -/
def BASE_CSS : Str :=
  str "*\x7bdirection: rtl\x7d\nbody\x7bline-height:1.7;margin:1.5rem;color:#1f1f1f\x7d\n.text-center,h1,h2,h3\x7btext-align:center\x7d"

/-- Model of `render_page`. -/
def render_page (title textHtml : Str) : Str :=
  str "<?xml version=\"1.0\" encoding=\"utf-8\"?>\n<!DOCTYPE html>\n<html xmlns=\"http://www.w3.org/1999/xhtml\" lang=\"ar\" dir=\"rtl\">\n  <head>\n    <meta charset=\"utf-8\" />\n    <title>" ++
    escape_xml title ++
    str "</title>\n    <link rel=\"stylesheet\" href=\"../styles.css\" />\n  </head>\n  <body>\n    " ++
    textHtml ++ str "\n  </body>\n</html>\n"

/-- Link target of a TOC entry (`page_map[page]` plus optional fragment);
`page_map` misses are modelled as an empty target (unreachable for books
produced by `build_pages`, where every entry page is an emitted page). -/
def tocHref (pageMap : List (Nat × Str)) (e : TocEnt) : Str :=
  (getAssoc pageMap e.page).getD [] ++ (if e.anchor.isEmpty then [] else '#' :: e.anchor)

mutual
/-- Concatenation of rendered items (`"".join(render_item(it) ...)`). -/
def renderNavCat (pageMap : List (Nat × Str)) : List TocT → Str
  | [] => []
  | it :: rest => renderNavItem pageMap it ++ renderNavCat pageMap rest

/-- Model of `render_nav_items`' `render_item`. -/
def renderNavItem (pageMap : List (Nat × Str)) : TocT → Str
  | .tup e kids =>
    str "<li><a href=\"" ++ tocHref pageMap e ++ str "\">" ++ escape_xml e.text ++
      str "</a>" ++
      (match kids with
       | [] => []
       | _ :: _ => str "<ol>" ++ renderNavCat pageMap kids ++ str "</ol>") ++
      str "</li>"
  | .ent e =>
    str "<li><a href=\"" ++ tocHref pageMap e ++ str "\">" ++ escape_xml e.text ++
      str "</a></li>"
end

/-- Model of `render_nav_items`' `render_list`. -/
def renderNavList (pageMap : List (Nat × Str)) (items : List TocT) : Str :=
  match items with
  | [] => []
  | _ :: _ => str "<ol>" ++ renderNavCat pageMap items ++ str "</ol>"

mutual
/-- Model of `render_ncx_items`' `render_item`, threading the global
`nav_index` counter (pre-order numbering). -/
def renderNcxItem (pageMap : List (Nat × Str)) (idx : Nat) : TocT → Str × Nat
  | .tup e kids =>
    let kidsOut := renderNcxList pageMap (idx + 1) kids
    (str "<navPoint id=\"nav_" ++ natDecimal idx ++ str "\"><navLabel><text>" ++
      escape_xml e.text ++ str "</text></navLabel><content src=\"" ++ tocHref pageMap e ++
      str "\"/>" ++ kidsOut.1 ++ str "</navPoint>", kidsOut.2)
  | .ent e =>
    (str "<navPoint id=\"nav_" ++ natDecimal idx ++ str "\"><navLabel><text>" ++
      escape_xml e.text ++ str "</text></navLabel><content src=\"" ++ tocHref pageMap e ++
      str "\"/></navPoint>", idx + 1)

/-- Sequential rendering of a node list with counter threading. -/
def renderNcxList (pageMap : List (Nat × Str)) (idx : Nat) : List TocT → Str × Nat
  | [] => ([], idx)
  | it :: rest =>
    let h := renderNcxItem pageMap idx it
    let t := renderNcxList pageMap h.2 rest
    (h.1 ++ t.1, t.2)
end

/-- Model of `render_nav`. -/
def render_nav (title : Str) (tocTree : List TocT) (pageMap : List (Nat × Str)) : Str :=
  let tocHtml := if tocTree.isEmpty then [] else renderNavList pageMap tocTree
  let infoLink := str "<li><a href=\"info.xhtml\">بطاقة الكتاب</a></li>"
  let navLink := str "<li><a href=\"nav.xhtml\">فهرس الموضوعات</a></li>"
  let navItems :=
    if strStarts tocHtml (str "<ol>") then
      str "<ol>" ++ infoLink ++ navLink ++ tocHtml.drop 4
    else str "<ol>" ++ infoLink ++ navLink ++ str "</ol>"
  str "<?xml version=\"1.0\" encoding=\"utf-8\"?>\n<!DOCTYPE html>\n<html xmlns=\"http://www.w3.org/1999/xhtml\" xmlns:epub=\"http://www.idpf.org/2007/ops\" lang=\"ar\" dir=\"rtl\">\n  <head>\n    <meta charset=\"utf-8\" />\n    <title>" ++
    escape_xml title ++
    str "</title>\n    <link rel=\"stylesheet\" href=\"styles.css\" />\n  </head>\n  <body>\n    <nav epub:type=\"toc\" id=\"toc\">\n      <h1>فهرس الموضوعات</h1>\n      " ++
    navItems ++ str "\n    </nav>\n  </body>\n  </html>\n"

/-- Model of `render_ncx`. -/
def render_ncx (title : Str) (tocTree : List TocT) (pageMap : List (Nat × Str))
    (uid : Str) : Str :=
  let ncxItems := if tocTree.isEmpty then [] else (renderNcxList pageMap 0 tocTree).1
  str "<?xml version=\"1.0\" encoding=\"utf-8\"?>\n<ncx xmlns=\"http://www.daisy.org/z3986/2005/ncx/\" version=\"2005-1\">\n  <head>\n    <meta content=\"" ++
    escape_xml uid ++
    str "\" name=\"dtb:uid\"/>\n    <meta content=\"0\" name=\"dtb:depth\"/>\n    <meta content=\"0\" name=\"dtb:totalPageCount\"/>\n    <meta content=\"0\" name=\"dtb:maxPageNumber\"/>\n  </head>\n  <docTitle>\n    <text>" ++
    escape_xml title ++
    str "</text>\n  </docTitle>\n  <navMap>\n    <navPoint id=\"info\">\n      <navLabel><text>بطاقة الكتاب</text></navLabel>\n      <content src=\"info.xhtml\"/>\n    </navPoint>\n    <navPoint id=\"nav\">\n      <navLabel><text>فهرس الموضوعات</text></navLabel>\n      <content src=\"nav.xhtml\"/>\n    </navPoint>\n    " ++
    ncxItems ++ str "\n  </navMap>\n</ncx>\n"

/-- Model of `render_opf`. -/
def render_opf (title author manifestItems spineItems : Str)
    (includeTocPage : Bool) (modified : Str) : Str :=
  let identifier := str "urn:shamela_bok:0"
  let authorXml :=
    if author.isEmpty then []
    else str "<dc:creator>" ++ escape_xml author ++ str "</dc:creator>"
  let includeToc := if includeTocPage then str "<itemref idref=\"nav\" />" else []
  str "<?xml version=\"1.0\" encoding=\"utf-8\"?>\n<package xmlns=\"http://www.idpf.org/2007/opf\" unique-identifier=\"bookid\" version=\"3.0\">\n  <metadata xmlns:dc=\"http://purl.org/dc/elements/1.1/\">\n    <dc:identifier id=\"bookid\">" ++
    escape_xml identifier ++ str "</dc:identifier>\n    <dc:title>" ++ escape_xml title ++
    str "</dc:title>\n    " ++ authorXml ++
    str "\n    <dc:publisher>Shamela (.bok)</dc:publisher>\n    <dc:language>ar</dc:language>\n    <meta property=\"dcterms:modified\">" ++
    escape_xml modified ++
    str "</meta>\n  </metadata>\n  <manifest>\n    <item id=\"info\" href=\"info.xhtml\" media-type=\"application/xhtml+xml\" />\n    <item id=\"nav\" href=\"nav.xhtml\" media-type=\"application/xhtml+xml\" properties=\"nav\" />\n    <item id=\"ncx\" href=\"toc.ncx\" media-type=\"application/x-dtbncx+xml\" />\n    <item id=\"css\" href=\"styles.css\" media-type=\"text/css\" />\n    " ++
    manifestItems ++
    str "\n  </manifest>\n  <spine toc=\"ncx\" page-progression-direction=\"rtl\">\n    " ++
    includeToc ++ str "\n    " ++ spineItems ++ str "\n  </spine>\n</package>\n"

/-- Left-pad a numeral with zeros (`f"{n:0{z}d}"` for `n >= 0`). -/
def zeroPad (z : Nat) (digits : Str) : Str :=
  List.replicate (z - digits.length) '0' ++ digits

/-- Pages sorted by `page_number` (stable, as `sorted` is). -/
def sortedPages (book : EpubBook) : List Page :=
  stableSort (fun a b => a.pageNumber ≤ b.pageNumber) book.pages

/-- The zero-fill width `len(str(sorted_pages[-1]["page_number"])) + 1`. -/
def zfillWidth (book : EpubBook) : Nat :=
  match (sortedPages book).getLast? with
  | some p => (natDecimal p.pageNumber).length + 1
  | none => 2

/-- Generated content-document file name of a page. -/
def pageFileName (z : Nat) (p : Page) : Str :=
  (match p.part with
   | some k => str "page_" ++ intDecimal k ++ str "_"
   | none => str "page_") ++ zeroPad z (natDecimal p.pageNumber) ++ str ".xhtml"

/-- The `(page_number, file_name, page)` triples of `write_epub`. -/
def pageEntries (book : EpubBook) : List (Nat × Str × Page) :=
  (sortedPages book).map fun p => (p.pageNumber, pageFileName (zfillWidth book) p, p)

/-- Model of `write_epub`: the archive as the ordered list of entry names
with their text payloads (the container always stores `mimetype` first,
uncompressed; compression details carry no information for this module's
claims and are modelled in the repair engine instead). -/
def write_epub (book : EpubBook) (includeTocPage : Bool) (modified uid : Str) :
    List (Str × Str) :=
  let entries := pageEntries book
  let pageMap : List (Nat × Str) := entries.map fun e => (e.1, str "text/" ++ e.2.1)
  let manifestItems :=
    (entries.map fun e =>
      str "<item id=\"p" ++ natDecimal e.1 ++ str "\" href=\"text/" ++ e.2.1 ++
        str "\" media-type=\"application/xhtml+xml\" />").flatten
  let spineItems :=
    (entries.map fun e => str "<itemref idref=\"p" ++ natDecimal e.1 ++ str "\" />").flatten
  [(str "mimetype", str "application/epub+zip"),
   (str "META-INF/container.xml",
    str "<?xml version=\"1.0\" encoding=\"utf-8\"?>\n<container version=\"1.0\" xmlns=\"urn:oasis:names:tc:opendocument:xmlns:container\">\n  <rootfiles>\n    <rootfile full-path=\"OEBPS/content.opf\" media-type=\"application/oebps-package+xml\" />\n  </rootfiles>\n</container>\n"),
   (str "OEBPS/styles.css", BASE_CSS)] ++
  (entries.map fun e =>
    (str "OEBPS/text/" ++ e.2.1, render_page book.title e.2.2.textHtml)) ++
  [(str "OEBPS/info.xhtml",
    str "<?xml version=\"1.0\" encoding=\"utf-8\"?>\n<!DOCTYPE html>\n<html xmlns=\"http://www.w3.org/1999/xhtml\" lang=\"ar\" dir=\"rtl\">\n  <head>\n    <meta charset=\"utf-8\" />\n    <title>بطاقة الكتاب</title>\n    <link rel=\"stylesheet\" href=\"styles.css\" />\n  </head>\n  <body>\n    " ++
    sanitize_html_for_xhtml book.about ++ str "\n  </body>\n</html>\n"),
   (str "OEBPS/nav.xhtml", render_nav book.title book.tocTree pageMap),
   (str "OEBPS/toc.ncx", render_ncx book.title book.tocTree pageMap uid),
   (str "OEBPS/content.opf",
    render_opf book.title book.author manifestItems spineItems includeTocPage modified)]

/-! ### Top-level synthesis (`bok_to_epub`, §4 and §7 of the spec) -/

/-- Model of `bok_to_epub`.  The legacy database is supplied as a parsed
structure (the code delegates the binary format to `AccessParser`); the
`modified` timestamp and `uid` are the two ambient inputs of `write_epub`.
`Except.error` models the `ValueError`s the source raises; when it is
returned, nothing has been written to the destination. -/
def bok_to_epub (db : MdbDb) (inputName : Str) (includeTocPage splitNumbered : Bool)
    (modified uid : Str) : Except Str (List (Str × Str)) :=
  let tableNames :=
    stableSort strLe ((db.catalog.map (·.1)).filter (fun t => !(t == str "MSysObjects")))
  let contentTableName := pick_main_content_table db tableNames
  if contentTableName.isEmpty then
    .error (str "could not find a content table")
  else
    let tocTableName := pick_main_toc_table db tableNames contentTableName
    let meta := extract_metadata db tableNames inputName
    let contentCols := get_col_names db contentTableName
    let contentTable := parse_table db contentTableName
    let textCol :=
      if contentCols.contains (str "nass") then str "nass"
      else match contentCols.find?
          (fun c => ((tblGetD contentTable c).take 50).any (fun v => match v with | .cs _ => true | _ => false)) with
        | some c => c
        | none => []
    if textCol.isEmpty then
      .error (str "حدد جدول المحتوى وعمود النص")
    else
      let cols : ContentCols :=
        { text := textCol,
          id := if contentCols.contains (str "id") then some (str "id") else none,
          page := pick_page_col contentTable contentCols,
          part :=
            if contentCols.contains (str "part") then some (str "part")
            else contentCols.find? fun c =>
              lowerStr c == str "part" || strHasInfix (lowerStr c) (str "part") }
      let rawToc : Option (List RawTocItem) :=
        if tocTableName.isEmpty then none
        else
          let tocCols := get_col_names db tocTableName
          let tocTable := parse_table db tocTableName
          let tocTextCol :=
            if tocCols.contains (str "tit") then str "tit"
            else match tocCols.find?
                (fun c => ((tblGetD tocTable c).take 50).any (fun v => match v with | .cs _ => true | _ => false)) with
              | some c => c
              | none => []
          let tocStartCol :=
            if tocCols.contains (str "id") then str "id"
            else if tocCols.contains (str "page") then str "page" else []
          let tocLevelCol :=
            if tocCols.contains (str "lvl") then some (str "lvl")
            else if tocCols.contains (str "level") then some (str "level") else none
          parse_raw_toc tocTable tocTextCol tocStartCol tocLevelCol
      let tocStarts : Option (List Int) := rawToc.map (fun items => (items.map (·.start)).dedup)
      let st := build_pages contentTable cols tocStarts splitNumbered
      let tocTree0 :=
        match rawToc with
        | some items => map_toc items st.idToPageNumber st.idToSnippet
        | none => none
      let tocTree1 : Option (List TocT) :=
        match tocTree0 with
        | some t => some t
        | none => (auto_toc_from_pages st.pages).map (fun (l : List TocEnt) => l.map TocT.ent)
      let tocTree : List TocT :=
        match tocTree1 with
        | some t => t
        | none =>
          st.pages.map fun (p : Page) =>
            TocT.ent ⟨str "صفحة " ++ intDecimal p.page, p.pageNumber, []⟩
      .ok (write_epub
        { title := meta.1, author := meta.2.1, about := meta.2.2, pages := st.pages,
          tocTree := tocTree }
        includeTocPage modified uid)

/-! ### Path arithmetic (`posixpath`, as used by `epub.py`)

`relpath` calls `abspath`, which roots relative paths at the process working
directory; both arguments get the same root, so the model roots them at
`/` (faithful except for hostile paths that climb above the working
directory with `..`). -/

/-- Fuel-driven body of `splitSlash`. -/
def splitSlashCore : Nat → Str → List Str
  | 0, s => [s]
  | fuel + 1, s =>
    let seg := s.takeWhile (fun c => !(c == '/'))
    match s.drop seg.length with
    | [] => [seg]
    | _ :: t => seg :: splitSlashCore fuel t

/-- Split a string on `/` (CPython `s.split("/")`). -/
def splitSlash (s : Str) : List Str := splitSlashCore s.length s

/-- Model of `posixpath.normpath`. -/
def pyNormpath (p : Str) : Str :=
  if p.isEmpty then str "."
  else
    let initSlashes : Nat :=
      if strStarts p (str "/") then
        if strStarts p (str "//") && !strStarts p (str "///") then 2 else 1
      else 0
    let comps := splitSlash p
    let newComps := comps.foldl
      (fun (acc : List Str) comp =>
        if comp.isEmpty || comp == str "." then acc
        else if !(comp == str "..") || (initSlashes == 0 && acc.isEmpty) ||
            (!acc.isEmpty && acc.getLast? == some (str "..")) then acc ++ [comp]
        else if !acc.isEmpty then acc.dropLast
        else acc)
      []
    let path := List.replicate initSlashes '/' ++ List.intercalate (str "/") newComps
    if path.isEmpty then str "." else path

/-- Model of `posixpath.join` for two components. -/
def pyJoin (a b : Str) : Str :=
  if strStarts b (str "/") then b
  else if a.isEmpty || strEnds a (str "/") then a ++ b
  else a ++ str "/" ++ b

/-- Model of `posixpath.dirname`. -/
def pyDirname (s : Str) : Str :=
  let afterSlash := (s.reverse.takeWhile (fun c => !(c == '/'))).length
  if afterSlash == s.length then [] else s.take (s.length - afterSlash - 1)

/-- Nonempty components of the absolutised, normalised path. -/
def pyAbsParts (p : Str) : List Str :=
  (splitSlash (pyNormpath (str "/" ++ p))).filter (fun x => !x.isEmpty)

/-- Length of the common prefix of two lists. -/
def commonPrefixLen {α : Type} [BEq α] : List α → List α → Nat
  | a :: as, b :: bs => if a == b then commonPrefixLen as bs + 1 else 0
  | _, _ => 0

/-- Model of `posixpath.relpath(path, start)` (both rooted identically). -/
def pyRelpath (path start : Str) : Str :=
  let pl := pyAbsParts path
  let sl := pyAbsParts start
  let i := commonPrefixLen sl pl
  let rel := List.replicate (sl.length - i) (str "..") ++ pl.drop i
  if rel.isEmpty then str "." else List.intercalate (str "/") rel

/-! ### XML documents as lxml element trees (`epub.py`) -/

/-- An lxml element: qualified tag (`{uri}local`), insertion-ordered
attributes, text before the first child, children, and tail text after the
closing tag. -/
inductive XNode where
  | elem (tag : Str) (attrs : List (Str × Str)) (text : Option Str)
      (children : List XNode) (tail : Option Str)

/-- Element tag. -/
def XNode.tag : XNode → Str
  | .elem t _ _ _ _ => t

/-- Element attributes. -/
def XNode.attrs : XNode → List (Str × Str)
  | .elem _ a _ _ _ => a

/-- Element children. -/
def XNode.children : XNode → List XNode
  | .elem _ _ _ c _ => c

/-- Replace the children list. -/
def XNode.withChildren : XNode → List XNode → XNode
  | .elem t a x _ tl, c => .elem t a x c tl

/-- `element.get(key)`. -/
def attrGet (c : XNode) (k : Str) : Option Str :=
  getAssoc c.attrs k

/-- `element.get(key, "")`. -/
def attrGetD (c : XNode) (k : Str) : Str := (attrGet c k).getD []

/-- `element.set(key, value)`: update in place, else append (lxml keeps
attribute order). -/
def attrSet (c : XNode) (k v : Str) : XNode :=
  match c with
  | .elem t a x cs tl => .elem t (setAssoc a k v) x cs tl

/-- Python truthiness of `element.get(key)` (`None` and `""` falsy). -/
def attrTruthy (o : Option Str) : Option Str :=
  match o with
  | some [] => none
  | x => x

/-- The `_ns` helper: `root.tag.split("}")[0] + "}"` when namespaced. -/
def nsOfTag (tag : Str) : Str :=
  if tag.any (· == '}') then tag.takeWhile (fun c => !(c == '}')) ++ ['}'] else []

mutual
/-- First descendant with the given tag (`root.find(f".//{tag}")`),
document order. -/
def findFirstNode (t : Str) : XNode → Option XNode
  | .elem _ _ _ cs _ => findFirstList t cs

/-- Search a sibling list: each node itself, then its descendants. -/
def findFirstList (t : Str) : List XNode → Option XNode
  | [] => none
  | c :: rest =>
    if c.tag == t then some c
    else match findFirstNode t c with
      | some r => some r
      | none => findFirstList t rest
end

mutual
/-- Rewrite the first descendant with the given tag through `f`, returning
the new tree and `f`'s side output. -/
def replaceFirstNode {β : Type} (t : Str) (f : XNode → XNode × β) :
    XNode → Option (XNode × β)
  | .elem tg a x cs tl =>
    match replaceFirstList t f cs with
    | some (cs2, b) => some (.elem tg a x cs2 tl, b)
    | none => none

/-- Sibling-list counterpart of `replaceFirstNode`. -/
def replaceFirstList {β : Type} (t : Str) (f : XNode → XNode × β) :
    List XNode → Option (List XNode × β)
  | [] => none
  | c :: rest =>
    if c.tag == t then
      let r := f c
      some (r.1 :: rest, r.2)
    else match replaceFirstNode t f c with
      | some (c2, b) => some (c2 :: rest, b)
      | none =>
        match replaceFirstList t f rest with
        | some (rest2, b) => some (c :: rest2, b)
        | none => none
end

/-! ### The archive container (`zipfile`, as used by `epub.py`) -/

/-- Entry payload: a document lxml can parse (kept structurally; reparsing
an lxml serialisation yields the same tree, which this models as identity),
or raw bytes standing for any other payload, including unparseable XML. -/
inductive EData where
  | xml (decl : Bool) (root : XNode)
  | bin (bs : List Nat)

/-- A zip entry: name, payload, compression mode (0 stored / 8 deflated),
and DOS modification time.  The timestamp is part of the written bytes, so
byte-identity of archives includes it. -/
structure ZEntry where
  name : Str
  data : EData
  ctype : Nat
  mtime : Nat

/-- An archive is its ordered entry list (duplicate names allowed). -/
abbrev Archive := List ZEntry

/-- UTF-8 encoding of a model string. -/
def utf8Enc (s : Str) : List Nat :=
  s.flatMap fun c =>
    let n := c.toNat
    if n < 0x80 then [n]
    else if n < 0x800 then [0xC0 + n / 64, 0x80 + n % 64]
    else if n < 0x10000 then [0xE0 + n / 4096, 0x80 + n / 64 % 64, 0x80 + n % 64]
    else [0xF0 + n / 262144, 0x80 + n / 4096 % 64, 0x80 + n / 64 % 64, 0x80 + n % 64]

mutual
/-- A plain XML printer standing in for `etree.tostring` on the structural
side (its exact byte shape only matters where the code reads a document as
raw bytes, which the repair paths never do for `.opf` payloads). -/
def emitNode (n : XNode) : Str :=
  match n with
  | .elem t a x cs tl =>
    str "<" ++ t ++
      (a.map (fun kv => str " " ++ kv.1 ++ str "=\"" ++ kv.2 ++ str "\"")).flatten ++
      str ">" ++ x.getD [] ++ emitList cs ++ str "</" ++ t ++ str ">" ++ tl.getD []

/-- Children printer. -/
def emitList : List XNode → Str
  | [] => []
  | c :: rest => emitNode c ++ emitList rest
end

/-- Payload bytes (`ZipFile.read`). -/
def dataBytes : EData → List Nat
  | .bin bs => bs
  | .xml decl root =>
    utf8Enc ((if decl then str "<?xml version=\x271.0\x27 encoding=\x27utf-8\x27?>\n" else []) ++
      emitNode root)

/-- Entry names in order (`namelist()`), duplicates included. -/
def namesOf (A : Archive) : List Str := A.map (·.name)

/-- Model of `_unique_infos`: last occurrence of each name wins, output
ordered by position of the last occurrence. -/
def dedupSeen : Archive → List Str → Archive
  | [], _ => []
  | e :: t, seen =>
    if seen.contains e.name then dedupSeen t seen
    else e :: dedupSeen t (e.name :: seen)

/-- Model of `_unique_infos`. -/
def uniqueEntries (A : Archive) : Archive := (dedupSeen A.reverse []).reverse

/-- Model of `_needs_cleanup`: duplicates present, or a compressed
`mimetype` (`getinfo` resolves a name to its last entry). -/
def needsCleanup (A : Archive) : Bool :=
  !((uniqueEntries A).length == A.length) ||
    (match A.reverse.find? (fun e => e.name == str "mimetype") with
     | some m => !(m.ctype == 0)
     | none => false)

/-- Model of `_rewrite_epub_dedup`: write `mimetype` first (stored
uncompressed, with a fresh `ZipInfo` carrying the current time `now`), then
every other unique entry under its original `ZipInfo` (same compression
mode and timestamp), with payload replacements applied by name.  Because
each unique entry is the last of its name, `read(info.filename)` returns
that entry's own payload. -/
def rewriteDedup (now : Nat) (uniq : Archive) (repl : List (Str × EData)) : Archive :=
  (match uniq.find? (fun e => e.name == str "mimetype") with
   | some m => [{ name := str "mimetype", data := m.data, ctype := 0, mtime := now }]
   | none => []) ++
  uniq.filterMap fun info =>
    if info.name == str "mimetype" then none
    else some { info with data := (getAssoc repl info.name).getD info.data }

/-- Validity check of `_pick_valid_opf` for one entry: parseable XML with
both a manifest and a spine descendant. -/
def entryValidOpf (e : ZEntry) : Bool :=
  match e.data with
  | .xml _ root =>
    let ns := nsOfTag root.tag
    (findFirstNode (ns ++ str "manifest") root).isSome &&
      (findFirstNode (ns ++ str "spine") root).isSome
  | .bin _ => false

/-- Model of `_pick_valid_opf`: the last `.opf` entry (archive order) that
parses and contains manifest and spine. -/
def pickValidOpf (A : Archive) : Option ZEntry :=
  A.reverse.find? fun e => strEnds e.name (str ".opf") && entryValidOpf e

/-! ### Href resolution and case repair (`epub.py`) -/

/-- Model of `_href_resolveds`: strip the fragment, strip one `./`, resolve
against the OPF directory and bare, normalise, dedup preserving order. -/
def hrefResolveds (opfDir href : Str) : List Str × Str :=
  let base := href.takeWhile (fun c => !(c == '#'))
  let frag := if href.any (· == '#') then href.drop (base.length + 1) else []
  let base := dropPre base (str "./")
  let cands := (if opfDir.isEmpty then [] else [pyJoin opfDir base]) ++ [base]
  let resolveds := cands.foldl
    (fun (acc : List Str) cand =>
      let r := pyNormpath cand
      if acc.contains r then acc else acc ++ [r])
    []
  (resolveds, frag)

/-- Model of `_href_exists`. -/
def hrefExists (names : List Str) (opfDir href : Str) : Bool :=
  (hrefResolveds opfDir href).1.any (fun r => names.contains r)

/-- The value list of `zip_lower_map` for a lowered key: all distinct entry
names whose lowercase form equals it (the source builds the map by set
iteration, whose order is irrelevant because only singleton lists are
used). -/
def lowerMatches (names : List Str) (k : Str) : List Str :=
  names.dedup.filter (fun n => lowerStr n == k)

/-- Model of `_fix_href_case`: keep a resolving href; otherwise follow a
unique case-insensitive candidate and rebuild a relative href to it. -/
def fixHrefCase (names : List Str) (opfDir href : Str) : Str :=
  let (resolveds, frag) := hrefResolveds opfDir href
  if resolveds.any (fun r => names.contains r) then href
  else
    match resolveds.findSome? (fun resolved =>
      match lowerMatches names (lowerStr resolved) with
      | [actual] =>
        let rel :=
          if !opfDir.isEmpty && strStarts actual (opfDir ++ str "/") then
            pyRelpath actual opfDir
          else actual
        let rel := dropPre rel (str "./")
        some (if frag.isEmpty then rel else rel ++ '#' :: frag)
      | _ => none) with
    | some h => h
    | none => href

/-! ### Manifest and spine normalisation (`epub.py`) -/

/-- Whole-string match of `page_id_re` (`page_(\d+)`), giving the page
number. -/
def pageIdNum (s : Str) : Option Nat :=
  if strStarts s (str "page_") then
    let d := s.drop (str "page_").length
    if d.isEmpty || !d.all isAnyDigit then none
    else some (d.foldl (fun a c => a * 10 + digitVal c) 0)
  else none

/-- Model of `_reorder_pages` on a children list: children whose attribute
fully matches `page_(\d+)` are stably sorted by that number and placed back
into the positions such children occupied; all others stay fixed. -/
def reorderPages (ns tagName attr : Str) (children : List XNode) : List XNode :=
  let isTarget := fun (c : XNode) =>
    c.tag == ns ++ tagName && (pageIdNum (attrGetD c attr)).isSome
  let keyOf := fun (c : XNode) => (pageIdNum (attrGetD c attr)).getD 0
  let targets := children.filter isTarget
  if targets.isEmpty then children
  else
    let sortedTargets := stableSort (fun a b => keyOf a ≤ keyOf b) targets
    let rec fill : List XNode → List XNode → List XNode
      | [], _ => []
      | c :: rest, queue =>
        if isTarget c then
          match queue with
          | q :: qs => q :: fill rest qs
          | [] => c :: fill rest []
        else c :: fill rest queue
    fill children sortedTargets

/-- Internal state of the manifest walk: kept children tagged with their
original position (standing in for object identity, so removal targets the
exact element the source removes), and `manifest_by_id`. -/
structure ManifestWalk where
  kept : List (Nat × XNode)
  byId : List (Str × Nat × XNode)

/-- The in-place href case repair `_normalize_manifest` applies to an item
before dedup bookkeeping (`item.set("href", _fix_href_case(...))`). -/
def fixItemHref (names : List Str) (opfDir : Str) (c : XNode) : XNode :=
  match attrTruthy (attrGet c (str "href")) with
  | some href => attrSet c (str "href") (fixHrefCase names opfDir href)
  | none => c

/-- One `_normalize_manifest` loop step over an original child. -/
def manifestStep (ns : Str) (names : List Str) (opfDir : Str)
    (st : ManifestWalk) (ic : Nat × XNode) : ManifestWalk :=
  let (i, c) := ic
  if !(c.tag == ns ++ str "item") then { st with kept := st.kept ++ [(i, c)] }
  else
    match attrTruthy (attrGet c (str "id")) with
    | none => { st with kept := st.kept ++ [(i, c)] }
    | some itemId =>
      let c := fixItemHref names opfDir c
      match getAssoc st.byId itemId with
      | none =>
        { kept := st.kept ++ [(i, c)], byId := st.byId ++ [(itemId, (i, c))] }
      | some (j, prev) =>
        let prevOk :=
          match attrTruthy (attrGet prev (str "href")) with
          | some h => hrefExists names opfDir h
          | none => false
        let currOk :=
          match attrTruthy (attrGet c (str "href")) with
          | some h => hrefExists names opfDir h
          | none => false
        if prevOk && !currOk then
          -- keep the earlier item, drop the current one
          st
        else
          -- keep the current item, remove the earlier one from the manifest
          { kept := (st.kept.filter (fun e => !(e.1 == j))) ++ [(i, c)],
            byId := setAssoc st.byId itemId (i, c) }

/-- The `/text/` membership test
(`any("/text/" in ("/" + r).lower() for r in resolveds)`). -/
def deadTextHref (opfDir href : Str) : Bool :=
  let (resolveds, _) := hrefResolveds opfDir href
  resolveds.any fun r => strHasInfix (lowerStr ('/' :: r)) (str "/text/")

/-- One step of the second `_normalize_manifest` loop over a
`manifest_by_id` entry. -/
def dropDeadStep (names : List Str) (opfDir : Str)
    (acc : ManifestWalk) (kv : Str × Nat × XNode) : ManifestWalk :=
  let (itemId, j, item) := kv
  match attrTruthy (attrGet item (str "href")) with
  | none => acc
  | some href =>
    if hrefExists names opfDir href then acc
    else if deadTextHref opfDir href then
      { kept := acc.kept.filter (fun e => !(e.1 == j)),
        byId := acc.byId.filter (fun e => !(e.1 == itemId)) }
    else acc

/-- The second `_normalize_manifest` loop: drop mapped items whose href does
not resolve and points into a content-document (`/text/`) path. -/
def dropDeadTextItems (names : List Str) (opfDir : Str) (st : ManifestWalk) : ManifestWalk :=
  st.byId.foldl (dropDeadStep names opfDir) st

/-- Model of `_normalize_manifest` as a children transformation, also
yielding `manifest_by_id`. -/
def normalizeManifest (ns : Str) (names : List Str) (opfDir : Str)
    (m : XNode) : XNode × List (Str × XNode) :=
  let walk := (m.children.enum.foldl (manifestStep ns names opfDir) ⟨[], []⟩)
  let walk := dropDeadTextItems names opfDir walk
  let newChildren := reorderPages ns (str "item") (str "id") (walk.kept.map (·.2))
  (m.withChildren newChildren, walk.byId.map (fun kv => (kv.1, kv.2.2)))

/-- One `_normalize_spine` loop step over an original spine child. -/
def spineStep (ns : Str) (byId : List (Str × XNode))
    (acc : List XNode × List Str) (c : XNode) : List XNode × List Str :=
  if !(c.tag == ns ++ str "itemref") then (acc.1 ++ [c], acc.2)
  else
    match attrTruthy (attrGet c (str "idref")) with
    | none => acc
    | some idref =>
      if acc.2.contains idref || !(byId.any (fun kv => kv.1 == idref)) then acc
      else (acc.1 ++ [c], acc.2 ++ [idref])

/-- Model of `_normalize_spine`: drop itemrefs with falsy, duplicate, or
unresolvable idrefs; other children stay.  Returns the new children and the
`seen_idref` set (in insertion order). -/
def normalizeSpine (ns : Str) (byId : List (Str × XNode)) (children : List XNode) :
    List XNode × List Str :=
  children.foldl (spineStep ns byId) ([], [])

/-- Clamped list insertion (`list.insert`). -/
def insertClamped {α : Type} (l : List α) (i : Nat) (x : α) : List α :=
  l.take i ++ [x] ++ l.drop i

/-- The front-matter priority list. -/
def frontMatterIds : List Str := [str "titlepage", str "intro", str "book_info"]

/-- One `_prepend_front_matter` step over a front-matter priority id. -/
def frontStep (ns : Str) (byId : List (Str × XNode)) (names : List Str)
    (opfDir : Str) (acc : List XNode × Nat × List Str) (frontId : Str) :
    List XNode × Nat × List Str :=
  let (cs, idx, seen) := acc
  if seen.contains frontId then acc
  else
    match getAssoc byId frontId with
    | none => acc
    | some item =>
      match attrTruthy (attrGet item (str "href")) with
      | some href =>
        if hrefExists names opfDir href then
          (insertClamped cs idx (.elem (ns ++ str "itemref") [(str "idref", frontId)] none [] none),
           idx + 1, seen ++ [frontId])
        else acc
      | none => acc

/-- Model of `_prepend_front_matter`: insert missing front-matter itemrefs
(ids present in the manifest with a resolving href) immediately before the
first `page_`-numbered itemref. -/
def prependFrontMatter (ns : Str) (byId : List (Str × XNode)) (names : List Str)
    (opfDir : Str) (children : List XNode) (seen : List Str) : List XNode :=
  let firstPageIdx :=
    match children.findIdx? (fun c =>
      c.tag == ns ++ str "itemref" && strStarts (attrGetD c (str "idref")) (str "page_")) with
    | some i => i
    | none => children.length
  (frontMatterIds.foldl (frontStep ns byId names opfDir) (children, firstPageIdx, seen)).1

/-- The spine transformation of `fix_content_opf_problems`. -/
def spineFix (ns : Str) (byId : List (Str × XNode)) (names : List Str) (opfDir : Str)
    (sp : XNode) : XNode × Unit :=
  let (children, seen) := normalizeSpine ns byId sp.children
  let children := prependFrontMatter ns byId names opfDir children seen
  let children := reorderPages ns (str "itemref") (str "idref") children
  (sp.withChildren children, ())

/-! ### The two public mutators (`epub.py`) -/

/-- The RTL stylesheet directive prefix (`rtl_prefix`). -/
def rtlCssPrefixBytes : List Nat :=
  utf8Enc (str "* \x7bdirection: rtl !important;\x7d\n")

/-- The lowered directive searched in the first 300 stylesheet bytes. -/
def rtlDirectiveBytes : List Nat := utf8Enc (str "direction: rtl !important")

/-- ASCII lowering of a byte list (`bytes.lower()`). -/
def bytesLower (bs : List Nat) : List Nat :=
  bs.map fun b => if 65 ≤ b % 256 && b % 256 ≤ 90 then b % 256 + 32 else b % 256

/-- Byte-list infix containment. -/
def bytesHasInfix (hay pat : List Nat) : Bool :=
  match hay with
  | [] => pat.isEmpty
  | _ :: t => pat.isPrefixOf hay || bytesHasInfix t pat

/-- Whether a stylesheet already carries the directive in its first 300
bytes (case-insensitively). -/
def cssHasDirective (css : List Nat) : Bool :=
  bytesHasInfix (bytesLower (css.take 300)) rtlDirectiveBytes

/-- The spine mutation of `set_epub_to_rtl`: stamp
`page-progression-direction="rtl"` unless already present, reporting
whether a change happened. -/
def rtlSpineSet (sp : XNode) : XNode × Bool :=
  if !(attrGet sp (str "page-progression-direction") == some (str "rtl")) then
    (attrSet sp (str "page-progression-direction") (str "rtl"), true)
  else (sp, false)

/-- The stylesheet replacement of `set_epub_to_rtl` for one entry: prefix
the directive onto any `.css` payload not already carrying it in its first
300 bytes. -/
def cssReplEntry (info : ZEntry) : Option (Str × EData) :=
  if !strEnds info.name (str ".css") then none
  else
    let css := dataBytes info.data
    if cssHasDirective css then none
    else some (info.name, .bin (rtlCssPrefixBytes ++ css))

/-- Model of `set_epub_to_rtl`: returns the resulting archive and the
reported `changed` flag; `now` is the clock value a rewrite stamps onto the
`mimetype` entry. -/
def set_epub_to_rtl (now : Nat) (A : Archive) : Archive × Bool :=
  match pickValidOpf A with
  | none => (A, false)
  | some entry =>
    match entry.data with
    | .bin _ => (A, false)
    | .xml decl root =>
      let ns := nsOfTag root.tag
      match replaceFirstNode (ns ++ str "spine") rtlSpineSet root with
      | none => (A, false)
      | some (root2, spineChanged) =>
        let uniq := uniqueEntries A
        let cleanup := needsCleanup A
        let cssRepl : List (Str × EData) := uniq.filterMap cssReplEntry
        let changed := spineChanged || !cssRepl.isEmpty
        if !changed && !cleanup then (A, false)
        else
          let repl := cssRepl ++
            [(entry.name, if changed then EData.xml decl root2 else entry.data)]
          (rewriteDedup now uniq repl, true)

/-- Model of `fix_content_opf_problems` (`repair_in_place`): `now` is the
clock value the rewrite stamps onto the `mimetype` entry. -/
def fix_content_opf_problems (now : Nat) (A : Archive) : Archive :=
  match pickValidOpf A with
  | none => A
  | some entry =>
    match entry.data with
    | .bin _ => A
    | .xml decl root =>
      let ns := nsOfTag root.tag
      let opfDir := pyDirname entry.name
      let names := namesOf A
      match replaceFirstNode (ns ++ str "manifest") (normalizeManifest ns names opfDir) root with
      | none => A
      | some (root1, byId) =>
        match replaceFirstNode (ns ++ str "spine") (spineFix ns byId names opfDir) root1 with
        | none => A
        | some (root2, _) =>
          rewriteDedup now (uniqueEntries A) [(entry.name, .xml decl root2)]

/-! ### Claim-side observation helpers

These read properties off a model value; the claims' theorems are stated
through them. -/

/-- The authoritative OPF document of an archive: its namespace handle and
root, when a valid candidate exists. -/
def pickedOpfRoot (A : Archive) : Option (Str × XNode) :=
  match pickValidOpf A with
  | some e =>
    match e.data with
    | .xml _ r => some (nsOfTag r.tag, r)
    | .bin _ => none
  | none => none

/-- The manifest `item` children of the authoritative OPF. -/
def manifestItems (A : Archive) : List XNode :=
  match pickedOpfRoot A with
  | some (ns, r) =>
    match findFirstNode (ns ++ str "manifest") r with
    | some m => m.children.filter (fun c => c.tag == ns ++ str "item")
    | none => []
  | none => []

/-- The non-falsy ids of the manifest items. -/
def manifestItemIds (A : Archive) : List Str :=
  (manifestItems A).filterMap (fun c => attrTruthy (attrGet c (str "id")))

/-- The `idref` attributes of the spine's `itemref` children. -/
def spineItemrefIdrefs (A : Archive) : List Str :=
  match pickedOpfRoot A with
  | some (ns, r) =>
    match findFirstNode (ns ++ str "spine") r with
    | some sp =>
      (sp.children.filter (fun c => c.tag == ns ++ str "itemref")).map
        (fun c => attrGetD c (str "idref"))
    | none => []
  | none => []

/-- The `href` attributes of the manifest items (empty string when absent). -/
def manifestItemHrefs (A : Archive) : List Str :=
  (manifestItems A).map (fun c => attrGetD c (str "href"))

/-- The OPF directory of the authoritative OPF candidate. -/
def pickedOpfDir (A : Archive) : Str :=
  match pickValidOpf A with
  | some e => pyDirname e.name
  | none => []

/-- Timestamp-erased view of an archive: entry names, payloads and
compression modes, dropping only the DOS modification times. -/
def eraseMtimes (A : Archive) : List (Str × EData × Nat) :=
  A.map (fun e => (e.name, e.data, e.ctype))

/-- An archive entry name is a plain normalised relative path: nonempty
`/`-separated segments, none of them `.` or `..`, no leading slash and no
`#` character.  (Every archive the converter itself writes has only such
names.) -/
def plainName (s : Str) : Bool :=
  !s.isEmpty && !s.any (· == '#') &&
    (splitSlash s).all (fun seg =>
      !seg.isEmpty && !(seg == str ".") && !(seg == str ".."))

/-- Record events of `build_pages`, replayed from the amended claim's
wording: processing rows in order, a row with a usable id records one
`(id, page_number)` event per emitted chunk when it is not a TOC-anchor
row, and exactly one event — at the designated anchor chunk — when it is.
The accumulator carries the running page count. -/
def recordEventsStep (texts ids : List Cell) (idCol : Option Str)
    (tocStarts : Option (List Int)) (splitNumbered : Bool)
    (acc : Nat × List (Int × Nat)) (i : Nat) : Nat × List (Int × Nat) :=
  let raw := stripWs (replaceChar (decode_value (texts.getD i (.cs []))) (Char.ofNat 0) [])
  if raw.isEmpty then acc
  else
    let chunks := _make_chunks raw splitNumbered
    if chunks.isEmpty then acc
    else
      let idv := if idCol.isSome then to_int (ids.getD i .cnone) else none
      let isTocStart := isTocStartOf tocStarts idv
      let rowEvents : List (Int × Nat) :=
        match idv with
        | none => []
        | some k =>
          if isTocStart then [(k, acc.1 + _anchor_chunk_index chunks + 1)]
          else (List.range chunks.length).map (fun ci => (k, acc.1 + ci + 1))
      (acc.1 + chunks.length, acc.2 ++ rowEvents)

/-- All record events of a `build_pages` run, in recording order. -/
def recordEvents (contentTable : Tbl) (cols : ContentCols)
    (tocStarts : Option (List Int)) (splitNumbered : Bool) : List (Int × Nat) :=
  let n := tblRowSpan contentTable
  let texts := tblGetD contentTable cols.text
  let idCol := optColTruthy cols.id
  let ids := match idCol with | some c => tblGetD contentTable c | none => []
  ((List.range n).foldl (recordEventsStep texts ids idCol tocStarts splitNumbered) (0, [])).2

/-- Manifest item ids of a package written by `write_epub`, read off the
literal `<item id="..."` builders of `render_opf`/`write_epub`: the four
fixed documents plus one `p<n>` item per page entry. -/
def writtenManifestIds (book : EpubBook) : List Str :=
  [str "info", str "nav", str "ncx", str "css"] ++
    (pageEntries book).map (fun e => str "p" ++ natDecimal e.1)

/-- Spine itemref idrefs of a package written by `write_epub`, read off the
literal `<itemref idref="..."` builders: `nav` exactly when the TOC page is
included, then one `p<n>` per page entry. -/
def writtenSpineIdrefs (book : EpubBook) (includeTocPage : Bool) : List Str :=
  (if includeTocPage then [str "nav"] else []) ++
    (pageEntries book).map (fun e => str "p" ++ natDecimal e.1)

/-! ### Concrete instances used by witnesses and counterexamples

These archives use un-namespaced OPF documents (`_ns` is empty for them),
which the repair engine supports uniformly. -/

/-- A manifest `item` element. -/
def fmItem (id href : Str) : XNode :=
  XNode.elem (str "item") [(str "id", id), (str "href", href)] none [] none

/-- A spine `itemref` element. -/
def fmRef (id : Str) : XNode :=
  XNode.elem (str "itemref") [(str "idref", id)] none [] none

/-- A raw (non-XML) entry. -/
def binEntry (n : Str) : ZEntry :=
  { name := n, data := .bin [60, 104, 62], ctype := 8, mtime := 7 }

/-- The front-matter scenario of claim C3: manifest `titlepage`, `intro`,
`page_1`, `page_2` (hrefs resolving), spine `page_2, page_1, page_1`. -/
def archFrontMatter : Archive :=
  [{ name := str "content.opf",
     data := .xml true
       (XNode.elem (str "package") [] none
         [XNode.elem (str "manifest") [] none
           [fmItem (str "titlepage") (str "Text/titlepage.xhtml"),
            fmItem (str "intro") (str "Text/intro.xhtml"),
            fmItem (str "page_1") (str "Text/page_1.xhtml"),
            fmItem (str "page_2") (str "Text/page_2.xhtml")] none,
          XNode.elem (str "spine") [] none
           [fmRef (str "page_2"), fmRef (str "page_1"), fmRef (str "page_1")] none]
         none),
     ctype := 8, mtime := 7 },
   binEntry (str "Text/titlepage.xhtml"), binEntry (str "Text/intro.xhtml"),
   binEntry (str "Text/page_1.xhtml"), binEntry (str "Text/page_2.xhtml")]

/-- Claim C7's counterexample table: one row whose text splits into two
numbered chunks, carrying id 7. -/
def tblC7 : Tbl :=
  [(str "t", [.cs (str "1 - aa\n2 - bb")]), (str "id", [.ci 7])]

/-- Column assignment for `tblC7`. -/
def colsC7 : ContentCols :=
  { text := str "t", id := some (str "id"), page := none, part := none }

/-- Claim C2's counterexample archive: an item with an unresolvable non-text
href (`missing.png`), two items with empty ids, an id-less item with a dead
`Text/` href, and one good page item. -/
def archC2 : Archive :=
  [{ name := str "content.opf",
     data := .xml true
       (XNode.elem (str "package") [] none
         [XNode.elem (str "manifest") [] none
           [fmItem (str "img") (str "missing.png"),
            fmItem [] (str "pg.xhtml"),
            fmItem [] (str "pg.xhtml"),
            XNode.elem (str "item") [(str "href", str "Text/gone.xhtml")] none [] none,
            fmItem (str "page_1") (str "pg.xhtml")] none,
          XNode.elem (str "spine") [] none [fmRef (str "page_1")] none]
         none),
     ctype := 8, mtime := 7 },
   binEntry (str "pg.xhtml")]

/-- The invariant asserted by claim C2, read off an archive: every spine
idref names some manifest item's id, the manifest items' id attributes are
pairwise distinct, and every remaining manifest item's href resolves to an
archive entry (items with unresolvable hrefs "have been dropped"). -/
def specC2Invariant (A : Archive) : Prop :=
  (∀ r ∈ spineItemrefIdrefs A, r ∈ (manifestItems A).map (fun c => attrGetD c (str "id"))) ∧
  ((manifestItems A).map (fun c => attrGetD c (str "id"))).Nodup ∧
  (∀ c ∈ manifestItems A,
    hrefExists (namesOf A) (pickedOpfDir A) (attrGetD c (str "href")) = true)

/-- The non-empty `idref`s of a children list's `itemref` elements, in
document order. -/
def sidList (ns : Str) (l : List XNode) : List Str :=
  l.filterMap (fun c =>
    if c.tag == ns ++ str "itemref" then attrTruthy (attrGet c (str "idref")) else none)

/-- Front-matter id state after a repair pass: the id is already referenced
by an itemref, or it is not id-mapped, or its item's href is absent or
unresolvable. -/
def frontGood (ns : Str) (byId : List (Str × XNode)) (names : List Str) (opfDir : Str)
    (cs : List XNode) (f : Str) : Prop :=
  f ∈ sidList ns cs ∨ getAssoc byId f = none ∨
  (∃ it, getAssoc byId f = some it ∧ (attrTruthy (attrGet it (str "href")) = none ∨
    (∀ h2, attrTruthy (attrGet it (str "href")) = some h2 →
      hrefExists names opfDir h2 = false)))

/-- A minimal valid OPF document: empty manifest and spine, no namespace. -/
def opfW : XNode :=
  XNode.elem (str "package") [] none
    [XNode.elem (str "manifest") [] none [] none,
     XNode.elem (str "spine") [] none [] none] none

/-- A one-entry archive holding `opfW`. -/
def archW : Archive :=
  [{ name := str "content.opf", data := .xml true opfW, ctype := 8, mtime := 7 }]

/-- `archW` with a stored `mimetype` entry in front. -/
def archM : Archive :=
  { name := str "mimetype", data := .bin [97], ctype := 0, mtime := 5 } :: archW

/-- Fixed-width decimal representation: the `z` least significant digits of
`n`, most significant first (equal to the zero-padded numeral whenever the
numeral fits in `z` digits). -/
def fixedDigits : Nat → Nat → Str
  | 0, _ => []
  | z + 1, n => fixedDigits z (n / 10) ++ [decDigitChar n]

mutual
/-- Structural size of a node, for simultaneous induction over the nested
tree. -/
def xSize : XNode → Nat
  | .elem _ _ _ cs _ => 1 + xlSize cs

/-- Structural size of a sibling list. -/
def xlSize : List XNode → Nat
  | [] => 0
  | c :: t => xSize c + xlSize t
end

/-- Claim C8's counterexample book: page 1 belongs to part 2, page 2 to
part 10.  The largest page number is 2 (one decimal digit). -/
def bookC8 : EpubBook :=
  { title := str "t", author := str "a", about := [],
    pages := [{ pageNumber := 1, page := 1, part := some 2, textHtml := str "x" },
              { pageNumber := 2, page := 2, part := some 10, textHtml := str "y" }],
    tocTree := [] }

/-! ## Theorems -/

/-- Claim C6: `fix_arabic_mojibake` returns any string already containing an
Arabic-range character unchanged; for a string with no Arabic-range
character and at least `max(4, int(len * 0.2))` high-Latin-range characters
it reinterprets each character's low byte under the cp1256 code page and
keeps the reinterpretation exactly when that result contains Arabic
characters, otherwise returning the input unchanged. -/
theorem mojibake_fix_characterization (s : Str) :
    fix_arabic_mojibake s =
      if hasArabic s then s
      else if max 4 (pyIntTimesPointTwo s.length) ≤ highLatinCount s &&
          hasArabic (lowByteCp1256 s) then lowByteCp1256 s
      else s := by
  unfold fix_arabic_mojibake
  by_cases h1 : hasArabic s
  · simp [h1]
  · simp only [h1, Bool.false_eq_true, if_false]
    by_cases h2 : highLatinCount s < max 4 (pyIntTimesPointTwo s.length)
    · have h3 : ¬ (max 4 (pyIntTimesPointTwo s.length) ≤ highLatinCount s) := by omega
      simp [h2, h3]
    · have h3 : max 4 (pyIntTimesPointTwo s.length) ≤ highLatinCount s := by omega
      simp only [h2, if_false, h3, decide_eq_true_eq, Bool.true_and]
      by_cases h4 : hasArabic (lowByteCp1256 s)
      · simp [h3, h4]
      · simp [h3, h4]

/-! ### Helper lemmas -/

theorem mem_sInsert {α : Type} (le : α → α → Bool) (x y : α) (l : List α) :
    y ∈ sInsert le x l ↔ y = x ∨ y ∈ l := by
  induction l with
  | nil => simp [sInsert]
  | cons a t ih =>
    simp only [sInsert]
    split
    · simp [or_comm, or_assoc, or_left_comm]
    · simp only [List.mem_cons, ih]
      tauto

theorem mem_stableSort {α : Type} (le : α → α → Bool) (y : α) (l : List α) :
    y ∈ stableSort le l ↔ y ∈ l := by
  induction l with
  | nil => simp [stableSort]
  | cons a t ih =>
    simp [stableSort, mem_sInsert, ih]

/-- Claim C9: when no table of the catalog has a name starting with the
content-table prefix letter `b`, `bok_to_epub` fails with the
no-content-table error before building or writing anything (the model's
`Except.error` result carries no archive). -/
theorem no_content_table_aborts (db : MdbDb) (inputName : Str)
    (includeTocPage splitNumbered : Bool) (modified uid : Str)
    (h : ∀ t ∈ db.catalog.map (·.1), strStarts (lowerStr t) (str "b") = false) :
    bok_to_epub db inputName includeTocPage splitNumbered modified uid =
      .error (str "could not find a content table") := by
  have hpick : pick_main_content_table db
      (stableSort strLe ((db.catalog.map (·.1)).filter (fun t => !(t == str "MSysObjects")))) = [] := by
    unfold pick_main_content_table
    have hnil : (stableSort strLe ((db.catalog.map (·.1)).filter
        (fun t => !(t == str "MSysObjects")))).filter
          (fun t => strStarts (lowerStr t) (str "b")) = [] := by
      rw [List.filter_eq_nil_iff]
      intro a ha
      rw [mem_stableSort] at ha
      have := h a (List.mem_of_mem_filter ha)
      simp [this]
    rw [hnil]
    rfl
  unfold bok_to_epub
  simp only [hpick, List.isEmpty_nil, if_true]

/-- Witness for C9 at a concrete single-table catalog. -/
theorem no_content_table_aborts_witness :
    (∀ t ∈ (MdbDb.mk [(str "Main", ⟨[], 0, []⟩)]).catalog.map (·.1),
      strStarts (lowerStr t) (str "b") = false) ∧
    bok_to_epub (MdbDb.mk [(str "Main", ⟨[], 0, []⟩)]) (str "x.bok") false false
      (str "2026-01-01") (str "uid") = .error (str "could not find a content table") :=
  ⟨by decide, no_content_table_aborts _ _ _ _ _ _ (by decide)⟩

theorem buildChunkStep_pages_map (itoc : Bool) (anchor : Nat) (idv pv partv : Option Int)
    (footer : Str) (st : BPState) (ci : Nat) (paras : List Str) :
    ((buildChunkStep itoc anchor idv pv partv footer st ci paras).pages).map (·.pageNumber) =
      st.pages.map (·.pageNumber) ++ [st.pages.length + 1] := by
  simp [buildChunkStep]

/-- Contiguity invariant of a page list. -/
def pagesContiguous (pages : List Page) : Prop :=
  pages.map (·.pageNumber) = List.range' 1 pages.length

theorem pagesContiguous_push (pages : List Page) (p : Page)
    (h : pagesContiguous pages) (hp : p.pageNumber = pages.length + 1) :
    pagesContiguous (pages ++ [p]) := by
  unfold pagesContiguous at h ⊢
  rw [List.map_append, List.length_append, h]
  simp only [List.map_cons, List.map_nil, List.length_cons, List.length_nil, hp]
  rw [List.range'_concat]
  simp [Nat.add_comm]

theorem buildChunkStep_contiguous (itoc : Bool) (anchor : Nat) (idv pv partv : Option Int)
    (footer : Str) (st : BPState) (ci : Nat) (paras : List Str)
    (h : pagesContiguous st.pages) :
    pagesContiguous (buildChunkStep itoc anchor idv pv partv footer st ci paras).pages := by
  have hmap := buildChunkStep_pages_map itoc anchor idv pv partv footer st ci paras
  unfold pagesContiguous at h ⊢
  have hlen : (buildChunkStep itoc anchor idv pv partv footer st ci paras).pages.length =
      st.pages.length + 1 := by
    have := congrArg List.length hmap
    simpa using this
  rw [hmap, hlen, h, List.range'_concat]
  simp [Nat.add_comm]

theorem chunkFold_contiguous (itoc : Bool) (anchor : Nat) (idv pv partv : Option Int)
    (footer : Str) (l : List (Nat × List Str)) (st : BPState)
    (h : pagesContiguous st.pages) :
    pagesContiguous ((l.foldl
      (fun acc (pc : Nat × List Str) =>
        buildChunkStep itoc anchor idv pv partv footer acc pc.1 pc.2) st).pages) := by
  induction l generalizing st with
  | nil => exact h
  | cons a t ih =>
    exact ih _ (buildChunkStep_contiguous itoc anchor idv pv partv footer st a.1 a.2 h)

theorem buildRowStep_contiguous (texts ids pagesCol parts : List Cell)
    (idCol pageCol partCol : Option Str) (tocStarts : Option (List Int))
    (splitNumbered : Bool) (st : BPState) (i : Nat)
    (h : pagesContiguous st.pages) :
    pagesContiguous ((buildRowStep texts ids pagesCol parts idCol pageCol partCol
      tocStarts splitNumbered st i).pages) := by
  simp only [buildRowStep]
  split
  · exact h
  · split
    · exact h
    · exact chunkFold_contiguous _ _ _ _ _ _ _ _ h

/-- Claim C4: the `page_number` values of the pages `build_pages` emits form
the contiguous run `1 .. len(pages)` in emission order — unique, strictly
increasing, gapless — for every synthesis input (also when one source row
expands into several pages). -/
theorem build_pages_numbers_contiguous (contentTable : Tbl) (cols : ContentCols)
    (tocStarts : Option (List Int)) (splitNumbered : Bool) :
    (build_pages contentTable cols tocStarts splitNumbered).pages.map (·.pageNumber) =
      List.range' 1 (build_pages contentTable cols tocStarts splitNumbered).pages.length := by
  unfold build_pages
  simp only
  generalize (List.range (tblRowSpan contentTable)) = idxs
  have : ∀ (l : List Nat) (st : BPState), pagesContiguous st.pages →
      pagesContiguous ((l.foldl
        (buildRowStep (tblGetD contentTable cols.text)
          (match optColTruthy cols.id with | some c => tblGetD contentTable c | none => [])
          (match optColTruthy cols.page with | some c => tblGetD contentTable c | none => [])
          (match optColTruthy cols.part with | some c => tblGetD contentTable c | none => [])
          (optColTruthy cols.id) (optColTruthy cols.page) (optColTruthy cols.part)
          tocStarts splitNumbered) st).pages) := by
    intro l
    induction l with
    | nil => intro st h; exact h
    | cons a t ih =>
      intro st h
      exact ih _ (buildRowStep_contiguous _ _ _ _ _ _ _ _ _ st a h)
  exact this idxs ⟨[], [], []⟩ (by simp [pagesContiguous])

/-- Claim C10: packages produced by `write_epub` satisfy the
spine-to-manifest invariant by construction: every spine idref — one
`p<n>` per page entry, plus `nav` exactly when `include_toc_page` — is the
id of a manifest item of the same OPF document (ids read off the literal
`<item id=...>` / `<itemref idref=...>` builders of
`write_epub`/`render_opf`). -/
theorem write_epub_spine_subset_manifest (book : EpubBook) (includeTocPage : Bool) :
    ∀ r ∈ writtenSpineIdrefs book includeTocPage, r ∈ writtenManifestIds book := by
  intro r hr
  simp only [writtenSpineIdrefs, List.mem_append] at hr
  simp only [writtenManifestIds, List.mem_append]
  rcases hr with h | h
  · left
    have hnav : r = str "nav" := by
      cases includeTocPage <;> simp_all
    rw [hnav]
    decide
  · right
    exact h

/-- Witness for C10 at a concrete one-page book with the TOC page
included. -/
theorem write_epub_spine_subset_manifest_witness :
    str "nav" ∈
      writtenSpineIdrefs ⟨str "T", str "A", str "ab", [⟨1, 1, none, str "x"⟩], []⟩ true ∧
    str "nav" ∈ writtenManifestIds ⟨str "T", str "A", str "ab", [⟨1, 1, none, str "x"⟩], []⟩ :=
  ⟨by decide,
   write_epub_spine_subset_manifest ⟨str "T", str "A", str "ab", [⟨1, 1, none, str "x"⟩], []⟩
     true (str "nav") (by decide)⟩

/-- Claim C3: on the front-matter scenario — manifest `titlepage`, `intro`,
`page_1`, `page_2` with resolving hrefs, spine listing only `page_2` and a
duplicated `page_1` — repair produces the spine order
`titlepage, intro, page_1, page_2`. -/
theorem front_matter_scenario_spine_order :
    spineItemrefIdrefs (fix_content_opf_problems 7 archFrontMatter) =
      [str "titlepage", str "intro", str "page_1", str "page_2"] := by
  decide

/-- Claim C7 counterexample: a single non-TOC row with id 7 expands into two
pages (1 and 2); `build_pages` maps id 7 to page 2 — the page of the last
emitted chunk — not to the first emitted page 1 as the claim states
(`id_to_page_number[idv] = page_number` overwrites on every chunk). -/
theorem record_first_page_counterexample :
    (build_pages tblC7 colsC7 none true).pages.map (·.pageNumber) = [1, 2] ∧
    getAssoc (build_pages tblC7 colsC7 none true).idToPageNumber 7 = some 2 ∧
    ¬ getAssoc (build_pages tblC7 colsC7 none true).idToPageNumber 7 = some 1 := by
  decide

/-! ### Last-write-wins characterisation of the anchor map (claim C7) -/

theorem getAssoc_setAssoc_self {α β : Type} [BEq α] [LawfulBEq α]
    (m : List (α × β)) (k : α) (v : β) :
    getAssoc (setAssoc m k v) k = some v := by
  induction m with
  | nil => simp [setAssoc, getAssoc]
  | cons kv t ih =>
    by_cases h : kv.1 == k
    · simp [setAssoc, h, getAssoc]
    · simp only [setAssoc, h, Bool.false_eq_true, if_false]
      simpa [getAssoc, List.find?_cons, h] using ih

theorem getAssoc_setAssoc_ne {α β : Type} [BEq α] [LawfulBEq α]
    (m : List (α × β)) (k k' : α) (v : β) (hne : k' ≠ k) :
    getAssoc (setAssoc m k v) k' = getAssoc m k' := by
  induction m with
  | nil =>
    have : (k == k') = false := by
      simpa [beq_iff_eq] using fun e => hne e.symm
    simp [setAssoc, getAssoc, this]
  | cons kv t ih =>
    by_cases h : kv.1 == k
    · have hk : kv.1 = k := by simpa [beq_iff_eq] using h
      have h1 : (k == k') = false := by
        simpa [beq_iff_eq] using fun e => hne e.symm
      have h2 : (kv.1 == k') = false := by
        rw [hk]; exact h1
      simp [setAssoc, h, getAssoc, List.find?_cons, h1, h2]
    · simp only [setAssoc, h, Bool.false_eq_true, if_false]
      by_cases h3 : kv.1 == k'
      · simp [getAssoc, List.find?_cons, h3]
      · simpa [getAssoc, List.find?_cons, h3] using ih

theorem getLast?_cons_or {α : Type} (a : α) (l : List α) :
    (a :: l).getLast? = match l.getLast? with | some x => some x | none => some a := by
  induction l generalizing a with
  | nil => simp
  | cons b t ih =>
    rw [List.getLast?_cons_cons, ih b]
    cases h : t.getLast? with
    | some x => simp [ih, h]
    | none => simp [ih, h]

theorem getAssoc_foldSet {α β : Type} [BEq α] [LawfulBEq α]
    (evs : List (α × β)) (m0 : List (α × β)) (k : α) :
    getAssoc (evs.foldl (fun m e => setAssoc m e.1 e.2) m0) k =
      (match (evs.filter (fun e => e.1 == k)).getLast? with
       | some e => some e.2
       | none => getAssoc m0 k) := by
  induction evs generalizing m0 with
  | nil => simp
  | cons e t ih =>
    rw [List.foldl_cons, List.filter_cons]
    by_cases hek : e.1 == k
    · have hk : e.1 = k := by simpa [beq_iff_eq] using hek
      rw [if_pos hek, ih, getLast?_cons_or]
      cases hf : (t.filter (fun x => x.1 == k)).getLast? with
      | some x => simp [hf]
      | none =>
        simp only [hf]
        rw [← hk]
        exact getAssoc_setAssoc_self m0 e.1 e.2
    · have hk : k ≠ e.1 := by
        intro e2
        exact absurd (by simpa [beq_iff_eq] using e2.symm) hek
      rw [if_neg (by simpa using hek), ih]
      cases hf : (t.filter (fun x => x.1 == k)).getLast? with
      | some x => simp [hf]
      | none => simp only [hf]; exact getAssoc_setAssoc_ne m0 e.1 k e.2 hk

theorem buildChunkStep_idMap (itoc : Bool) (anchor : Nat) (idv pv partv : Option Int)
    (footer : Str) (st : BPState) (ci : Nat) (paras : List Str) :
    (buildChunkStep itoc anchor idv pv partv footer st ci paras).idToPageNumber =
      (match idv with
       | some i =>
         if !itoc || ci == anchor then setAssoc st.idToPageNumber i (st.pages.length + 1)
         else st.idToPageNumber
       | none => st.idToPageNumber) := by
  simp [buildChunkStep]

theorem buildChunkStep_pagesLen (itoc : Bool) (anchor : Nat) (idv pv partv : Option Int)
    (footer : Str) (st : BPState) (ci : Nat) (paras : List Str) :
    (buildChunkStep itoc anchor idv pv partv footer st ci paras).pages.length =
      st.pages.length + 1 := by
  simp [buildChunkStep]

theorem chunkFold_pagesLen (itoc : Bool) (anchor : Nat) (idv pv partv : Option Int)
    (footer : Str) (l : List (Nat × List Str)) (st : BPState) :
    ((l.foldl (fun acc (pc : Nat × List Str) =>
        buildChunkStep itoc anchor idv pv partv footer acc pc.1 pc.2) st).pages).length =
      st.pages.length + l.length := by
  induction l generalizing st with
  | nil => simp
  | cons a t ih =>
    rw [List.foldl_cons, ih]
    rw [buildChunkStep_pagesLen]
    simp only [List.length_cons]
    omega

theorem chunkFold_idMap_none (itoc : Bool) (anchor : Nat) (pv partv : Option Int)
    (footer : Str) (l : List (Nat × List Str)) (st : BPState) :
    ((l.foldl (fun acc (pc : Nat × List Str) =>
        buildChunkStep itoc anchor none pv partv footer acc pc.1 pc.2) st).idToPageNumber) =
      st.idToPageNumber := by
  induction l generalizing st with
  | nil => rfl
  | cons a t ih =>
    rw [List.foldl_cons, ih]
    simp [buildChunkStep_idMap]

theorem chunkFold_idMap_nonToc (anchor : Nat) (k0 : Int) (pv partv : Option Int)
    (footer : Str) (l : List (List Str)) (j : Nat) (st : BPState) :
    (((List.enumFrom j l).foldl (fun acc (pc : Nat × List Str) =>
        buildChunkStep false anchor (some k0) pv partv footer acc pc.1 pc.2) st).idToPageNumber) =
      (((List.range' (st.pages.length + 1) l.length).map (fun p => ((k0 : Int), p))).foldl
        (fun m e => setAssoc m e.1 e.2) st.idToPageNumber) := by
  induction l generalizing j st with
  | nil => simp
  | cons c t ih =>
    rw [List.enumFrom_cons, List.foldl_cons]
    simp only [List.length_cons]
    rw [List.range'_succ, List.map_cons, List.foldl_cons, ih (j + 1)]
    rw [buildChunkStep_pagesLen, buildChunkStep_idMap]
    simp

theorem chunkFold_idMap_toc (anchor : Nat) (k0 : Int) (pv partv : Option Int)
    (footer : Str) (l : List (List Str)) (j : Nat) (st : BPState) :
    (((List.enumFrom j l).foldl (fun acc (pc : Nat × List Str) =>
        buildChunkStep true anchor (some k0) pv partv footer acc pc.1 pc.2) st).idToPageNumber) =
      (if j ≤ anchor ∧ anchor < j + l.length then
        setAssoc st.idToPageNumber k0 (st.pages.length + (anchor - j) + 1)
       else st.idToPageNumber) := by
  induction l generalizing j st with
  | nil =>
    have h1 : ¬ (j ≤ anchor ∧ anchor < j + ([] : List (List Str)).length) := by
      simp only [List.length_nil]
      omega
    rw [if_neg h1]
    rfl
  | cons c t ih =>
    rw [List.enumFrom_cons, List.foldl_cons, ih (j + 1)]
    rw [buildChunkStep_pagesLen, buildChunkStep_idMap]
    simp only [Bool.not_true, Bool.false_or]
    by_cases hj : j = anchor
    · subst hj
      have hjb : (j == j) = true := by simp
      have h1 : ¬ (j + 1 ≤ j ∧ j < j + 1 + t.length) := by omega
      have h2 : j ≤ j ∧ j < j + (c :: t).length := by
        simp only [List.length_cons]
        omega
      rw [hjb, if_pos rfl, if_neg h1, if_pos h2]
      congr 1
      omega
    · have hjb : (j == anchor) = false := by simpa using hj
      rw [hjb]
      simp only [Bool.false_eq_true, if_false]
      by_cases hr : j + 1 ≤ anchor ∧ anchor < j + 1 + t.length
      · have hr2 : j ≤ anchor ∧ anchor < j + (c :: t).length := by
          simp only [List.length_cons]
          omega
        rw [if_pos hr, if_pos hr2]
        congr 1
        omega
      · have hr2 : ¬ (j ≤ anchor ∧ anchor < j + (c :: t).length) := by
          simp only [List.length_cons]
          omega
        rw [if_neg hr, if_neg hr2]

theorem recordEventsStep_evs (texts ids : List Cell) (idCol : Option Str)
    (tocStarts : Option (List Int)) (sn : Bool) (cnt : Nat) (evs : List (Int × Nat)) (i : Nat) :
    recordEventsStep texts ids idCol tocStarts sn (cnt, evs) i =
      ((recordEventsStep texts ids idCol tocStarts sn (cnt, []) i).1,
       evs ++ (recordEventsStep texts ids idCol tocStarts sn (cnt, []) i).2) := by
  simp only [recordEventsStep]
  split
  · simp
  · split
    · simp
    · simp

theorem anchorGo_bound (l : List (List Str)) :
    ∀ i, _anchor_chunk_index.go l i = 0 ∨
      (i ≤ _anchor_chunk_index.go l i ∧ _anchor_chunk_index.go l i < i + l.length) := by
  induction l with
  | nil => intro i; left; rfl
  | cons c rest ih =>
    intro i
    simp only [_anchor_chunk_index.go]
    split
    · right
      simp only [List.length_cons]
      omega
    · rcases ih (i + 1) with h | ⟨h1, h2⟩
      · left; exact h
      · right
        simp only [List.length_cons]
        omega

theorem anchorChunkIdx_lt (chunks : List (List Str)) (h : chunks.isEmpty = false) :
    _anchor_chunk_index chunks < chunks.length := by
  have hlen : 0 < chunks.length := by
    cases chunks with
    | nil => simp at h
    | cons a t => simp
  rcases anchorGo_bound chunks 0 with h0 | ⟨_, h2⟩
  · unfold _anchor_chunk_index
    omega
  · unfold _anchor_chunk_index
    omega

theorem eventsRange_eq (B n : Nat) (k0 : Int) :
    (List.range n).map (fun ci => ((k0 : Int), B + ci + 1)) =
      (List.range' (B + 1) n).map (fun p => ((k0 : Int), p)) := by
  induction n with
  | zero => simp
  | succ m ih =>
    rw [List.range_succ, List.map_append, ih, List.range'_concat, List.map_append]
    congr 1
    simp only [List.map_cons, List.map_nil, List.cons.injEq, Prod.mk.injEq, and_true,
      true_and]
    omega

theorem isTocStartOf_none_left (idv : Option Int) :
    isTocStartOf none idv = false := rfl

theorem isTocStartOf_some_some (ts : List Int) (k0 : Int) :
    isTocStartOf (some ts) (some k0) = (!ts.isEmpty && ts.contains k0) := rfl

theorem buildRowStep_sim (texts ids pagesCol parts : List Cell)
    (idCol pageCol partCol : Option Str) (tocStarts : Option (List Int)) (sn : Bool)
    (st : BPState) (i : Nat) :
    (buildRowStep texts ids pagesCol parts idCol pageCol partCol tocStarts sn st i).pages.length =
      (recordEventsStep texts ids idCol tocStarts sn (st.pages.length, []) i).1 ∧
    (buildRowStep texts ids pagesCol parts idCol pageCol partCol tocStarts sn st i).idToPageNumber =
      ((recordEventsStep texts ids idCol tocStarts sn (st.pages.length, []) i).2).foldl
        (fun m e => setAssoc m e.1 e.2) st.idToPageNumber := by
  simp only [buildRowStep, recordEventsStep]
  generalize stripWs (replaceChar (decode_value (texts.getD i (Cell.cs []))) (Char.ofNat 0) [])
    = raw
  by_cases hraw : raw.isEmpty = true
  · simp only [if_pos hraw]
    exact ⟨trivial, rfl⟩
  · simp only [if_neg hraw]
    generalize _make_chunks raw sn = chunks
    by_cases hch : chunks.isEmpty = true
    · simp only [if_pos hch]
      exact ⟨trivial, rfl⟩
    · simp only [if_neg hch]
      have hchf : chunks.isEmpty = false := by
        cases hcc : chunks.isEmpty
        · rfl
        · exact absurd hcc hch
      generalize (if idCol.isSome then to_int (ids.getD i Cell.cnone) else none) = idv
      cases idv with
      | none =>
        constructor
        · simp [chunkFold_pagesLen]
        · simp [chunkFold_idMap_none]
      | some k0 =>
        cases tocStarts with
        | none =>
          constructor
          · simp [chunkFold_pagesLen]
          · simp only [isTocStartOf_none_left, Bool.false_eq_true, if_false,
              List.enum_eq_enumFrom]
            rw [chunkFold_idMap_nonToc]
            simp [eventsRange_eq]
        | some ts =>
          by_cases htoc : (!ts.isEmpty && ts.contains k0) = true
          · constructor
            · simp [chunkFold_pagesLen]
            · simp only [isTocStartOf_some_some, htoc, if_true, List.enum_eq_enumFrom]
              rw [chunkFold_idMap_toc]
              have hlt := anchorChunkIdx_lt chunks hchf
              rw [if_pos (by omega)]
              simp [Nat.sub_zero]
          · constructor
            · simp [chunkFold_pagesLen]
            · simp only [isTocStartOf_some_some, htoc, Bool.false_eq_true, if_false,
                List.enum_eq_enumFrom]
              rw [chunkFold_idMap_nonToc]
              simp [eventsRange_eq]

theorem recordFold_evs (texts ids : List Cell) (idCol : Option Str)
    (tocStarts : Option (List Int)) (sn : Bool) (l : List Nat)
    (acc : Nat × List (Int × Nat)) :
    l.foldl (recordEventsStep texts ids idCol tocStarts sn) acc =
      ((l.foldl (recordEventsStep texts ids idCol tocStarts sn) (acc.1, [])).1,
       acc.2 ++ (l.foldl (recordEventsStep texts ids idCol tocStarts sn) (acc.1, [])).2) := by
  induction l generalizing acc with
  | nil => simp
  | cons a t ih =>
    obtain ⟨c, e⟩ := acc
    simp only [List.foldl_cons]
    rw [recordEventsStep_evs]
    rw [ih ((recordEventsStep texts ids idCol tocStarts sn (c, []) a).1,
      e ++ (recordEventsStep texts ids idCol tocStarts sn (c, []) a).2)]
    rw [ih (recordEventsStep texts ids idCol tocStarts sn ((c, e).1, []) a)]
    simp [List.append_assoc]

theorem buildFold_sim (texts ids pagesCol parts : List Cell)
    (idCol pageCol partCol : Option Str) (tocStarts : Option (List Int)) (sn : Bool)
    (l : List Nat) (st : BPState) :
    ((l.foldl (buildRowStep texts ids pagesCol parts idCol pageCol partCol tocStarts sn)
        st).pages.length
      = (l.foldl (recordEventsStep texts ids idCol tocStarts sn) (st.pages.length, [])).1) ∧
    ((l.foldl (buildRowStep texts ids pagesCol parts idCol pageCol partCol tocStarts sn)
        st).idToPageNumber
      = ((l.foldl (recordEventsStep texts ids idCol tocStarts sn)
          (st.pages.length, [])).2).foldl
          (fun m e => setAssoc m e.1 e.2) st.idToPageNumber) := by
  induction l generalizing st with
  | nil => exact ⟨rfl, rfl⟩
  | cons a t ih =>
    simp only [List.foldl_cons]
    obtain ⟨h1, h2⟩ := buildRowStep_sim texts ids pagesCol parts idCol pageCol partCol
      tocStarts sn st a
    obtain ⟨g1, g2⟩ := ih (buildRowStep texts ids pagesCol parts idCol pageCol partCol
      tocStarts sn st a)
    set st1 := buildRowStep texts ids pagesCol parts idCol pageCol partCol tocStarts sn st a
      with hst1
    set r := recordEventsStep texts ids idCol tocStarts sn (st.pages.length, []) a with hr
    constructor
    · rw [g1, h1]
      rw [recordFold_evs texts ids idCol tocStarts sn t r]
    · rw [g2, h2, h1]
      rw [recordFold_evs texts ids idCol tocStarts sn t r]
      simp [List.foldl_append]

/-- Claim C7 (amended): for every anchor id `k`, `build_pages` maps `k` to
the page number of the LAST record event for `k` — a non-TOC row emits one
event per chunk (so the row's final page wins, since
`id_to_page_number[idv] = page_number` runs on every chunk), and a
TOC-anchor row emits a single event at the designated anchor chunk's page.
Recording is last-write-wins, not first-anchor-wins. -/
theorem build_pages_records_last (contentTable : Tbl) (cols : ContentCols)
    (tocStarts : Option (List Int)) (splitNumbered : Bool) (k : Int) :
    getAssoc (build_pages contentTable cols tocStarts splitNumbered).idToPageNumber k =
      (((recordEvents contentTable cols tocStarts splitNumbered).filter
          (fun e => e.1 == k)).getLast?).map (fun e => e.2) := by
  unfold build_pages recordEvents
  simp only
  have h := (buildFold_sim (tblGetD contentTable cols.text)
      (match optColTruthy cols.id with | some c => tblGetD contentTable c | none => [])
      (match optColTruthy cols.page with | some c => tblGetD contentTable c | none => [])
      (match optColTruthy cols.part with | some c => tblGetD contentTable c | none => [])
      (optColTruthy cols.id) (optColTruthy cols.page) (optColTruthy cols.part)
      tocStarts splitNumbered (List.range (tblRowSpan contentTable)) ⟨[], [], []⟩).2
  have h0 : ((⟨[], [], []⟩ : BPState)).pages.length = 0 := rfl
  rw [h0] at h
  rw [h, getAssoc_foldSet]
  generalize ((((List.range (tblRowSpan contentTable)).foldl
      (recordEventsStep (tblGetD contentTable cols.text)
        (match optColTruthy cols.id with | some c => tblGetD contentTable c | none => [])
        (optColTruthy cols.id) tocStarts splitNumbered) (0, [])).2).filter
      (fun e => e.1 == k)).getLast? = o
  cases o with
  | none => simp [getAssoc]
  | some e => simp

theorem natDecimalCore_eq (n : Nat) : ∀ f, n < f → natDecimalCore f n = natDecimal n := by
  induction n using Nat.strong_induction_on with
  | _ n ih =>
    intro f hf
    match f, hf with
    | g + 1, _ =>
      show natDecimalCore (g + 1) n = natDecimalCore (n + 1) n
      simp only [natDecimalCore]
      by_cases h10 : n < 10
      · simp [h10]
      · rw [if_neg h10, if_neg h10]
        have hd : n / 10 < n := Nat.div_lt_self (by omega) (by omega)
        rw [ih (n / 10) hd g (by omega), ih (n / 10) hd n hd]

theorem natDecimal_lt_ten (n : Nat) (h : n < 10) : natDecimal n = [decDigitChar n] := by
  simp [natDecimal, natDecimalCore, h]

theorem decDigitChar_mod (n : Nat) : decDigitChar (n % 10) = decDigitChar n := by
  unfold decDigitChar
  congr 1
  omega

theorem natDecimal_ge_ten (n : Nat) (h : 10 ≤ n) :
    natDecimal n = natDecimal (n / 10) ++ [decDigitChar n] := by
  conv_lhs => rw [natDecimal]
  simp only [natDecimalCore]
  rw [if_neg (by omega)]
  have hd : n / 10 < n := Nat.div_lt_self (by omega) (by omega)
  rw [natDecimalCore_eq (n / 10) n hd, decDigitChar_mod]

theorem natDecimal_length_pos (n : Nat) : 0 < (natDecimal n).length := by
  by_cases h : n < 10
  · rw [natDecimal_lt_ten n h]; simp
  · rw [natDecimal_ge_ten n (by omega)]; simp

theorem lt_pow_natDecimal_length (n : Nat) : n < 10 ^ (natDecimal n).length := by
  induction n using Nat.strong_induction_on with
  | _ n ih =>
    by_cases h : n < 10
    · rw [natDecimal_lt_ten n h]
      simpa using h
    · rw [natDecimal_ge_ten n (by omega)]
      have hd : n / 10 < n := Nat.div_lt_self (by omega) (by omega)
      have := ih (n / 10) hd
      simp only [List.length_append, List.length_cons, List.length_nil]
      rw [pow_succ]
      omega

theorem pow_pred_le_natDecimal (n : Nat) (h : 1 ≤ n) :
    10 ^ ((natDecimal n).length - 1) ≤ n := by
  induction n using Nat.strong_induction_on with
  | _ n ih =>
    by_cases h10 : n < 10
    · rw [natDecimal_lt_ten n h10]
      simpa using h
    · rw [natDecimal_ge_ten n (by omega)]
      have hd : n / 10 < n := Nat.div_lt_self (by omega) (by omega)
      have hdiv1 : 1 ≤ n / 10 := by omega
      have hih := ih (n / 10) hd hdiv1
      have hlp := natDecimal_length_pos (n / 10)
      simp only [List.length_append, List.length_cons, List.length_nil]
      have hsub : (natDecimal (n / 10)).length + 1 - 1 = (natDecimal (n / 10)).length := by
        omega
      rw [hsub]
      calc 10 ^ (natDecimal (n / 10)).length
          = 10 ^ ((natDecimal (n / 10)).length - 1 + 1) := by congr 1; omega
        _ = 10 ^ ((natDecimal (n / 10)).length - 1) * 10 := by rw [pow_succ]
        _ ≤ (n / 10) * 10 := by omega
        _ ≤ n := by omega

theorem natDecimal_length_le (a b : Nat) (h : a ≤ b) :
    (natDecimal a).length ≤ (natDecimal b).length := by
  by_contra hc
  have hbp := natDecimal_length_pos b
  by_cases h10 : a < 10
  · rw [natDecimal_lt_ten a h10] at hc
    simp only [List.length_cons, List.length_nil] at hc
    omega
  · have hpa : 10 ^ ((natDecimal a).length - 1) ≤ a := pow_pred_le_natDecimal a (by omega)
    have hb : b < 10 ^ (natDecimal b).length := lt_pow_natDecimal_length b
    have hba : 10 ^ (natDecimal b).length ≤ 10 ^ ((natDecimal a).length - 1) :=
      Nat.pow_le_pow_right (by omega) (by omega)
    omega

theorem fixedDigits_length (z n : Nat) : (fixedDigits z n).length = z := by
  induction z generalizing n with
  | zero => rfl
  | succ w ih => simp [fixedDigits, ih]

theorem fixedDigits_zero (z : Nat) : fixedDigits z 0 = List.replicate z '0' := by
  induction z with
  | zero => rfl
  | succ w ih =>
    show fixedDigits w (0 / 10) ++ [decDigitChar 0] = List.replicate (w + 1) '0'
    rw [Nat.zero_div, ih, List.replicate_succ']
    rfl

theorem zeroPad_snoc (z : Nat) (xs : Str) (c : Char) :
    zeroPad (z + 1) (xs ++ [c]) = zeroPad z xs ++ [c] := by
  unfold zeroPad
  simp only [List.length_append, List.length_cons, List.length_nil, List.append_assoc]
  congr 2
  omega

theorem zeroPad_natDecimal_eq_fixed (z : Nat) :
    ∀ n, 0 < z → n < 10 ^ z → zeroPad z (natDecimal n) = fixedDigits z n := by
  induction z with
  | zero => omega
  | succ w ih =>
    intro n _ hn
    by_cases h10 : n < 10
    · rw [natDecimal_lt_ten n h10]
      show zeroPad (w + 1) [decDigitChar n] = fixedDigits w (n / 10) ++ [decDigitChar n]
      have hdv : n / 10 = 0 := by omega
      rw [hdv, fixedDigits_zero]
      unfold zeroPad
      simp
    · have hw : 0 < w := by
        by_contra hw0
        have : w = 0 := by omega
        subst this
        simp at hn
        omega
      have hdiv : n / 10 < 10 ^ w := by
        have : n < 10 * 10 ^ w := by
          rw [pow_succ] at hn
          omega
        omega
      rw [natDecimal_ge_ten n (by omega), zeroPad_snoc, ih (n / 10) hw hdiv]
      show fixedDigits w (n / 10) ++ [decDigitChar n] =
        fixedDigits w (n / 10) ++ [decDigitChar n]
      rfl

theorem decDigitChar_lt (a b : Nat) (h : a % 10 < b % 10) :
    decide (decDigitChar a < decDigitChar b) = true := by
  have key : ∀ x y : Fin 10, x.val < y.val →
      decide (decDigitChar x.val < decDigitChar y.val) = true := by decide
  have ha : decDigitChar a = decDigitChar (a % 10) := (decDigitChar_mod a).symm
  have hb : decDigitChar b = decDigitChar (b % 10) := (decDigitChar_mod b).symm
  rw [ha, hb]
  exact key ⟨a % 10, by omega⟩ ⟨b % 10, by omega⟩ h

theorem strLt_append_left (p x y : Str) : strLt (p ++ x) (p ++ y) = strLt x y := by
  induction p with
  | nil => rfl
  | cons c t ih =>
    show strLt (c :: (t ++ x)) (c :: (t ++ y)) = strLt x y
    simp only [strLt, ih]
    simp [lt_irrefl]

theorem strLt_append_of_lt (u : Str) :
    ∀ v s t, u.length = v.length → strLt u v = true → strLt (u ++ s) (v ++ t) = true := by
  induction u with
  | nil =>
    intro v s t hlen hlt
    cases v with
    | nil => simp [strLt] at hlt
    | cons b bs => simp at hlen
  | cons a as ih =>
    intro v s t hlen hlt
    cases v with
    | nil => simp at hlen
    | cons b bs =>
      simp only [strLt, Bool.or_eq_true, Bool.and_eq_true] at hlt
      show strLt (a :: (as ++ s)) (b :: (bs ++ t)) = true
      simp only [strLt, Bool.or_eq_true, Bool.and_eq_true]
      rcases hlt with hab | ⟨hab, hrest⟩
      · exact Or.inl hab
      · exact Or.inr ⟨hab, ih bs s t (by simpa using hlen) hrest⟩

theorem fixedDigits_lt (z : Nat) :
    ∀ a b, a < b → b < 10 ^ z → strLt (fixedDigits z a) (fixedDigits z b) = true := by
  induction z with
  | zero =>
    intro a b hab hb
    simp at hb
    omega
  | succ w ih =>
    intro a b hab hb
    show strLt (fixedDigits w (a / 10) ++ [decDigitChar a])
        (fixedDigits w (b / 10) ++ [decDigitChar b]) = true
    by_cases hdiv : a / 10 < b / 10
    · have hbw : b / 10 < 10 ^ w := by
        rw [pow_succ] at hb
        omega
      exact strLt_append_of_lt _ _ _ _
        (by rw [fixedDigits_length, fixedDigits_length]) (ih (a / 10) (b / 10) hdiv hbw)
    · have hdeq : a / 10 = b / 10 := by omega
      rw [hdeq, strLt_append_left]
      have hmod : a % 10 < b % 10 := by omega
      simp only [strLt]
      rw [decDigitChar_lt a b hmod]
      rfl

theorem strLe_refl (x : Str) : strLe x x = true := by
  simp [strLe]

theorem strLe_append_left_of (p x y : Str) (h : strLe x y = true) :
    strLe (p ++ x) (p ++ y) = true := by
  simp only [strLe, Bool.or_eq_true] at h ⊢
  rcases h with heq | hlt
  · have hxy : x = y := by simpa using heq
    subst hxy
    left
    simp
  · right
    rw [strLt_append_left]
    exact hlt

theorem strLe_append_right_of (u v s : Str) (hlen : u.length = v.length)
    (h : strLe u v = true) : strLe (u ++ s) (v ++ s) = true := by
  simp only [strLe, Bool.or_eq_true] at h
  rcases h with heq | hlt
  · have huv : u = v := by simpa using heq
    subst huv
    exact strLe_refl _
  · simp only [strLe, Bool.or_eq_true]
    right
    exact strLt_append_of_lt u v s s hlen hlt

theorem pairwise_sInsert_key {α : Type} (key : α → Nat) (x : α) (l : List α)
    (h : l.Pairwise (fun a b => key a ≤ key b)) :
    (sInsert (fun a b => decide (key a ≤ key b)) x l).Pairwise
      (fun a b => key a ≤ key b) := by
  induction l with
  | nil => simp [sInsert]
  | cons y t ih =>
    rcases List.pairwise_cons.mp h with ⟨hy, ht⟩
    simp only [sInsert]
    by_cases hxy : key x ≤ key y
    · rw [if_pos (by simpa using hxy)]
      refine List.pairwise_cons.mpr ⟨?_, h⟩
      intro b hb
      rcases List.mem_cons.mp hb with rfl | hbt
      · exact hxy
      · exact le_trans hxy (hy b hbt)
    · rw [if_neg (by simpa using hxy)]
      refine List.pairwise_cons.mpr ⟨?_, ih ht⟩
      intro b hb
      rcases (mem_sInsert _ x b t).mp hb with rfl | hbt
      · omega
      · exact hy b hbt

theorem pairwise_stableSort_key {α : Type} (key : α → Nat) (l : List α) :
    (stableSort (fun a b => decide (key a ≤ key b)) l).Pairwise
      (fun a b => key a ≤ key b) := by
  induction l with
  | nil => simp [stableSort]
  | cons a t ih =>
    show (sInsert (fun a b => decide (key a ≤ key b)) a
      (stableSort (fun a b => decide (key a ≤ key b)) t)).Pairwise _
    exact pairwise_sInsert_key key a _ ih

theorem pairwise_getLast_max {α : Type} (key : α → Nat) (l : List α) (m : α)
    (hp : l.Pairwise (fun a b => key a ≤ key b)) (hl : l.getLast? = some m) :
    ∀ x ∈ l, key x ≤ key m := by
  induction l with
  | nil => simp at hl
  | cons a t ih =>
    rcases List.pairwise_cons.mp hp with ⟨ha, ht⟩
    cases t with
    | nil =>
      simp only [List.getLast?_singleton, Option.some.injEq] at hl
      subst hl
      intro x hx
      simp only [List.mem_singleton] at hx
      subst hx
      exact le_refl _
    | cons b u =>
      rw [List.getLast?_cons_cons] at hl
      intro x hx
      rcases List.mem_cons.mp hx with rfl | hxt
      · have hm' : m ∈ (b :: u).getLast? := by rw [Option.mem_def]; exact hl
        rcases List.mem_getLast?_eq_getLast hm' with ⟨hne, hme⟩
        exact ha m (hme ▸ List.getLast_mem hne)
      · exact ih ht hl x hxt

/-- Claim C8 counterexample: in `bookC8` the largest page number is 2 — one
decimal digit wide — yet the numeric portion of the generated names is
zero-padded to width 2 (the code computes `len(str(max)) + 1`, not the
digit width itself), and the generated file names do not sort
lexicographically in page order: page 2's name `page_10_02.xhtml` sorts
strictly before page 1's name `page_2_01.xhtml`. -/
theorem padded_names_counterexample :
    (pageEntries bookC8).map (fun e => e.2.1) =
      [str "page_2_01.xhtml", str "page_10_02.xhtml"] ∧
    zfillWidth bookC8 = 2 ∧
    (natDecimal 2).length = 1 ∧
    strLt (str "page_10_02.xhtml") (str "page_2_01.xhtml") = true := by
  decide

/-- Claim C8 (amended): `write_epub` zero-pads the numeric portion of every
generated content-document file name to one MORE than the decimal-digit
width of the largest page_number (`len(str(max_page_number)) + 1`),
prefixing `page_<part>_` when a part number is present; the generated
names of entries sharing the same part value sort lexicographically in
page order (across distinct part values lexicographic order can break,
because the unpadded part number forms the name's prefix). -/
theorem write_epub_names_padded (book : EpubBook) (last : Page)
    (hlast : (sortedPages book).getLast? = some last) :
    zfillWidth book = (natDecimal last.pageNumber).length + 1 ∧
    (∀ e ∈ pageEntries book,
        e.2.1 = pageFileName (zfillWidth book) e.2.2 ∧
        (zeroPad (zfillWidth book) (natDecimal e.2.2.pageNumber)).length =
          zfillWidth book) ∧
    (pageEntries book).Pairwise (fun a b =>
      a.2.2.part = b.2.2.part → strLe a.2.1 b.2.1 = true) := by
  have hz : zfillWidth book = (natDecimal last.pageNumber).length + 1 := by
    unfold zfillWidth
    rw [hlast]
  have hpw : (sortedPages book).Pairwise (fun a b => a.pageNumber ≤ b.pageNumber) := by
    unfold sortedPages
    exact pairwise_stableSort_key (fun p => p.pageNumber) book.pages
  have hmax : ∀ p ∈ sortedPages book, p.pageNumber ≤ last.pageNumber :=
    pairwise_getLast_max (fun p => p.pageNumber) _ last hpw hlast
  have hbound : ∀ p ∈ sortedPages book, p.pageNumber < 10 ^ zfillWidth book := by
    intro p hp
    have h1 := hmax p hp
    have h2 : last.pageNumber < 10 ^ (natDecimal last.pageNumber).length :=
      lt_pow_natDecimal_length _
    have h3 : 10 ^ (natDecimal last.pageNumber).length ≤ 10 ^ zfillWidth book :=
      Nat.pow_le_pow_right (by omega) (by omega)
    omega
  have hzpos : 0 < zfillWidth book := by
    rw [hz]
    omega
  refine ⟨hz, ?_, ?_⟩
  · intro e he
    unfold pageEntries at he
    rcases List.mem_map.mp he with ⟨p, hp, rfl⟩
    refine ⟨rfl, ?_⟩
    show (zeroPad (zfillWidth book) (natDecimal p.pageNumber)).length = zfillWidth book
    rw [zeroPad_natDecimal_eq_fixed _ _ hzpos (hbound p hp), fixedDigits_length]
  · unfold pageEntries
    refine List.pairwise_map.mpr ?_
    apply List.Pairwise.imp_of_mem ?_ hpw
    intro a b ha hb hR
    intro hpart
    show strLe (pageFileName (zfillWidth book) a) (pageFileName (zfillWidth book) b) = true
    have hpart' : a.part = b.part := hpart
    unfold pageFileName
    rw [hpart']
    apply strLe_append_right_of
    · simp only [List.length_append]
      rw [zeroPad_natDecimal_eq_fixed _ _ hzpos (hbound a ha),
        zeroPad_natDecimal_eq_fixed _ _ hzpos (hbound b hb),
        fixedDigits_length, fixedDigits_length]
    · apply strLe_append_left_of
      rw [zeroPad_natDecimal_eq_fixed _ _ hzpos (hbound a ha),
        zeroPad_natDecimal_eq_fixed _ _ hzpos (hbound b hb)]
      by_cases heq : a.pageNumber = b.pageNumber
      · rw [heq]
        exact strLe_refl _
      · have hlt : a.pageNumber < b.pageNumber := by
          have : a.pageNumber ≤ b.pageNumber := hR
          omega
        simp only [strLe, Bool.or_eq_true]
        right
        exact fixedDigits_lt _ _ _ hlt (hbound b hb)

theorem find?_decomp {α : Type} (p : α → Bool) (l : List α) (e : α)
    (h : l.find? p = some e) :
    ∃ l1 l2, l = l1 ++ e :: l2 ∧ (∀ x ∈ l1, p x = false) ∧ p e = true := by
  induction l with
  | nil => simp at h
  | cons a t ih =>
    cases hp : p a with
    | true =>
      rw [List.find?_cons, hp] at h
      cases h
      exact ⟨[], t, rfl, by simp, hp⟩
    | false =>
      rw [List.find?_cons, hp] at h
      rcases ih h with ⟨l1, l2, hl, hfail, he⟩
      exact ⟨a :: l1, l2, by simp [hl], by
        intro x hx
        rcases List.mem_cons.mp hx with rfl | hx1
        · exact hp
        · exact hfail x hx1, he⟩

theorem find?_append_skip {α : Type} (p : α → Bool) (l1 : List α) (y : α) (l2 : List α)
    (h1 : ∀ x ∈ l1, p x = false) (hy : p y = true) :
    (l1 ++ y :: l2).find? p = some y := by
  induction l1 with
  | nil =>
    rw [List.nil_append, List.find?_cons, hy]
  | cons a t ih =>
    rw [List.cons_append, List.find?_cons, h1 a (by simp)]
    exact ih fun x hx => h1 x (by simp [hx])

theorem dedupSeen_congr (l : Archive) : ∀ s1 s2 : List Str,
    (∀ n, s1.contains n = s2.contains n) → dedupSeen l s1 = dedupSeen l s2 := by
  induction l with
  | nil => intro s1 s2 _; rfl
  | cons e t ih =>
    intro s1 s2 hs
    simp only [dedupSeen, hs e.name]
    by_cases h : s2.contains e.name = true
    · rw [if_pos h, if_pos h]
      exact ih s1 s2 hs
    · rw [if_neg h, if_neg h]
      congr 1
      apply ih
      intro n
      by_cases hn : n = e.name
      · subst hn
        simp
      · have h1 : ((e.name :: s1).contains n = true) ↔ (s1.contains n = true) := by
          simp only [List.elem_iff, List.mem_cons]
          exact ⟨fun h => h.resolve_left hn, Or.inr⟩
        have h2 : ((e.name :: s2).contains n = true) ↔ (s2.contains n = true) := by
          simp only [List.elem_iff, List.mem_cons]
          exact ⟨fun h => h.resolve_left hn, Or.inr⟩
        rw [Bool.eq_iff_iff, h1, h2, ← Bool.eq_iff_iff]
        exact hs n

theorem contains_perm_cons (x : Str) (l1 l2 : List Str) (n : Str) :
    (l1 ++ x :: l2).contains n = (x :: (l1 ++ l2)).contains n := by
  rw [Bool.eq_iff_iff]
  simp only [List.elem_iff, List.mem_append, List.mem_cons]
  tauto

theorem dedupSeen_append (l1 : Archive) : ∀ (l2 : Archive) (seen : List Str),
    dedupSeen (l1 ++ l2) seen =
      dedupSeen l1 seen ++ dedupSeen l2 (l1.map (·.name) ++ seen) := by
  induction l1 with
  | nil =>
    intro l2 seen
    simp [dedupSeen]
  | cons e t ih =>
    intro l2 seen
    simp only [List.cons_append, dedupSeen, List.append_eq]
    by_cases h : seen.contains e.name = true
    · rw [if_pos h, if_pos h, ih]
      congr 1
      apply dedupSeen_congr
      intro n
      rw [List.map_cons, List.cons_append]
      by_cases hn : n = e.name
      · subst hn
        rw [Bool.eq_iff_iff]
        have hmem : e.name ∈ seen := List.elem_iff.mp h
        simp [List.elem_iff, hmem]
      · rw [Bool.eq_iff_iff]
        simp only [List.elem_iff, List.mem_append, List.mem_cons]
        constructor
        · intro hx; exact Or.inr hx
        · intro hx; exact hx.resolve_left hn
    · rw [if_neg h, if_neg h, ih]
      simp only [List.cons_append]
      congr 2
      apply dedupSeen_congr
      intro n
      rw [List.map_cons, List.cons_append]
      exact (contains_perm_cons e.name (t.map (·.name)) seen n)

theorem mem_dedupSeen (l : Archive) : ∀ (seen : List Str) (e : ZEntry),
    e ∈ dedupSeen l seen → e ∈ l := by
  induction l with
  | nil => intro seen e h; simp [dedupSeen] at h
  | cons a t ih =>
    intro seen e h
    simp only [dedupSeen] at h
    by_cases hc : seen.contains a.name = true
    · rw [if_pos hc] at h
      exact List.mem_cons_of_mem a (ih seen e h)
    · rw [if_neg hc] at h
      rcases List.mem_cons.mp h with rfl | h2
      · exact List.mem_cons_self e t
      · exact List.mem_cons_of_mem a (ih _ e h2)

theorem dedupSeen_nodup (l : Archive) : ∀ seen : List Str,
    ((dedupSeen l seen).map (·.name)).Nodup ∧
      ∀ e ∈ dedupSeen l seen, seen.contains e.name = false := by
  induction l with
  | nil => intro seen; simp [dedupSeen]
  | cons a t ih =>
    intro seen
    simp only [dedupSeen]
    by_cases hc : seen.contains a.name = true
    · rw [if_pos hc]
      exact ih seen
    · rw [if_neg hc]
      rcases ih (a.name :: seen) with ⟨ih1, ih2⟩
      refine ⟨?_, ?_⟩
      · rw [List.map_cons, List.nodup_cons]
        refine ⟨?_, ih1⟩
        intro hmem
        rcases List.mem_map.mp hmem with ⟨x, hx, hxn⟩
        have := ih2 x hx
        rw [hxn] at this
        have : a.name ∈ (a.name :: seen) := by simp
        have hcontra := ih2 x hx
        rw [hxn] at hcontra
        have : (a.name :: seen).contains a.name = true := by simp [List.elem_iff]
        rw [this] at hcontra
        exact Bool.true_eq_false.mp hcontra
      · intro e he
        rcases List.mem_cons.mp he with rfl | h2
        · simpa using hc
        · have h3 := ih2 e h2
          by_contra hcc
          have h4 : seen.contains e.name = true := by
            cases hcs : seen.contains e.name
            · exact absurd hcs hcc
            · rfl
          have h5 : (a.name :: seen).contains e.name = true := by
            simp only [List.elem_iff, List.mem_cons]
            exact Or.inr (List.elem_iff.mp h4)
          rw [h5] at h3
          exact Bool.true_eq_false.mp h3

theorem containsT (s : List Str) (n : Str) : s.contains n = true ↔ n ∈ s :=
  List.elem_iff

theorem containsF (s : List Str) (n : Str) : s.contains n = false ↔ n ∉ s := by
  rw [← Bool.not_eq_true]
  exact not_congr (containsT s n)

theorem dedupSeen_keeps_name (l : Archive) : ∀ (seen : List Str) (n : Str),
    n ∈ l.map (·.name) → seen.contains n = false →
    ∃ u ∈ dedupSeen l seen, u.name = n := by
  induction l with
  | nil => intro seen n h _; simp at h
  | cons a t ih =>
    intro seen n hn hs
    simp only [dedupSeen]
    by_cases hc : seen.contains a.name = true
    · rw [if_pos hc]
      rcases List.mem_map.mp hn with ⟨x, hx, hxn⟩
      rcases List.mem_cons.mp hx with rfl | hx2
      · rw [hxn] at hc
        rw [hc] at hs
        exact absurd hs (by simp)
      · exact ih seen n (List.mem_map.mpr ⟨x, hx2, hxn⟩) hs
    · rw [if_neg hc]
      by_cases hna : n = a.name
      · exact ⟨a, by simp, hna.symm⟩
      · rcases List.mem_map.mp hn with ⟨x, hx, hxn⟩
        rcases List.mem_cons.mp hx with rfl | hx2
        · exact absurd hxn.symm hna
        · have hs2 : (a.name :: seen).contains n = false := by
            rw [containsF]
            intro hmem
            rcases List.mem_cons.mp hmem with h1 | h2
            · exact hna h1
            · exact (containsF seen n).mp hs h2
          rcases ih (a.name :: seen) n (List.mem_map.mpr ⟨x, hx2, hxn⟩) hs2 with ⟨u, hu, hun⟩
          exact ⟨u, by simp [hu], hun⟩

theorem dedupSeen_eq_self (l : Archive) : ∀ seen : List Str,
    (l.map (·.name)).Nodup → (∀ n ∈ l.map (·.name), seen.contains n = false) →
    dedupSeen l seen = l := by
  induction l with
  | nil => intro seen _ _; rfl
  | cons a t ih =>
    intro seen hnd hdisj
    have hnd2 : (∀ x ∈ t, ¬ x.name = a.name) ∧ (List.map (fun x => x.name) t).Nodup := by
      simpa using hnd
    simp only [dedupSeen]
    rw [if_neg (by rw [hdisj a.name (by simp)]; simp)]
    congr 1
    apply ih
    · exact hnd2.2
    · intro n hn
      rw [containsF]
      intro hmem
      rcases List.mem_cons.mp hmem with h1 | h2
      · rcases List.mem_map.mp hn with ⟨x, hx, hxn⟩
        exact hnd2.1 x hx (by rw [hxn, h1])
      · exact (containsF seen n).mp (hdisj n (by simp [hn])) h2

theorem uniqueEntries_eq_self (A : Archive) (h : (A.map (·.name)).Nodup) :
    uniqueEntries A = A := by
  unfold uniqueEntries
  rw [dedupSeen_eq_self A.reverse [] (by simpa using h) (by intro n _; rfl),
    List.reverse_reverse]

theorem getAssoc_filterMap_nodup (G : ZEntry → Option (Str × EData))
    (hG : ∀ j p, G j = some p → p.1 = j.name) (l : Archive) :
    ∀ i : ZEntry, (l.map (·.name)).Nodup → i ∈ l →
    getAssoc (l.filterMap G) i.name = Option.map (·.2) (G i) := by
  induction l with
  | nil => intro i _ h; simp at h
  | cons a t ih =>
    intro i hnd hi
    have hnd2 : (∀ x ∈ t, ¬ x.name = a.name) ∧ (List.map (fun x => x.name) t).Nodup := by
      simpa using hnd
    rcases List.mem_cons.mp hi with rfl | hit
    · cases hGa : G i with
      | some p =>
        rw [List.filterMap_cons_some hGa]
        unfold getAssoc
        rw [List.find?_cons]
        have hp1 : p.1 = i.name := hG i p hGa
        rw [show (p.1 == i.name) = true by simp [hp1]]
      | none =>
        rw [List.filterMap_cons_none hGa]
        unfold getAssoc
        have : (t.filterMap G).find? (fun kv => kv.1 == i.name) = none := by
          rw [List.find?_eq_none]
          intro kv hkv
          rcases List.mem_filterMap.mp hkv with ⟨j, hj, hGj⟩
          have hkvn := hG j kv hGj
          simp only [hkvn]
          intro hbeq
          have heq : j.name = i.name := by simpa using hbeq
          exact hnd2.1 j hj heq
        rw [this]
    · have hineq : a.name ≠ i.name := by
        intro heq
        exact hnd2.1 i hit heq.symm
      cases hGa : G a with
      | some p =>
        rw [List.filterMap_cons_some hGa]
        unfold getAssoc
        rw [List.find?_cons]
        have hp1 : p.1 = a.name := hG a p hGa
        rw [show (p.1 == i.name) = false by
          simp only [hp1]
          exact beq_eq_false_iff_ne.mpr hineq]
        exact ih i hnd2.2 hit
      | none =>
        rw [List.filterMap_cons_none hGa]
        exact ih i hnd2.2 hit

theorem xSize_pos (n : XNode) : 1 ≤ xSize n := by
  cases n with
  | elem tg a x cs tl =>
    simp [xSize]

theorem replaceFirstNode_elem {β : Type} (t : Str) (f : XNode → XNode × β)
    (tg : Str) (a : List (Str × Str)) (x : Option Str) (cs : List XNode)
    (tl : Option Str) (r : XNode) (b : β)
    (h : replaceFirstNode t f (.elem tg a x cs tl) = some (r, b)) :
    ∃ cs2, r = .elem tg a x cs2 tl ∧ replaceFirstList t f cs = some (cs2, b) := by
  simp only [replaceFirstNode] at h
  cases hc : replaceFirstList t f cs with
  | none => rw [hc] at h; simp at h
  | some p =>
    rw [hc] at h
    cases p with
    | mk cs2 b2 =>
      simp only [Option.some.injEq, Prod.mk.injEq] at h
      exact ⟨cs2, h.1.symm, by rw [← h.2]⟩

theorem replaceFirstNode_tag {β : Type} (t : Str) (f : XNode → XNode × β)
    (n r : XNode) (b : β) (h : replaceFirstNode t f n = some (r, b)) :
    r.tag = n.tag := by
  cases n with
  | elem tg a x cs tl =>
    rcases replaceFirstNode_elem t f tg a x cs tl r b h with ⟨cs2, rfl, _⟩
    rfl

theorem findFirstNode_children (s : Str) (n : XNode) :
    findFirstNode s n = findFirstList s n.children := by
  cases n with
  | elem tg a x cs tl => rfl

theorem replaceFirst_idem_aux {β : Type} (t : Str) (f : XNode → XNode × β) (b0 : β)
    (htag : ∀ n, ((f n).1).tag = n.tag)
    (hidem : ∀ n, f ((f n).1) = ((f n).1, b0)) :
    ∀ k : Nat,
      (∀ n : XNode, xSize n ≤ k → ∀ r b, replaceFirstNode t f n = some (r, b) →
        replaceFirstNode t f r = some (r, b0)) ∧
      (∀ cs : List XNode, xlSize cs ≤ k → ∀ cs2 b,
        replaceFirstList t f cs = some (cs2, b) →
        replaceFirstList t f cs2 = some (cs2, b0)) := by
  intro k
  induction k with
  | zero =>
    constructor
    · intro n hn
      have := xSize_pos n
      omega
    · intro cs hcs cs2 b h
      cases cs with
      | nil => simp [replaceFirstList] at h
      | cons c rest =>
        have h1 := xSize_pos c
        simp only [xlSize] at hcs
        omega
  | succ m ih =>
    have hN : ∀ n : XNode, xSize n ≤ m + 1 → ∀ r b,
        replaceFirstNode t f n = some (r, b) → replaceFirstNode t f r = some (r, b0) := by
      intro n hn r b h
      cases n with
      | elem tg a x cs tl =>
        rcases replaceFirstNode_elem t f tg a x cs tl r b h with ⟨cs2, rfl, hlist⟩
        have hcs : xlSize cs ≤ m := by
          simp only [xSize] at hn
          omega
        have h2 := ih.2 cs hcs cs2 b hlist
        simp only [replaceFirstNode, h2]
    refine ⟨hN, ?_⟩
    intro cs hcs cs2 b h
    cases cs with
    | nil => simp [replaceFirstList] at h
    | cons c rest =>
      have hszc := xSize_pos c
      simp only [xlSize] at hcs
      simp only [replaceFirstList] at h
      by_cases hct : (c.tag == t) = true
      · rw [if_pos hct] at h
        simp only [Option.some.injEq, Prod.mk.injEq] at h
        rcases h with ⟨hcs2, hb⟩
        subst hcs2
        simp only [replaceFirstList]
        have htg : ((f c).1.tag == t) = true := by
          rw [htag c]
          exact hct
        rw [if_pos htg]
        rw [hidem c]
      · rw [if_neg hct] at h
        cases hnd : replaceFirstNode t f c with
        | some p =>
          rw [hnd] at h
          cases p with
          | mk c2 b2 =>
            simp only [Option.some.injEq, Prod.mk.injEq] at h
            rcases h with ⟨hcs2, hb⟩
            subst hcs2
            simp only [replaceFirstList]
            have hct2 : (c2.tag == t) = false := by
              rw [replaceFirstNode_tag t f c c2 b2 hnd]
              simpa using hct
            rw [if_neg (by simp [hct2])]
            have hrepl := hN c (by omega) c2 b2 hnd
            rw [hrepl]
        | none =>
          rw [hnd] at h
          cases hrest : replaceFirstList t f rest with
          | some q =>
            rw [hrest] at h
            cases q with
            | mk rest2 b2 =>
              simp only [Option.some.injEq, Prod.mk.injEq] at h
              rcases h with ⟨hcs2, hb⟩
              subst hcs2
              simp only [replaceFirstList]
              rw [if_neg hct, hnd]
              have := ih.2 rest (by omega) rest2 b2 hrest
              rw [this]
          | none =>
            rw [hrest] at h
            simp at h

theorem replaceFirst_find_aux {β : Type} (t : Str) (f : XNode → XNode × β)
    (htag : ∀ n, ((f n).1).tag = n.tag)
    (hch : ∀ n, ((f n).1).children = n.children) :
    ∀ k : Nat,
      (∀ n : XNode, xSize n ≤ k → ∀ r b, replaceFirstNode t f n = some (r, b) →
        ∀ s, (findFirstNode s r).isSome = (findFirstNode s n).isSome) ∧
      (∀ cs : List XNode, xlSize cs ≤ k → ∀ cs2 b,
        replaceFirstList t f cs = some (cs2, b) →
        ∀ s, (findFirstList s cs2).isSome = (findFirstList s cs).isSome) := by
  intro k
  induction k with
  | zero =>
    constructor
    · intro n hn
      have := xSize_pos n
      omega
    · intro cs hcs cs2 b h
      cases cs with
      | nil => simp [replaceFirstList] at h
      | cons c rest =>
        have h1 := xSize_pos c
        simp only [xlSize] at hcs
        omega
  | succ m ih =>
    have hN : ∀ n : XNode, xSize n ≤ m + 1 → ∀ r b,
        replaceFirstNode t f n = some (r, b) →
        ∀ s, (findFirstNode s r).isSome = (findFirstNode s n).isSome := by
      intro n hn r b h s
      cases n with
      | elem tg a x cs tl =>
        rcases replaceFirstNode_elem t f tg a x cs tl r b h with ⟨cs2, rfl, hlist⟩
        have hcs : xlSize cs ≤ m := by
          simp only [xSize] at hn
          omega
        exact ih.2 cs hcs cs2 b hlist s
    refine ⟨hN, ?_⟩
    intro cs hcs cs2 b h s
    cases cs with
    | nil => simp [replaceFirstList] at h
    | cons c rest =>
      have hszc := xSize_pos c
      simp only [xlSize] at hcs
      simp only [replaceFirstList] at h
      by_cases hct : (c.tag == t) = true
      · rw [if_pos hct] at h
        simp only [Option.some.injEq, Prod.mk.injEq] at h
        rcases h with ⟨hcs2, _⟩
        subst hcs2
        simp only [findFirstList]
        have htg : ((f c).1.tag == s) = (c.tag == s) := by rw [htag c]
        rw [htg]
        by_cases hcs' : (c.tag == s) = true
        · rw [if_pos hcs', if_pos hcs']
          simp
        · rw [if_neg hcs', if_neg hcs']
          have hfx : findFirstNode s (f c).1 = findFirstNode s c := by
            rw [findFirstNode_children, hch c, ← findFirstNode_children]
          rw [hfx]
      · rw [if_neg hct] at h
        cases hnd : replaceFirstNode t f c with
        | some p =>
          rw [hnd] at h
          cases p with
          | mk c2 b2 =>
            simp only [Option.some.injEq, Prod.mk.injEq] at h
            rcases h with ⟨hcs2, _⟩
            subst hcs2
            simp only [findFirstList]
            have htg : (c2.tag == s) = (c.tag == s) := by
              rw [replaceFirstNode_tag t f c c2 b2 hnd]
            rw [htg]
            by_cases hcs' : (c.tag == s) = true
            · rw [if_pos hcs', if_pos hcs']
              simp
            · rw [if_neg hcs', if_neg hcs']
              have hiso := hN c (by omega) c2 b2 hnd s
              cases hf2 : findFirstNode s c2 with
              | some r2 =>
                cases hf1 : findFirstNode s c with
                | some r1 => simp
                | none =>
                  rw [hf1, hf2] at hiso
                  simp at hiso
              | none =>
                cases hf1 : findFirstNode s c with
                | some r1 =>
                  rw [hf1, hf2] at hiso
                  simp at hiso
                | none => simp
        | none =>
          rw [hnd] at h
          cases hrest : replaceFirstList t f rest with
          | some q =>
            rw [hrest] at h
            cases q with
            | mk rest2 b2 =>
              simp only [Option.some.injEq, Prod.mk.injEq] at h
              rcases h with ⟨hcs2, _⟩
              subst hcs2
              simp only [findFirstList]
              by_cases hcs' : (c.tag == s) = true
              · rw [if_pos hcs', if_pos hcs']
              · rw [if_neg hcs', if_neg hcs']
                cases hf1 : findFirstNode s c with
                | some r1 => simp
                | none =>
                  exact ih.2 rest (by omega) rest2 b2 hrest s
          | none =>
            rw [hrest] at h
            simp at h

theorem attrGet_attrSet_self (sp : XNode) (k v : Str) :
    attrGet (attrSet sp k v) k = some v := by
  cases sp with
  | elem tg a x cs tl =>
    simp only [attrSet, attrGet]
    exact getAssoc_setAssoc_self a k v

theorem attrSet_tag (sp : XNode) (k v : Str) : (attrSet sp k v).tag = sp.tag := by
  cases sp with
  | elem tg a x cs tl => rfl

theorem attrSet_children (sp : XNode) (k v : Str) :
    (attrSet sp k v).children = sp.children := by
  cases sp with
  | elem tg a x cs tl => rfl

theorem suffix_eq_of_length (a b n : Str) (ha : strEnds n a = true)
    (hb : strEnds n b = true) (hl : a.length = b.length) : a = b := by
  unfold strEnds at ha hb
  rw [List.isSuffixOf_iff_suffix] at ha hb
  rcases ha with ⟨t1, ht1⟩
  rcases hb with ⟨t2, ht2⟩
  have hl2 : t1.length = t2.length := by
    have e1 := congrArg List.length ht1
    have e2 := congrArg List.length ht2
    simp only [List.length_append] at e1 e2
    omega
  have := List.append_inj (ht1.trans ht2.symm) hl2
  exact this.2

theorem strEnds_css_opf (n : Str) (h1 : strEnds n (str ".css") = true)
    (h2 : strEnds n (str ".opf") = true) : False := by
  have := suffix_eq_of_length (str ".css") (str ".opf") n h1 h2 (by decide)
  exact absurd this (by decide)

theorem opf_ne_mimetype (n : Str) (h : strEnds n (str ".opf") = true) :
    (n == str "mimetype") = false := by
  cases hb : n == str "mimetype"
  · rfl
  · exfalso
    have heq : n = str "mimetype" := by simpa using hb
    rw [heq] at h
    exact absurd h (by decide)

theorem css_ne_mimetype (n : Str) (h : strEnds n (str ".css") = true) :
    (n == str "mimetype") = false := by
  cases hb : n == str "mimetype"
  · rfl
  · exfalso
    have heq : n = str "mimetype" := by simpa using hb
    rw [heq] at h
    exact absurd h (by decide)

theorem bytesHasInfix_append_left (a : List Nat) :
    ∀ rest pat : List Nat, bytesHasInfix a pat = true →
    bytesHasInfix (a ++ rest) pat = true := by
  induction a with
  | nil =>
    intro rest pat h
    simp only [bytesHasInfix] at h
    have : pat = [] := by simpa using h
    subst this
    cases rest with
    | nil => rfl
    | cons r t =>
      simp only [List.nil_append, bytesHasInfix]
      rw [show ([] : List Nat).isPrefixOf (r :: t) = true from rfl]
      rfl
  | cons x xs ih =>
    intro rest pat h
    simp only [bytesHasInfix, Bool.or_eq_true] at h
    rcases h with hpre | hrec
    · simp only [List.cons_append, bytesHasInfix, Bool.or_eq_true]
      left
      rw [List.isPrefixOf_iff_prefix] at hpre ⊢
      exact hpre.trans (List.prefix_append (x :: xs) rest)
    · simp only [List.cons_append, bytesHasInfix, Bool.or_eq_true]
      right
      exact ih rest pat hrec

theorem cssHasDirective_prefixed (css : List Nat) :
    cssHasDirective (rtlCssPrefixBytes ++ css) = true := by
  unfold cssHasDirective
  rw [List.take_append_eq_append_take]
  rw [show rtlCssPrefixBytes.take 300 = rtlCssPrefixBytes from by decide]
  unfold bytesLower
  rw [List.map_append]
  apply bytesHasInfix_append_left
  decide

theorem getAssoc_append {α β : Type} [BEq α] (l1 l2 : List (α × β)) (k : α) :
    getAssoc (l1 ++ l2) k =
      (match getAssoc l1 k with
       | some v => some v
       | none => getAssoc l2 k) := by
  induction l1 with
  | nil => simp [getAssoc]
  | cons kv t ih =>
    unfold getAssoc at ih ⊢
    rw [List.cons_append, List.find?_cons, List.find?_cons]
    cases hb : (kv.1 == k)
    · exact ih
    · rfl

theorem getAssoc_mem {α β : Type} [BEq α] [LawfulBEq α] (l : List (α × β)) (k : α)
    (v : β) (h : getAssoc l k = some v) : (k, v) ∈ l := by
  unfold getAssoc at h
  cases hf : l.find? (fun kv => kv.1 == k) with
  | none => rw [hf] at h; simp at h
  | some kv =>
    rw [hf] at h
    have hmem := List.mem_of_find?_eq_some hf
    have hk := List.find?_some hf
    simp only [Option.map_some', Option.some.injEq] at h
    have hk1 : kv.1 = k := by simpa using hk
    have : kv = (k, v) := by
      cases kv
      simp only [Prod.mk.injEq]
      exact ⟨hk1, by simpa using h⟩
    rw [← this]
    exact hmem

theorem entryValidOpf_data (n1 n2 : Str) (d : EData) (c1 c2 m1 m2 : Nat) :
    entryValidOpf ⟨n1, d, c1, m1⟩ = entryValidOpf ⟨n2, d, c2, m2⟩ := rfl

theorem zentry_eta (x : ZEntry) : ({ x with data := x.data } : ZEntry) = x := by
  cases x
  rfl

theorem nodup_middle_names (l1 : Archive) (a : ZEntry) (l2 : Archive)
    (h : ((l1 ++ a :: l2).map (·.name)).Nodup) : ∀ x ∈ l1, x.name ≠ a.name := by
  intro x hx heq
  rw [List.map_append, List.map_cons, List.nodup_append] at h
  exact h.2.2 (List.mem_map.mpr ⟨x, hx, rfl⟩) (by simp [heq])

theorem find?_filterMap_skip (pred : ZEntry → Bool) (F : ZEntry → Option ZEntry)
    (P1 : Archive) (u : ZEntry) (rest : Archive) (u' : ZEntry) (tail2 : Archive)
    (hfail : ∀ x ∈ P1, ∀ x', F x = some x' → pred x' = false)
    (hFu : F u = some u') (hpred : pred u' = true) :
    (((P1 ++ u :: rest).filterMap F) ++ tail2).find? pred = some u' := by
  rw [List.filterMap_append, List.filterMap_cons_some hFu, List.append_assoc,
    List.cons_append]
  apply find?_append_skip
  · intro x' hx'
    rcases List.mem_filterMap.mp hx' with ⟨x, hx, hF⟩
    exact hfail x hx x' hF
  · exact hpred

theorem dedup_split_at_entry (A : Archive) (entry : ZEntry) (pre post : Archive)
    (hsplit : A.reverse = pre ++ entry :: post) :
    ∃ (P1 : Archive) (u : ZEntry) (rest2 : Archive),
      dedupSeen A.reverse [] = P1 ++ u :: rest2 ∧ u.name = entry.name ∧
      ∀ x ∈ P1, x ∈ pre := by
  rw [hsplit, dedupSeen_append]
  by_cases hc : (List.map (fun x => x.name) pre ++ ([] : List Str)).contains entry.name
      = true
  · have hpren : entry.name ∈ pre.map (·.name) := by
      have hmem := (containsT _ entry.name).mp hc
      rcases List.mem_append.mp hmem with h1 | h1
      · exact h1
      · simp at h1
    obtain ⟨u, hu, hun⟩ := dedupSeen_keeps_name pre [] entry.name hpren rfl
    obtain ⟨P1, P2, hP⟩ := List.append_of_mem hu
    refine ⟨P1, u, P2 ++ dedupSeen (entry :: post) (List.map (fun x => x.name) pre ++ []),
      ?_, hun, ?_⟩
    · rw [hP, List.append_assoc, List.cons_append]
    · intro x hx
      have hxd : x ∈ dedupSeen pre [] := by
        rw [hP]
        exact List.mem_append.mpr (Or.inl hx)
      exact mem_dedupSeen pre [] x hxd
  · have hstep : dedupSeen (entry :: post) (List.map (fun x => x.name) pre ++ []) =
        entry :: dedupSeen post
          (entry.name :: (List.map (fun x => x.name) pre ++ [])) := by
      simp only [dedupSeen]
      rw [if_neg hc]
    rw [hstep]
    refine ⟨dedupSeen pre [], entry,
      dedupSeen post (entry.name :: (List.map (fun x => x.name) pre ++ [])), rfl, rfl, ?_⟩
    intro x hx
    exact mem_dedupSeen pre [] x hx

theorem pickValidOpf_rewrite (now : Nat) (A : Archive) (entry : ZEntry)
    (repl : List (Str × EData)) (newData : EData)
    (hpick : pickValidOpf A = some entry)
    (hrepl : getAssoc repl entry.name = some newData)
    (hkeys : ∀ nm d, (nm, d) ∈ repl → nm = entry.name ∨ strEnds nm (str ".css") = true)
    (hvalid : entryValidOpf ⟨entry.name, newData, 0, 0⟩ = true) :
    ∃ u : ZEntry,
      pickValidOpf (rewriteDedup now (uniqueEntries A) repl) =
        some ⟨entry.name, newData, u.ctype, u.mtime⟩ := by
  unfold pickValidOpf at hpick
  rcases find?_decomp _ _ _ hpick with ⟨pre, post, hsplit, hfailpre, hpe⟩
  have hopf : strEnds entry.name (str ".opf") = true := by
    have h := hpe
    rw [Bool.and_eq_true] at h
    exact h.1
  have hDnodup : ((dedupSeen A.reverse []).map (·.name)).Nodup :=
    (dedupSeen_nodup A.reverse []).1
  obtain ⟨P1, u, rest2, hD, hun, hP1pre⟩ := dedup_split_at_entry A entry pre post hsplit
  have hP1ne : ∀ x ∈ P1, x.name ≠ entry.name := by
    intro x hx
    rw [← hun]
    exact nodup_middle_names P1 u rest2 (by rw [← hD]; exact hDnodup) x hx
  have hFopf : ∀ x : ZEntry, strEnds x.name (str ".opf") = true → x.name ≠ entry.name →
      getAssoc repl x.name = none := by
    intro x hx hne
    cases hga : getAssoc repl x.name with
    | none => rfl
    | some d =>
      exfalso
      have hmem := getAssoc_mem repl x.name d hga
      rcases hkeys x.name d hmem with h1 | h1
      · exact hne h1
      · exact strEnds_css_opf x.name h1 hx
  unfold pickValidOpf rewriteDedup
  rw [List.reverse_append]
  have hbodyrev : ((uniqueEntries A).filterMap (fun info =>
      if info.name == str "mimetype" then none
      else some { info with data := (getAssoc repl info.name).getD info.data })).reverse =
      (dedupSeen A.reverse []).filterMap (fun info =>
        if info.name == str "mimetype" then none
        else some { info with data := (getAssoc repl info.name).getD info.data }) := by
    rw [← List.filterMap_reverse]
    unfold uniqueEntries
    rw [List.reverse_reverse]
  rw [hbodyrev, hD]
  refine ⟨u, ?_⟩
  apply find?_filterMap_skip
  · intro x hx x' hF
    by_cases hmt : (x.name == str "mimetype") = true
    · rw [if_pos hmt] at hF
      simp at hF
    · rw [if_neg hmt] at hF
      have hx' : x' = { x with data := (getAssoc repl x.name).getD x.data } := by
        simpa using hF.symm
      subst hx'
      cases hop : strEnds x.name (str ".opf") with
      | false => rfl
      | true =>
        have hga := hFopf x hop (hP1ne x hx)
        rw [hga]
        have hxx : ({ x with data := (none : Option EData).getD x.data } : ZEntry) = x :=
          zentry_eta x
        rw [hxx]
        have hf := hfailpre x (hP1pre x hx)
        rw [hop] at hf
        exact hf
  · have hmt : (u.name == str "mimetype") = false := by
      apply opf_ne_mimetype
      rw [hun]
      exact hopf
    rw [if_neg (by simp [hmt])]
    rw [hun, hrepl]
    rfl
  · show (strEnds (⟨entry.name, newData, u.ctype, u.mtime⟩ : ZEntry).name (str ".opf") &&
      entryValidOpf ⟨entry.name, newData, u.ctype, u.mtime⟩) = true
    rw [show (⟨entry.name, newData, u.ctype, u.mtime⟩ : ZEntry).name = entry.name from rfl,
      hopf, entryValidOpf_data entry.name entry.name newData u.ctype 0 u.mtime 0, hvalid]
    rfl

theorem filterMap_names_sublist (repl : List (Str × EData)) (l : Archive) :
    ((l.filterMap (fun info =>
        if info.name == str "mimetype" then none
        else some { info with data := (getAssoc repl info.name).getD info.data })).map
      (·.name)).Sublist (l.map (·.name)) := by
  induction l with
  | nil => simp
  | cons a t ih =>
    by_cases h : (a.name == str "mimetype") = true
    · rw [List.filterMap_cons_none (by rw [if_pos h])]
      rw [List.map_cons]
      exact ih.cons _
    · rw [List.filterMap_cons_some (by rw [if_neg h])]
      simp only [List.map_cons]
      exact ih.cons₂ _

theorem mem_rewrite_body {repl : List (Str × EData)} {uniq : Archive} {x : ZEntry}
    (hx : x ∈ uniq.filterMap (fun info =>
        if info.name == str "mimetype" then none
        else some { info with data := (getAssoc repl info.name).getD info.data })) :
    ∃ i ∈ uniq, (i.name == str "mimetype") = false ∧
      x = { i with data := (getAssoc repl i.name).getD i.data } := by
  rcases List.mem_filterMap.mp hx with ⟨i, hi, hF⟩
  by_cases h : (i.name == str "mimetype") = true
  · rw [if_pos h] at hF
    simp at hF
  · rw [if_neg h] at hF
    refine ⟨i, hi, by simpa using h, ?_⟩
    simpa using hF.symm

theorem body_name_ne_mimetype {repl : List (Str × EData)} {uniq : Archive} {x : ZEntry}
    (hx : x ∈ uniq.filterMap (fun info =>
        if info.name == str "mimetype" then none
        else some { info with data := (getAssoc repl info.name).getD info.data })) :
    (x.name == str "mimetype") = false := by
  rcases mem_rewrite_body hx with ⟨i, _, hne, rfl⟩
  exact hne

theorem rewriteDedup_names_nodup (now : Nat) (uniq : Archive) (repl : List (Str × EData))
    (h : (uniq.map (·.name)).Nodup) :
    ((rewriteDedup now uniq repl).map (·.name)).Nodup := by
  unfold rewriteDedup
  cases hf : uniq.find? (fun e => e.name == str "mimetype") with
  | none =>
    simp only [List.nil_append]
    exact (filterMap_names_sublist repl uniq).nodup h
  | some m =>
    simp only [List.singleton_append, List.map_cons, List.nodup_cons]
    constructor
    · intro hmem
      rcases List.mem_map.mp hmem with ⟨x, hx, hxn⟩
      have := body_name_ne_mimetype hx
      rw [hxn] at this
      simp at this
    · exact (filterMap_names_sublist repl uniq).nodup h

theorem uniqueEntries_rewriteDedup (now : Nat) (uniq : Archive)
    (repl : List (Str × EData)) (h : (uniq.map (·.name)).Nodup) :
    uniqueEntries (rewriteDedup now uniq repl) = rewriteDedup now uniq repl :=
  uniqueEntries_eq_self _ (rewriteDedup_names_nodup now uniq repl h)

theorem needsCleanup_rewriteDedup (now : Nat) (uniq : Archive)
    (repl : List (Str × EData)) (h : (uniq.map (·.name)).Nodup) :
    needsCleanup (rewriteDedup now uniq repl) = false := by
  have hu := uniqueEntries_rewriteDedup now uniq repl h
  unfold needsCleanup
  rw [hu]
  simp only [beq_self_eq_true, Bool.not_true, Bool.false_or]
  conv_lhs => rw [rewriteDedup]
  cases hf : uniq.find? (fun e => e.name == str "mimetype") with
  | none =>
    simp only [List.nil_append]
    have hnone : ((uniq.filterMap (fun info =>
        if info.name == str "mimetype" then none
        else some { info with data := (getAssoc repl info.name).getD info.data })).reverse).find?
        (fun e => e.name == str "mimetype") = none := by
      rw [List.find?_eq_none]
      intro x hx
      have := body_name_ne_mimetype (List.mem_reverse.mp hx)
      simp [this]
    rw [hnone]
  | some m =>
    simp only [List.singleton_append]
    have hrev : (({ name := str "mimetype", data := m.data, ctype := 0, mtime := now } :
        ZEntry) :: uniq.filterMap (fun info =>
          if info.name == str "mimetype" then none
          else some { info with data := (getAssoc repl info.name).getD info.data })).reverse =
        (uniq.filterMap (fun info =>
          if info.name == str "mimetype" then none
          else some { info with data := (getAssoc repl info.name).getD info.data })).reverse ++
        ({ name := str "mimetype", data := m.data, ctype := 0, mtime := now } :
          ZEntry) :: [] := by
      rw [List.reverse_cons]
    rw [hrev]
    rw [find?_append_skip _ _ _ _ ?_ ?_]
    · rfl
    · intro x hx
      exact body_name_ne_mimetype (List.mem_reverse.mp hx)
    · simp

theorem uniqueEntries_names_nodup (A : Archive) :
    ((uniqueEntries A).map (·.name)).Nodup := by
  unfold uniqueEntries
  rw [List.map_reverse]
  exact List.nodup_reverse.mpr (dedupSeen_nodup A.reverse []).1

theorem entryValidOpf_any (e : ZEntry) (c m : Nat) :
    entryValidOpf ⟨e.name, e.data, c, m⟩ = entryValidOpf e := by
  cases e
  rfl

theorem cssRepl_after_rewrite (now : Nat) (uniq : Archive) (repl : List (Str × EData))
    (hnd : (uniq.map (·.name)).Nodup)
    (hcss : ∀ i ∈ uniq, strEnds i.name (str ".css") = true →
      getAssoc repl i.name = some (.bin (rtlCssPrefixBytes ++ dataBytes i.data)) ∨
      (getAssoc repl i.name = none ∧ cssHasDirective (dataBytes i.data) = true)) :
    (rewriteDedup now uniq repl).filterMap cssReplEntry = [] := by
  rw [List.filterMap_eq_nil_iff]
  intro x hx
  unfold cssReplEntry
  simp only []
  unfold rewriteDedup at hx
  rcases List.mem_append.mp hx with hmim | hbody
  · have hxname : x.name = str "mimetype" := by
      cases hfm : uniq.find? (fun e => e.name == str "mimetype") with
      | none => rw [hfm] at hmim; simp at hmim
      | some m =>
        rw [hfm] at hmim
        simp only [List.mem_singleton] at hmim
        rw [hmim]
    rw [if_pos]
    rw [hxname]
    decide
  · rcases mem_rewrite_body hbody with ⟨i, hi, hne, rfl⟩
    by_cases hc : strEnds i.name (str ".css") = true
    · rcases hcss i hi hc with h1 | ⟨h1, h2⟩
      · rw [h1]
        rw [if_neg (by
          show ¬ (!strEnds i.name (str ".css")) = true
          rw [hc]
          simp)]
        rw [if_pos]
        show cssHasDirective (dataBytes (EData.bin (rtlCssPrefixBytes ++ dataBytes i.data)))
          = true
        exact cssHasDirective_prefixed (dataBytes i.data)
      · rw [h1]
        rw [if_neg (by
          show ¬ (!strEnds i.name (str ".css")) = true
          rw [hc]
          simp)]
        rw [if_pos]
        show cssHasDirective (dataBytes (Option.getD none i.data)) = true
        simpa using h2
    · rw [if_pos]
      show (!strEnds i.name (str ".css")) = true
      cases hcc : strEnds i.name (str ".css")
      · rfl
      · exact absurd hcc hc

theorem rtlSpineSet_tag (n : XNode) : ((rtlSpineSet n).1).tag = n.tag := by
  unfold rtlSpineSet
  by_cases h : (attrGet n (str "page-progression-direction") == some (str "rtl")) = true
  · rw [if_neg (by simp [h])]
  · rw [if_pos (by simp [h])]
    exact attrSet_tag n _ _

theorem rtlSpineSet_children (n : XNode) :
    ((rtlSpineSet n).1).children = n.children := by
  unfold rtlSpineSet
  by_cases h : (attrGet n (str "page-progression-direction") == some (str "rtl")) = true
  · rw [if_neg (by simp [h])]
  · rw [if_pos (by simp [h])]
    exact attrSet_children n _ _

theorem rtlSpineSet_idem (n : XNode) :
    rtlSpineSet ((rtlSpineSet n).1) = ((rtlSpineSet n).1, false) := by
  by_cases h : (attrGet n (str "page-progression-direction") == some (str "rtl")) = true
  · have h1 : rtlSpineSet n = (n, false) := by
      unfold rtlSpineSet
      rw [if_neg (by simp [h])]
    rw [h1]
    exact h1
  · have h1 : rtlSpineSet n =
        (attrSet n (str "page-progression-direction") (str "rtl"), true) := by
      unfold rtlSpineSet
      rw [if_pos (by simp [h])]
    rw [h1]
    show rtlSpineSet (attrSet n (str "page-progression-direction") (str "rtl")) = _
    unfold rtlSpineSet
    rw [if_neg (by rw [attrGet_attrSet_self]; simp)]

theorem cssReplEntry_keys : ∀ (j : ZEntry) (p : Str × EData),
    cssReplEntry j = some p → p.1 = j.name := by
  intro j p hF
  unfold cssReplEntry at hF
  by_cases hcs : (!strEnds j.name (str ".css")) = true
  · rw [if_pos hcs] at hF
    simp at hF
  · rw [if_neg hcs] at hF
    simp only [] at hF
    by_cases hd : cssHasDirective (dataBytes j.data) = true
    · rw [if_pos hd] at hF
      simp at hF
    · rw [if_neg hd] at hF
      have h2 : (j.name, EData.bin (rtlCssPrefixBytes ++ dataBytes j.data)) = p := by
        simpa using hF
      rw [← h2]

theorem cssReplEntry_some_css : ∀ (j : ZEntry) (p : Str × EData),
    cssReplEntry j = some p → strEnds j.name (str ".css") = true := by
  intro j p hF
  unfold cssReplEntry at hF
  by_cases hcs : (!strEnds j.name (str ".css")) = true
  · rw [if_pos hcs] at hF
    simp at hF
  · cases hc : strEnds j.name (str ".css")
    · exfalso
      apply hcs
      rw [hc]
      rfl
    · rfl

theorem cssReplEntry_css (i : ZEntry) (h : strEnds i.name (str ".css") = true) :
    (cssHasDirective (dataBytes i.data) = true ∧ cssReplEntry i = none) ∨
    (cssHasDirective (dataBytes i.data) = false ∧
      cssReplEntry i = some (i.name, .bin (rtlCssPrefixBytes ++ dataBytes i.data))) := by
  by_cases hd : cssHasDirective (dataBytes i.data) = true
  · left
    refine ⟨hd, ?_⟩
    unfold cssReplEntry
    rw [if_neg (by rw [h]; simp)]
    simp only []
    rw [if_pos hd]
  · right
    refine ⟨by cases hx : cssHasDirective (dataBytes i.data) with
      | false => rfl
      | true => exact absurd hx hd, ?_⟩
    unfold cssReplEntry
    rw [if_neg (by rw [h]; simp)]
    simp only []
    rw [if_neg hd]

/-- Claim C5: `set_epub_to_rtl` applied twice to the same package reports
`changed = false` on the second call and leaves the archive byte-identical:
the second call short-circuits before any rewrite, because the first call's
output already carries the spine attribute, directive-prefixed
stylesheets, unique entry names, and a stored `mimetype`. -/
theorem set_epub_to_rtl_second_noop (now1 now2 : Nat) (A : Archive) :
    set_epub_to_rtl now2 (set_epub_to_rtl now1 A).1 =
      ((set_epub_to_rtl now1 A).1, false) := by
  cases hpick : pickValidOpf A with
  | none =>
    have h1 : set_epub_to_rtl now1 A = (A, false) := by
      simp only [set_epub_to_rtl, hpick]
    rw [h1]
    simp only [set_epub_to_rtl, hpick]
  | some entry =>
    cases hdata : entry.data with
    | bin bs =>
      have h1 : set_epub_to_rtl now1 A = (A, false) := by
        simp only [set_epub_to_rtl, hpick, hdata]
      rw [h1]
      simp only [set_epub_to_rtl, hpick, hdata]
    | xml decl root =>
      cases hrfn : replaceFirstNode (nsOfTag root.tag ++ str "spine") rtlSpineSet root with
      | none =>
        have h1 : set_epub_to_rtl now1 A = (A, false) := by
          simp only [set_epub_to_rtl, hpick, hdata, hrfn]
        rw [h1]
        simp only [set_epub_to_rtl, hpick, hdata, hrfn]
      | some pr =>
        obtain ⟨root2, spineChanged⟩ := pr
        by_cases hquiet :
            (!(spineChanged || !((uniqueEntries A).filterMap cssReplEntry).isEmpty) &&
              !needsCleanup A) = true
        · have h1 : set_epub_to_rtl now1 A = (A, false) := by
            simp only [set_epub_to_rtl, hpick, hdata, hrfn]
            rw [if_pos hquiet]
          rw [h1]
          simp only [set_epub_to_rtl, hpick, hdata, hrfn]
          rw [if_pos hquiet]
        · have h1 : set_epub_to_rtl now1 A =
              (rewriteDedup now1 (uniqueEntries A)
                ((uniqueEntries A).filterMap cssReplEntry ++
                  [(entry.name,
                    if spineChanged || !((uniqueEntries A).filterMap cssReplEntry).isEmpty
                    then EData.xml decl root2 else entry.data)]), true) := by
            simp only [set_epub_to_rtl, hpick, hdata, hrfn]
            rw [if_neg hquiet]
          rw [h1]
          have hopfv : (strEnds entry.name (str ".opf") && entryValidOpf entry) = true := by
            have hpickF := hpick
            unfold pickValidOpf at hpickF
            simpa using List.find?_some hpickF
          rw [Bool.and_eq_true] at hopfv
          have hopf := hopfv.1
          have hvalidE := hopfv.2
          have hund := uniqueEntries_names_nodup A
          have hkeysCss : ∀ nm d,
              (nm, d) ∈ (uniqueEntries A).filterMap cssReplEntry →
              strEnds nm (str ".css") = true := by
            intro nm d hmem
            rcases List.mem_filterMap.mp hmem with ⟨i, hi, hF⟩
            have h1 := cssReplEntry_keys i (nm, d) hF
            have h2 := cssReplEntry_some_css i (nm, d) hF
            simp only at h1
            rw [h1]
            exact h2
          have hgetE : getAssoc
              ((uniqueEntries A).filterMap cssReplEntry ++
                [(entry.name,
                  if spineChanged || !((uniqueEntries A).filterMap cssReplEntry).isEmpty
                  then EData.xml decl root2 else entry.data)]) entry.name =
              some (if spineChanged || !((uniqueEntries A).filterMap cssReplEntry).isEmpty
                then EData.xml decl root2 else entry.data) := by
            rw [getAssoc_append]
            have hnone : getAssoc ((uniqueEntries A).filterMap cssReplEntry) entry.name
                = none := by
              cases hga : getAssoc ((uniqueEntries A).filterMap cssReplEntry) entry.name with
              | none => rfl
              | some d =>
                exfalso
                have hmem := getAssoc_mem _ entry.name d hga
                exact strEnds_css_opf entry.name (hkeysCss entry.name d hmem) hopf
            rw [hnone]
            unfold getAssoc
            rw [List.find?_cons]
            rw [show ((entry.name,
              if spineChanged || !((uniqueEntries A).filterMap cssReplEntry).isEmpty
              then EData.xml decl root2 else entry.data).1 == entry.name) = true by simp]
            rfl
          have hkeys : ∀ nm d,
              (nm, d) ∈ ((uniqueEntries A).filterMap cssReplEntry ++
                [(entry.name,
                  if spineChanged || !((uniqueEntries A).filterMap cssReplEntry).isEmpty
                  then EData.xml decl root2 else entry.data)]) →
              nm = entry.name ∨ strEnds nm (str ".css") = true := by
            intro nm d hmem
            rcases List.mem_append.mp hmem with hm1 | hm1
            · exact Or.inr (hkeysCss nm d hm1)
            · left
              simp only [List.mem_singleton, Prod.mk.injEq] at hm1
              exact hm1.1
          have hv2 : ((findFirstNode (nsOfTag root.tag ++ str "manifest") root).isSome &&
              (findFirstNode (nsOfTag root.tag ++ str "spine") root).isSome) = true := by
            have hthis := hvalidE
            unfold entryValidOpf at hthis
            rw [hdata] at hthis
            simpa using hthis
          have htag2 : root2.tag = root.tag := replaceFirstNode_tag _ _ _ _ _ hrfn
          have hvX : entryValidOpf ⟨entry.name,
              (if spineChanged || !((uniqueEntries A).filterMap cssReplEntry).isEmpty
                then EData.xml decl root2 else entry.data), 0, 0⟩ = true := by
            by_cases hc : (spineChanged ||
                !((uniqueEntries A).filterMap cssReplEntry).isEmpty) = true
            · rw [if_pos hc]
              unfold entryValidOpf
              simp only []
              rw [htag2]
              have hpres := (replaceFirst_find_aux (nsOfTag root.tag ++ str "spine")
                rtlSpineSet rtlSpineSet_tag rtlSpineSet_children (xSize root)).1
                root le_rfl root2 spineChanged hrfn
              rw [hpres (nsOfTag root.tag ++ str "manifest"),
                hpres (nsOfTag root.tag ++ str "spine")]
              exact hv2
            · rw [if_neg hc]
              rw [show entryValidOpf ⟨entry.name, entry.data, 0, 0⟩ = entryValidOpf entry
                from by cases entry; rfl]
              exact hvalidE
          obtain ⟨u, hpick2⟩ := pickValidOpf_rewrite now1 A entry _ _ hpick hgetE hkeys hvX
          have hcssObl : ∀ i ∈ uniqueEntries A, strEnds i.name (str ".css") = true →
              getAssoc ((uniqueEntries A).filterMap cssReplEntry ++
                [(entry.name,
                  if spineChanged || !((uniqueEntries A).filterMap cssReplEntry).isEmpty
                  then EData.xml decl root2 else entry.data)]) i.name =
                some (.bin (rtlCssPrefixBytes ++ dataBytes i.data)) ∨
              (getAssoc ((uniqueEntries A).filterMap cssReplEntry ++
                [(entry.name,
                  if spineChanged || !((uniqueEntries A).filterMap cssReplEntry).isEmpty
                  then EData.xml decl root2 else entry.data)]) i.name = none ∧
                cssHasDirective (dataBytes i.data) = true) := by
            intro i hi hic
            have hne : i.name ≠ entry.name := fun heq =>
              strEnds_css_opf i.name hic (heq ▸ hopf)
            have hg1 := getAssoc_filterMap_nodup cssReplEntry cssReplEntry_keys
              (uniqueEntries A) i hund hi
            have htail : getAssoc [(entry.name,
                if spineChanged || !((uniqueEntries A).filterMap cssReplEntry).isEmpty
                then EData.xml decl root2 else entry.data)] i.name = none := by
              unfold getAssoc
              rw [List.find?_cons]
              rw [show ((entry.name,
                if spineChanged || !((uniqueEntries A).filterMap cssReplEntry).isEmpty
                then EData.xml decl root2 else entry.data).1 == i.name) = false by
                  simp only []
                  exact beq_eq_false_iff_ne.mpr fun heq => hne heq.symm]
              rfl
            rcases cssReplEntry_css i hic with ⟨hd, hGi⟩ | ⟨hd, hGi⟩
            · right
              refine ⟨?_, hd⟩
              rw [getAssoc_append, hg1, hGi]
              simpa using htail
            · left
              rw [getAssoc_append, hg1, hGi]
              rfl
          have hcss2 : (uniqueEntries (rewriteDedup now1 (uniqueEntries A)
              ((uniqueEntries A).filterMap cssReplEntry ++
                [(entry.name,
                  if spineChanged || !((uniqueEntries A).filterMap cssReplEntry).isEmpty
                  then EData.xml decl root2 else entry.data)]))).filterMap cssReplEntry
              = [] := by
            rw [uniqueEntries_rewriteDedup now1 (uniqueEntries A) _ hund]
            exact cssRepl_after_rewrite now1 (uniqueEntries A) _ hund hcssObl
          have hclean2 : needsCleanup (rewriteDedup now1 (uniqueEntries A)
              ((uniqueEntries A).filterMap cssReplEntry ++
                [(entry.name,
                  if spineChanged || !((uniqueEntries A).filterMap cssReplEntry).isEmpty
                  then EData.xml decl root2 else entry.data)])) = false :=
            needsCleanup_rewriteDedup now1 (uniqueEntries A) _ hund
          by_cases hc : (spineChanged ||
              !((uniqueEntries A).filterMap cssReplEntry).isEmpty) = true
          · rw [if_pos hc] at hpick2 hcss2 hclean2 ⊢
            have hidem2 : replaceFirstNode (nsOfTag root2.tag ++ str "spine")
                rtlSpineSet root2 = some (root2, false) := by
              rw [htag2]
              exact (replaceFirst_idem_aux (nsOfTag root.tag ++ str "spine") rtlSpineSet
                false rtlSpineSet_tag rtlSpineSet_idem (xSize root)).1
                root le_rfl root2 spineChanged hrfn
            show set_epub_to_rtl now2 _ = _
            simp only [set_epub_to_rtl, hpick2, hidem2, hcss2, hclean2]
            rw [if_pos (by rfl)]
          · have hspf : spineChanged = false := by
              cases hsc : spineChanged
              · rfl
              · exfalso
                apply hc
                rw [hsc]
                rfl
            rw [if_neg hc] at hpick2 hcss2 hclean2 ⊢
            rw [hdata] at hpick2 hcss2 hclean2
            rw [hspf] at hrfn
            show set_epub_to_rtl now2 _ = _
            simp only [set_epub_to_rtl, hpick2, hdata, hrfn, hcss2, hclean2]
            rw [if_pos (by rfl)]

/-- Claim C2 counterexample: on `archC2` the repaired document still
contains two manifest items with the (empty) same id and an item whose
href `missing.png` resolves to no archive entry — only unresolvable hrefs
that point under a `/text/` path are dropped, and only items with truthy
ids are deduplicated. -/
theorem manifest_invariant_counterexample :
    ¬ specC2Invariant (fix_content_opf_problems 7 archC2) := by
  unfold specC2Invariant
  decide

theorem perm_sInsert {α : Type} (le : α → α → Bool) (x : α) (l : List α) :
    (sInsert le x l).Perm (x :: l) := by
  induction l with
  | nil => exact List.Perm.refl _
  | cons y t ih =>
    simp only [sInsert]
    by_cases h : le x y = true
    · rw [if_pos h]
    · rw [if_neg h]
      exact (List.Perm.cons y ih).trans (List.Perm.swap x y t)

theorem perm_stableSort {α : Type} (le : α → α → Bool) (l : List α) :
    (stableSort le l).Perm l := by
  induction l with
  | nil => exact List.Perm.refl _
  | cons x t ih =>
    show (sInsert le x (stableSort le t)).Perm (x :: t)
    exact (perm_sInsert le x (stableSort le t)).trans (List.Perm.cons x ih)

theorem fill_cons (isT : XNode → Bool) (c : XNode) (rest q : List XNode) :
    reorderPages.fill isT (c :: rest) q =
      (if isT c then
        match q with
        | q0 :: qs => q0 :: reorderPages.fill isT rest qs
        | [] => c :: reorderPages.fill isT rest []
      else c :: reorderPages.fill isT rest q) := rfl

theorem fill_perm (isT : XNode → Bool) :
    ∀ (cs q : List XNode), q.length = (cs.filter isT).length →
    (reorderPages.fill isT cs q).Perm (cs.filter (fun c => !isT c) ++ q) := by
  intro cs
  induction cs with
  | nil =>
    intro q hq
    simp only [List.filter_nil, List.length_nil] at hq
    rw [List.eq_nil_of_length_eq_zero hq]
    exact List.Perm.refl _
  | cons c rest ih =>
    intro q hq
    by_cases hT : isT c = true
    · rw [List.filter_cons_of_pos hT] at hq
      simp only [List.length_cons] at hq
      cases q with
      | nil => simp at hq
      | cons q0 qs =>
        simp only [List.length_cons] at hq
        show (reorderPages.fill isT (c :: rest) (q0 :: qs)).Perm _
        rw [show reorderPages.fill isT (c :: rest) (q0 :: qs) =
          q0 :: reorderPages.fill isT rest qs from by
            rw [fill_cons, if_pos hT]]
        rw [List.filter_cons_of_neg (by simp [hT])]
        exact (List.Perm.cons q0 (ih qs (by omega))).trans List.perm_middle.symm
    · have hTf : isT c = false := by
        cases hx : isT c
        · rfl
        · exact absurd hx hT
      rw [List.filter_cons_of_neg (by simp [hTf])] at hq
      rw [show reorderPages.fill isT (c :: rest) q =
        c :: reorderPages.fill isT rest q from by
          rw [fill_cons, if_neg (by simp [hTf])]]
      rw [List.filter_cons_of_pos (by simp [hTf])]
      exact List.Perm.cons c (ih q hq)

theorem reorderPages_perm (ns tagName attr : Str) (cs : List XNode) :
    (reorderPages ns tagName attr cs).Perm cs := by
  unfold reorderPages
  by_cases hE : (cs.filter (fun c =>
      c.tag == ns ++ tagName && (pageIdNum (attrGetD c attr)).isSome)).isEmpty = true
  · rw [if_pos hE]
  · rw [if_neg hE]
    have hlen : (stableSort (fun a b =>
        (pageIdNum (attrGetD a attr)).getD 0 ≤ (pageIdNum (attrGetD b attr)).getD 0)
        (cs.filter (fun c =>
          c.tag == ns ++ tagName && (pageIdNum (attrGetD c attr)).isSome))).length =
        (cs.filter (fun c =>
          c.tag == ns ++ tagName && (pageIdNum (attrGetD c attr)).isSome)).length :=
      (perm_stableSort _ _).length_eq
    refine (fill_perm _ cs _ hlen).trans ?_
    refine ((List.Perm.append_left _ ((perm_stableSort _ _))).trans ?_)
    exact List.perm_append_comm.trans (List.filter_append_perm _ cs)

theorem mem_reorderPages (ns tagName attr : Str) (cs : List XNode) (x : XNode) :
    x ∈ reorderPages ns tagName attr cs ↔ x ∈ cs :=
  (reorderPages_perm ns tagName attr cs).mem_iff

theorem mem_insertClamped {α : Type} (l : List α) (i : Nat) (y x : α) :
    x ∈ insertClamped l i y ↔ x = y ∨ x ∈ l := by
  unfold insertClamped
  simp only [List.mem_append, List.mem_singleton]
  constructor
  · rintro ((h | h) | h)
    · exact Or.inr (List.mem_of_mem_take h)
    · exact Or.inl h
    · exact Or.inr (List.mem_of_mem_drop h)
  · rintro (h | h)
    · exact Or.inl (Or.inr h)
    · rcases List.mem_append.mp ((List.take_append_drop i l).symm ▸ h)
        with h2 | h2
      · exact Or.inl (Or.inl h2)
      · exact Or.inr h2

theorem keyNodup_mem_eq {α β : Type} (l : List (α × β))
    (hnd : (l.map (·.1)).Nodup) (k : α) (v1 v2 : β)
    (h1 : (k, v1) ∈ l) (h2 : (k, v2) ∈ l) : v1 = v2 := by
  induction l with
  | nil => simp at h1
  | cons kv t ih =>
    have hnd2 : (∀ b : β, (kv.1, b) ∉ t) ∧ (t.map (·.1)).Nodup := by
      simpa using hnd
    rcases List.mem_cons.mp h1 with he1 | ht1
    · rcases List.mem_cons.mp h2 with he2 | ht2
      · have h3 : ((k, v1) : α × β) = (k, v2) := he1.trans he2.symm
        exact congrArg Prod.snd h3
      · exfalso
        have hk : kv.1 = k := by rw [← he1]
        rw [← hk] at ht2
        exact hnd2.1 v2 ht2
    · rcases List.mem_cons.mp h2 with he2 | ht2
      · exfalso
        have hk : kv.1 = k := by rw [← he2]
        rw [← hk] at ht1
        exact hnd2.1 v1 ht1
      · exact ih hnd2.2 ht1 ht2

theorem filterMap_nodup_inj {α β γ : Type} (l : List α) (f : α → Option β) (g : α → γ)
    (hl : (l.map g).Nodup)
    (hinj : ∀ x ∈ l, ∀ y ∈ l, ∀ b, f x = some b → f y = some b → g x = g y) :
    (l.filterMap f).Nodup := by
  induction l with
  | nil => simp
  | cons a t ih =>
    have hnd2 : (∀ x ∈ t, ¬ g x = g a) ∧ (t.map g).Nodup := by
      simpa using hl
    cases hfa : f a with
    | none =>
      rw [List.filterMap_cons_none hfa]
      exact ih hnd2.2 fun x hx y hy b hbx hby =>
        hinj x (by simp [hx]) y (by simp [hy]) b hbx hby
    | some b =>
      rw [List.filterMap_cons_some hfa]
      rw [List.nodup_cons]
      refine ⟨?_, ih hnd2.2 fun x hx y hy b hbx hby =>
        hinj x (by simp [hx]) y (by simp [hy]) b hbx hby⟩
      intro hmem
      rcases List.mem_filterMap.mp hmem with ⟨y, hy, hfy⟩
      have := hinj y (by simp [hy]) a (by simp) b hfy hfa
      exact hnd2.1 y hy this

theorem getAssoc_none_not_mem {α β : Type} [BEq α] [LawfulBEq α]
    (l : List (α × β)) (k : α) (h : getAssoc l k = none) : k ∉ l.map (·.1) := by
  intro hmem
  rcases List.mem_map.mp hmem with ⟨p, hp, hpk⟩
  unfold getAssoc at h
  rw [Option.map_eq_none', List.find?_eq_none] at h
  exact h p hp (by simp [hpk])

theorem getAssoc_some_any {α β : Type} [BEq α] [LawfulBEq α]
    (l : List (α × β)) (k : α) (v : β) (h : getAssoc l k = some v) :
    l.any (fun kv => kv.1 == k) = true := by
  have hmem := getAssoc_mem l k v h
  rw [List.any_eq_true]
  exact ⟨(k, v), hmem, by simp⟩

theorem setAssoc_keys_of_mem {α β : Type} [BEq α] [LawfulBEq α]
    (l : List (α × β)) (k : α) (v : β) (h : k ∈ l.map (·.1)) :
    (setAssoc l k v).map (·.1) = l.map (·.1) := by
  induction l with
  | nil => simp at h
  | cons kv t ih =>
    simp only [setAssoc]
    by_cases hk : (kv.1 == k) = true
    · rw [if_pos hk]
      simp only [List.map_cons]
      congr 1
      exact ((by simpa using hk : kv.1 = k)).symm
    · rw [if_neg hk]
      simp only [List.map_cons]
      congr 1
      apply ih
      rcases List.mem_map.mp h with ⟨p, hp, hpk⟩
      rcases List.mem_cons.mp hp with rfl | hpt
      · exfalso
        exact hk (by simp [hpk])
      · exact List.mem_map.mpr ⟨p, hpt, hpk⟩

theorem mem_setAssoc_self {α β : Type} [BEq α] [LawfulBEq α]
    (l : List (α × β)) (k : α) (v : β) : (k, v) ∈ setAssoc l k v := by
  induction l with
  | nil => simp [setAssoc]
  | cons kv t ih =>
    simp only [setAssoc]
    by_cases hk : (kv.1 == k) = true
    · rw [if_pos hk]
      simp
    · rw [if_neg hk]
      exact List.mem_cons_of_mem kv ih

theorem mem_setAssoc_iff {α β : Type} [BEq α] [LawfulBEq α]
    (l : List (α × β)) (k : α) (v : β) (hnd : (l.map (·.1)).Nodup)
    (p1 : α) (p2 : β) :
    (p1, p2) ∈ setAssoc l k v ↔ (p1, p2) = (k, v) ∨ ((p1, p2) ∈ l ∧ ¬ p1 = k) := by
  induction l with
  | nil =>
    simp [setAssoc]
  | cons kv t ih =>
    have hnd2 : (∀ b : β, (kv.1, b) ∉ t) ∧ (t.map (·.1)).Nodup := by
      simpa using hnd
    simp only [setAssoc]
    by_cases hk : (kv.1 == k) = true
    · rw [if_pos hk]
      have hkeq : kv.1 = k := by simpa using hk
      constructor
      · intro hmem
        rcases List.mem_cons.mp hmem with h | h
        · exact Or.inl h
        · refine Or.inr ⟨List.mem_cons_of_mem kv h, ?_⟩
          intro hpk
          apply hnd2.1 p2
          rw [show kv.1 = p1 from hkeq.trans hpk.symm]
          exact h
      · rintro (h | ⟨hm, hpk⟩)
        · exact List.mem_cons.mpr (Or.inl h)
        · rcases List.mem_cons.mp hm with he | ht
          · exfalso
            apply hpk
            rw [show p1 = kv.1 from by rw [← he]]
            exact hkeq
          · exact List.mem_cons.mpr (Or.inr ht)
    · rw [if_neg hk]
      have hkne : ¬ kv.1 = k := by simpa using hk
      constructor
      · intro hmem
        rcases List.mem_cons.mp hmem with he | ht
        · refine Or.inr ⟨List.mem_cons.mpr (Or.inl he), ?_⟩
          rw [show p1 = kv.1 from by rw [← he]]
          exact hkne
        · rcases (ih hnd2.2).mp ht with h | ⟨hm, hpk⟩
          · exact Or.inl h
          · exact Or.inr ⟨List.mem_cons.mpr (Or.inr hm), hpk⟩
      · rintro (h | ⟨hm, hpk⟩)
        · exact List.mem_cons.mpr (Or.inr ((ih hnd2.2).mpr (Or.inl h)))
        · rcases List.mem_cons.mp hm with he | ht
          · exact List.mem_cons.mpr (Or.inl he)
          · exact List.mem_cons.mpr (Or.inr ((ih hnd2.2).mpr (Or.inr ⟨ht, hpk⟩)))

theorem attrGet_attrSet_ne (c : XNode) (k k' v : Str) (hne : k' ≠ k) :
    attrGet (attrSet c k v) k' = attrGet c k' := by
  cases c with
  | elem tg a x cs tl =>
    simp only [attrSet, attrGet]
    exact getAssoc_setAssoc_ne a k k' v hne

theorem fresh_append_nodup {γ : Type} (kept : List (Nat × γ)) (j : Nat) (x : γ)
    (h4 : (kept.map (·.1)).Nodup) (h5 : ∀ e ∈ kept, e.1 < j) :
    (((kept ++ [(j, x)]).map (·.1)).Nodup) := by
  rw [List.map_append, List.nodup_append]
  refine ⟨h4, by simp, ?_⟩
  intro a ha hb
  simp only [List.map_cons, List.map_nil, List.mem_singleton] at hb
  rcases List.mem_map.mp ha with ⟨e, he, hae⟩
  have := h5 e he
  omega

theorem manifestStep_inv (ns : Str) (names : List Str) (opfDir : Str)
    (st st2 : ManifestWalk) (j : Nat) (c : XNode)
    (hst2 : manifestStep ns names opfDir st (j, c) = st2)
    (h1 : (st.byId.map (·.1)).Nodup)
    (h2 : ∀ p ∈ st.byId, p.2 ∈ st.kept ∧ p.2.2.tag = ns ++ str "item" ∧
        attrTruthy (attrGet p.2.2 (str "id")) = some p.1)
    (h3 : ∀ e ∈ st.kept, e.2.tag = ns ++ str "item" →
        ∀ id0, attrTruthy (attrGet e.2 (str "id")) = some id0 → (id0, e) ∈ st.byId)
    (h4 : (st.kept.map (·.1)).Nodup)
    (h5 : ∀ e ∈ st.kept, e.1 < j) :
    (st2.byId.map (·.1)).Nodup ∧
    (∀ p ∈ st2.byId, p.2 ∈ st2.kept ∧ p.2.2.tag = ns ++ str "item" ∧
        attrTruthy (attrGet p.2.2 (str "id")) = some p.1) ∧
    (∀ e ∈ st2.kept, e.2.tag = ns ++ str "item" →
        ∀ id0, attrTruthy (attrGet e.2 (str "id")) = some id0 → (id0, e) ∈ st2.byId) ∧
    (st2.kept.map (·.1)).Nodup ∧
    (∀ e ∈ st2.kept, e.1 < j + 1) := by
  simp only [manifestStep] at hst2
  by_cases htag : (c.tag == ns ++ str "item") = true
  · rw [if_neg (by simp [htag])] at hst2
    cases hid : attrTruthy (attrGet c (str "id")) with
    | none =>
      simp only [hid] at hst2
      subst hst2
      refine ⟨h1, ?_, ?_, ?_, ?_⟩
      · intro p hp
        rcases h2 p hp with ⟨hk, ht, hi⟩
        exact ⟨List.mem_append.mpr (Or.inl hk), ht, hi⟩
      · intro e he het id0 hid0
        rcases List.mem_append.mp he with hk | hk
        · exact h3 e hk het id0 hid0
        · simp only [List.mem_singleton] at hk
          subst hk
          simp only at hid0
          rw [hid] at hid0
          simp at hid0
      · exact fresh_append_nodup st.kept j c h4 h5
      · intro e he
        rcases List.mem_append.mp he with hk | hk
        · have := h5 e hk
          omega
        · simp only [List.mem_singleton] at hk
          subst hk
          omega
    | some itemId =>
      simp only [hid] at hst2
      have hc'tag : (fixItemHref names opfDir c).tag = c.tag := by
        unfold fixItemHref
        cases attrTruthy (attrGet c (str "href")) with
        | none => rfl
        | some href => exact attrSet_tag c _ _
      have hc'id : attrGet (fixItemHref names opfDir c) (str "id") =
          attrGet c (str "id") := by
        unfold fixItemHref
        cases attrTruthy (attrGet c (str "href")) with
        | none => rfl
        | some href => exact attrGet_attrSet_ne c (str "href") (str "id") _ (by decide)
      have htagc : c.tag = ns ++ str "item" := by simpa using htag
      have hc'item : (fixItemHref names opfDir c).tag = ns ++ str "item" := by
        rw [hc'tag, htagc]
      have hc'idv : attrTruthy (attrGet (fixItemHref names opfDir c) (str "id")) =
          some itemId := by
        rw [hc'id, hid]
      cases hga : getAssoc st.byId itemId with
      | none =>
        simp only [hga] at hst2
        subst hst2
        have hnotmem := getAssoc_none_not_mem st.byId itemId hga
        refine ⟨?_, ?_, ?_, ?_, ?_⟩
        · rw [List.map_append, List.nodup_append]
          refine ⟨h1, by simp, ?_⟩
          intro a ha hb
          simp only [List.map_cons, List.map_nil, List.mem_singleton] at hb
          subst hb
          exact hnotmem ha
        · intro p hp
          rcases List.mem_append.mp hp with hm | hm
          · rcases h2 p hm with ⟨hk, ht, hi⟩
            exact ⟨List.mem_append.mpr (Or.inl hk), ht, hi⟩
          · simp only [List.mem_singleton] at hm
            subst hm
            exact ⟨List.mem_append.mpr (Or.inr (by simp)), hc'item, hc'idv⟩
        · intro e he het id0 hid0
          rcases List.mem_append.mp he with hk | hk
          · exact List.mem_append.mpr (Or.inl (h3 e hk het id0 hid0))
          · simp only [List.mem_singleton] at hk
            subst hk
            simp only at hid0
            rw [hc'idv] at hid0
            have : id0 = itemId := by simpa using hid0.symm
            subst this
            exact List.mem_append.mpr (Or.inr (by simp))
        · exact fresh_append_nodup st.kept j _ h4 h5
        · intro e he
          rcases List.mem_append.mp he with hk | hk
          · have := h5 e hk
            omega
          · simp only [List.mem_singleton] at hk
            subst hk
            omega
      | some jp =>
        obtain ⟨jp1, prev⟩ := jp
        simp only [hga] at hst2
        have hprevmem : (itemId, (jp1, prev)) ∈ st.byId :=
          getAssoc_mem st.byId itemId (jp1, prev) hga
        rcases h2 _ hprevmem with ⟨hprevkept, hprevtag, hprevid⟩
        by_cases hok : ((match attrTruthy (attrGet prev (str "href")) with
            | some h => hrefExists names opfDir h
            | none => false) &&
            !(match attrTruthy (attrGet (fixItemHref names opfDir c) (str "href")) with
              | some h => hrefExists names opfDir h
              | none => false)) = true
        · rw [if_pos hok] at hst2
          subst hst2
          refine ⟨h1, h2, h3, h4, ?_⟩
          intro e he
          have := h5 e he
          omega
        · rw [if_neg hok] at hst2
          subst hst2
          refine ⟨?_, ?_, ?_, ?_, ?_⟩
          · rw [setAssoc_keys_of_mem st.byId itemId _ (List.mem_map.mpr
              ⟨(itemId, (jp1, prev)), hprevmem, rfl⟩)]
            exact h1
          · intro p hp
            obtain ⟨p1, p2⟩ := p
            rcases (mem_setAssoc_iff st.byId itemId _ h1 p1 p2).mp hp with he | ⟨hm, hne⟩
            · have hp1 : p1 = itemId := congrArg Prod.fst he
              have hp2 : p2 = (j, fixItemHref names opfDir c) := congrArg Prod.snd he
              subst hp1
              subst hp2
              exact ⟨List.mem_append.mpr (Or.inr (by simp)), hc'item, hc'idv⟩
            · rcases h2 (p1, p2) hm with ⟨hk, ht, hi⟩
              refine ⟨List.mem_append.mpr (Or.inl ?_), ht, hi⟩
              rw [List.mem_filter]
              refine ⟨hk, ?_⟩
              have hne2 : ¬ p2.1 = jp1 := by
                intro hj
                obtain ⟨q1, q2⟩ := p2
                simp only at hj
                have heq : q2 = prev := by
                  apply keyNodup_mem_eq st.kept h4 jp1 q2 prev ?_ hprevkept
                  rw [← hj]
                  exact hk
                have hpid : attrTruthy (attrGet q2 (str "id")) = some p1 := hi
                rw [heq, hprevid] at hpid
                exact hne (by simpa using hpid.symm)
              simpa using hne2
          · intro e he het id0 hid0
            rcases List.mem_append.mp he with hk | hk
            · rw [List.mem_filter] at hk
              have hold := h3 e hk.1 het id0 hid0
              obtain ⟨e1, e2⟩ := e
              rw [mem_setAssoc_iff st.byId itemId _ h1 id0 (e1, e2)]
              right
              refine ⟨hold, ?_⟩
              intro hideq
              subst hideq
              have : (e1, e2) = (jp1, prev) :=
                keyNodup_mem_eq st.byId h1 id0 (e1, e2) (jp1, prev) hold hprevmem
              have he1 : e1 = jp1 := congrArg Prod.fst this
              have := hk.2
              simp only [he1] at this
              simp at this
            · simp only [List.mem_singleton] at hk
              subst hk
              simp only at hid0
              rw [hc'idv] at hid0
              have hideq : id0 = itemId := by simpa using hid0.symm
              rw [hideq]
              exact mem_setAssoc_self st.byId itemId _
          · apply fresh_append_nodup _ j _ ?_ ?_
            · exact (List.Sublist.map _ (List.filter_sublist _)).nodup h4
            · intro e he
              rw [List.mem_filter] at he
              exact h5 e he.1
          · intro e he
            rcases List.mem_append.mp he with hk | hk
            · rw [List.mem_filter] at hk
              have := h5 e hk.1
              omega
            · simp only [List.mem_singleton] at hk
              subst hk
              omega
  · rw [if_pos (by simp [htag])] at hst2
    subst hst2
    have htagf : ¬ c.tag = ns ++ str "item" := by simpa using htag
    refine ⟨h1, ?_, ?_, ?_, ?_⟩
    · intro p hp
      rcases h2 p hp with ⟨hk, ht, hi⟩
      exact ⟨List.mem_append.mpr (Or.inl hk), ht, hi⟩
    · intro e he het id0 hid0
      rcases List.mem_append.mp he with hk | hk
      · exact h3 e hk het id0 hid0
      · simp only [List.mem_singleton] at hk
        subst hk
        exact absurd het htagf
    · exact fresh_append_nodup st.kept j c h4 h5
    · intro e he
      rcases List.mem_append.mp he with hk | hk
      · have := h5 e hk
        omega
      · simp only [List.mem_singleton] at hk
        subst hk
        omega

theorem manifestFold_inv (ns : Str) (names : List Str) (opfDir : Str) (l : List XNode) :
    ∀ (j : Nat) (st : ManifestWalk),
    (st.byId.map (·.1)).Nodup →
    (∀ p ∈ st.byId, p.2 ∈ st.kept ∧ p.2.2.tag = ns ++ str "item" ∧
        attrTruthy (attrGet p.2.2 (str "id")) = some p.1) →
    (∀ e ∈ st.kept, e.2.tag = ns ++ str "item" →
        ∀ id0, attrTruthy (attrGet e.2 (str "id")) = some id0 → (id0, e) ∈ st.byId) →
    (st.kept.map (·.1)).Nodup →
    (∀ e ∈ st.kept, e.1 < j) →
    ((((List.enumFrom j l).foldl (manifestStep ns names opfDir) st).byId.map (·.1)).Nodup ∧
     (∀ p ∈ ((List.enumFrom j l).foldl (manifestStep ns names opfDir) st).byId,
        p.2 ∈ ((List.enumFrom j l).foldl (manifestStep ns names opfDir) st).kept ∧
        p.2.2.tag = ns ++ str "item" ∧
        attrTruthy (attrGet p.2.2 (str "id")) = some p.1) ∧
     (∀ e ∈ ((List.enumFrom j l).foldl (manifestStep ns names opfDir) st).kept,
        e.2.tag = ns ++ str "item" →
        ∀ id0, attrTruthy (attrGet e.2 (str "id")) = some id0 →
          (id0, e) ∈ ((List.enumFrom j l).foldl (manifestStep ns names opfDir) st).byId) ∧
     (((List.enumFrom j l).foldl (manifestStep ns names opfDir) st).kept.map (·.1)).Nodup) := by
  induction l with
  | nil =>
    intro j st h1 h2 h3 h4 _
    exact ⟨h1, h2, h3, h4⟩
  | cons c t ih =>
    intro j st h1 h2 h3 h4 h5
    have hef : List.enumFrom j (c :: t) = (j, c) :: List.enumFrom (j + 1) t := rfl
    rw [hef, List.foldl_cons]
    rcases manifestStep_inv ns names opfDir st _ j c rfl h1 h2 h3 h4 h5 with
      ⟨g1, g2, g3, g4, g5⟩
    exact ih (j + 1) _ g1 g2 g3 g4 g5

theorem index_inj (ns : Str) (W : List (Str × Nat × XNode)) (WK : List (Nat × XNode))
    (hWB : ∀ p ∈ W, p.2 ∈ WK ∧ p.2.2.tag = ns ++ str "item" ∧
        attrTruthy (attrGet p.2.2 (str "id")) = some p.1)
    (hWD : (WK.map (·.1)).Nodup) :
    ∀ p ∈ W, ∀ q ∈ W, p.2.1 = q.2.1 → p = q := by
  intro p hp q hq hj
  rcases hWB p hp with ⟨hpK, _, hpid⟩
  rcases hWB q hq with ⟨hqK, _, hqid⟩
  have hv : p.2.2 = q.2.2 := by
    refine keyNodup_mem_eq WK hWD p.2.1 p.2.2 q.2.2 hpK ?_
    rw [hj]
    exact hqK
  have hk : p.1 = q.1 := by
    have h9 := hqid
    rw [← hv] at h9
    rw [hpid] at h9
    exact Option.some.inj h9
  exact Prod.ext_iff.mpr ⟨hk, Prod.ext_iff.mpr ⟨hj, hv⟩⟩

theorem dropDead_fold_inv (ns : Str) (names : List Str) (opfDir : Str)
    (W : List (Str × Nat × XNode)) (WK : List (Nat × XNode))
    (hWA : (W.map (·.1)).Nodup)
    (hWB : ∀ p ∈ W, p.2 ∈ WK ∧ p.2.2.tag = ns ++ str "item" ∧
        attrTruthy (attrGet p.2.2 (str "id")) = some p.1)
    (hWD : (WK.map (·.1)).Nodup) :
    ∀ (l : List (Str × Nat × XNode)), (∀ x ∈ l, x ∈ W) →
    ∀ (acc : ManifestWalk),
    ((acc.byId.map (·.1)).Nodup) →
    (∀ p ∈ acc.byId, p.2 ∈ acc.kept ∧ p.2.2.tag = ns ++ str "item" ∧
        attrTruthy (attrGet p.2.2 (str "id")) = some p.1) →
    (∀ e ∈ acc.kept, e.2.tag = ns ++ str "item" →
        ∀ id0, attrTruthy (attrGet e.2 (str "id")) = some id0 → (id0, e) ∈ acc.byId) →
    ((acc.kept.map (·.1)).Nodup) →
    (∀ p ∈ acc.byId, p ∈ W) →
    (∀ p ∈ acc.byId, p ∈ l ∨
      (∀ href, attrTruthy (attrGet p.2.2 (str "href")) = some href →
        hrefExists names opfDir href = true ∨ deadTextHref opfDir href = false)) →
    (((l.foldl (dropDeadStep names opfDir) acc).byId.map (·.1)).Nodup ∧
     (∀ p ∈ (l.foldl (dropDeadStep names opfDir) acc).byId,
        p.2 ∈ (l.foldl (dropDeadStep names opfDir) acc).kept ∧
        p.2.2.tag = ns ++ str "item" ∧
        attrTruthy (attrGet p.2.2 (str "id")) = some p.1) ∧
     (∀ e ∈ (l.foldl (dropDeadStep names opfDir) acc).kept,
        e.2.tag = ns ++ str "item" →
        ∀ id0, attrTruthy (attrGet e.2 (str "id")) = some id0 →
          (id0, e) ∈ (l.foldl (dropDeadStep names opfDir) acc).byId) ∧
     (((l.foldl (dropDeadStep names opfDir) acc).kept.map (·.1)).Nodup) ∧
     (∀ p ∈ (l.foldl (dropDeadStep names opfDir) acc).byId,
      ∀ href, attrTruthy (attrGet p.2.2 (str "href")) = some href →
        hrefExists names opfDir href = true ∨ deadTextHref opfDir href = false)) := by
  intro l
  induction l with
  | nil =>
    intro _ acc h1 h2 h3 h4 _ h6
    refine ⟨h1, h2, h3, h4, ?_⟩
    intro p hp href hh
    rcases h6 p hp with hm | hg
    · simp at hm
    · exact hg href hh
  | cons kv t ih =>
    intro hl acc h1 h2 h3 h4 hsub h6
    obtain ⟨itemId, jv, item⟩ := kv
    rw [List.foldl_cons]
    have hlt : ∀ x ∈ t, x ∈ W := fun x hx => hl x (List.mem_cons_of_mem _ hx)
    have hkvW : (itemId, jv, item) ∈ W := hl _ (List.mem_cons_self _ _)
    cases hh : attrTruthy (attrGet item (str "href")) with
    | none =>
      have hstep : dropDeadStep names opfDir acc (itemId, jv, item) = acc := by
        simp only [dropDeadStep]
        rw [hh]
      rw [hstep]
      refine ih hlt acc h1 h2 h3 h4 hsub ?_
      intro p hp
      rcases h6 p hp with hm | hg
      · rcases List.mem_cons.mp hm with he | ht2
        · right
          intro href hhr
          simp only [he] at hhr
          rw [hh] at hhr
          exact Option.noConfusion hhr
        · exact Or.inl ht2
      · exact Or.inr hg
    | some href =>
      by_cases hex : hrefExists names opfDir href = true
      · have hstep : dropDeadStep names opfDir acc (itemId, jv, item) = acc := by
          simp only [dropDeadStep]
          rw [hh]
          show (if hrefExists names opfDir href = true then acc
            else if deadTextHref opfDir href = true then
              { kept := acc.kept.filter (fun e => !(e.1 == jv)),
                byId := acc.byId.filter (fun e => !(e.1 == itemId)) }
            else acc) = acc
          rw [if_pos hex]
        rw [hstep]
        refine ih hlt acc h1 h2 h3 h4 hsub ?_
        intro p hp
        rcases h6 p hp with hm | hg
        · rcases List.mem_cons.mp hm with he | ht2
          · right
            intro href2 hhr
            simp only [he] at hhr
            rw [hh] at hhr
            have he2 : href = href2 := Option.some.inj hhr
            rw [← he2]
            exact Or.inl hex
          · exact Or.inl ht2
        · exact Or.inr hg
      · by_cases hdead : deadTextHref opfDir href = true
        · have hstep : dropDeadStep names opfDir acc (itemId, jv, item) =
              { kept := acc.kept.filter (fun e => !(e.1 == jv)),
                byId := acc.byId.filter (fun e => !(e.1 == itemId)) } := by
            simp only [dropDeadStep]
            rw [hh]
            show (if hrefExists names opfDir href = true then acc
              else if deadTextHref opfDir href = true then
                { kept := acc.kept.filter (fun e => !(e.1 == jv)),
                  byId := acc.byId.filter (fun e => !(e.1 == itemId)) }
              else acc) =
              { kept := acc.kept.filter (fun e => !(e.1 == jv)),
                byId := acc.byId.filter (fun e => !(e.1 == itemId)) }
            rw [if_neg hex, if_pos hdead]
          rw [hstep]
          refine ih hlt _ ?_ ?_ ?_ ?_ ?_ ?_
          · show ((acc.byId.filter (fun e => !(e.1 == itemId))).map (·.1)).Nodup
            exact h1.sublist ((List.filter_sublist _).map _)
          · intro p hp
            have hp2 : p ∈ acc.byId.filter (fun e => !(e.1 == itemId)) := hp
            rw [List.mem_filter] at hp2
            rcases h2 p hp2.1 with ⟨hk2, ht2, hi2⟩
            refine ⟨?_, ht2, hi2⟩
            show p.2 ∈ acc.kept.filter (fun e => !(e.1 == jv))
            rw [List.mem_filter]
            refine ⟨hk2, ?_⟩
            have hne : ¬ p.2.1 = jv := by
              intro hjj
              have hpq := index_inj ns W WK hWB hWD p (hsub p hp2.1) _ hkvW hjj
              rw [hpq] at hp2
              simp at hp2
            simpa using hne
          · intro e he het id0 hid0
            have he2 : e ∈ acc.kept.filter (fun q => !(q.1 == jv)) := he
            rw [List.mem_filter] at he2
            have hold := h3 e he2.1 het id0 hid0
            show (id0, e) ∈ acc.byId.filter (fun q => !(q.1 == itemId))
            rw [List.mem_filter]
            refine ⟨hold, ?_⟩
            have hne : ¬ id0 = itemId := by
              intro hq
              rw [hq] at hold
              have hev : e = (jv, item) :=
                keyNodup_mem_eq W hWA itemId e (jv, item) (hsub _ hold) hkvW
              have hj2 : e.1 = jv := by rw [hev]
              have hc := he2.2
              rw [hj2] at hc
              simp at hc
            simpa using hne
          · show ((acc.kept.filter (fun e => !(e.1 == jv))).map (·.1)).Nodup
            exact h4.sublist ((List.filter_sublist _).map _)
          · intro p hp
            have hp2 : p ∈ acc.byId.filter (fun q => !(q.1 == itemId)) := hp
            rw [List.mem_filter] at hp2
            exact hsub p hp2.1
          · intro p hp
            have hp2 : p ∈ acc.byId.filter (fun q => !(q.1 == itemId)) := hp
            rw [List.mem_filter] at hp2
            rcases h6 p hp2.1 with hm | hg
            · rcases List.mem_cons.mp hm with he | ht2
              · exfalso
                have hc := hp2.2
                rw [he] at hc
                simp at hc
              · exact Or.inl ht2
            · exact Or.inr hg
        · have hstep : dropDeadStep names opfDir acc (itemId, jv, item) = acc := by
            simp only [dropDeadStep]
            rw [hh]
            show (if hrefExists names opfDir href = true then acc
              else if deadTextHref opfDir href = true then
                { kept := acc.kept.filter (fun e => !(e.1 == jv)),
                  byId := acc.byId.filter (fun e => !(e.1 == itemId)) }
              else acc) = acc
            rw [if_neg hex, if_neg hdead]
          rw [hstep]
          refine ih hlt acc h1 h2 h3 h4 hsub ?_
          intro p hp
          rcases h6 p hp with hm | hg
          · rcases List.mem_cons.mp hm with he | ht2
            · right
              intro href2 hhr
              simp only [he] at hhr
              rw [hh] at hhr
              have he2 : href = href2 := Option.some.inj hhr
              rw [← he2]
              right
              simp only [Bool.not_eq_true] at hdead
              exact hdead
            · exact Or.inl ht2
          · exact Or.inr hg


theorem withChildren_children (m : XNode) (cs : List XNode) :
    (m.withChildren cs).children = cs := by
  cases m with
  | elem t a x c tl => rfl

theorem withChildren_self (m : XNode) : m.withChildren m.children = m := by
  cases m with
  | elem t a x c tl => rfl

theorem replace_find_isSome_aux {β : Type} (t : Str) (f : XNode → XNode × β) :
    ∀ k : Nat,
      (∀ n : XNode, xSize n ≤ k →
        (replaceFirstNode t f n).isSome = (findFirstNode t n).isSome) ∧
      (∀ cs : List XNode, xlSize cs ≤ k →
        (replaceFirstList t f cs).isSome = (findFirstList t cs).isSome) := by
  intro k
  induction k with
  | zero =>
    constructor
    · intro n hn
      have := xSize_pos n
      omega
    · intro cs hcs
      cases cs with
      | nil => rfl
      | cons c rest =>
        have := xSize_pos c
        simp only [xlSize] at hcs
        omega
  | succ m ih =>
    have hN : ∀ n : XNode, xSize n ≤ m + 1 →
        (replaceFirstNode t f n).isSome = (findFirstNode t n).isSome := by
      intro n hn
      cases n with
      | elem tg a x cs tl =>
        have hsz : xlSize cs ≤ m := by
          simp only [xSize] at hn
          omega
        have ih2 := ih.2 cs hsz
        simp only [replaceFirstNode, findFirstNode]
        cases hl : replaceFirstList t f cs with
        | some p =>
          obtain ⟨cs2, b⟩ := p
          rw [hl] at ih2
          simp only [Option.isSome_some] at ih2
          simp [ih2.symm]
        | none =>
          rw [hl] at ih2
          simp only [Option.isSome_none] at ih2
          simp [ih2.symm]
    refine ⟨hN, ?_⟩
    intro cs hcs
    cases cs with
    | nil => rfl
    | cons c rest =>
      have hszc := xSize_pos c
      simp only [xlSize] at hcs
      simp only [replaceFirstList, findFirstList]
      by_cases hct : (c.tag == t) = true
      · rw [if_pos hct, if_pos hct]
        rfl
      · rw [if_neg hct, if_neg hct]
        have ihn := hN c (by omega)
        cases hrn : replaceFirstNode t f c with
        | some p =>
          obtain ⟨c2, b2⟩ := p
          rw [hrn] at ihn
          simp only [Option.isSome_some] at ihn
          obtain ⟨r2, hr2⟩ := Option.isSome_iff_exists.mp ihn.symm
          rw [hr2]
          rfl
        | none =>
          rw [hrn] at ihn
          simp only [Option.isSome_none] at ihn
          have hfc : findFirstNode t c = none := by
            cases hq : findFirstNode t c with
            | none => rfl
            | some r2 => rw [hq] at ihn; simp at ihn
          rw [hfc]
          have ih2 := ih.2 rest (by omega)
          cases hrl : replaceFirstList t f rest with
          | some p =>
            obtain ⟨rest2, b2⟩ := p
            rw [hrl] at ih2
            simp only [Option.isSome_some] at ih2
            simp [ih2.symm]
          | none =>
            rw [hrl] at ih2
            simp only [Option.isSome_none] at ih2
            simp [ih2.symm]

theorem replaceFirst_of_fix_aux {β : Type} (t : Str) (f : XNode → XNode × β) :
    ∀ k : Nat,
      (∀ n : XNode, xSize n ≤ k → ∀ mn, findFirstNode t n = some mn →
        (f mn).1 = mn → replaceFirstNode t f n = some (n, (f mn).2)) ∧
      (∀ cs : List XNode, xlSize cs ≤ k → ∀ mn, findFirstList t cs = some mn →
        (f mn).1 = mn → replaceFirstList t f cs = some (cs, (f mn).2)) := by
  intro k
  induction k with
  | zero =>
    constructor
    · intro n hn
      have := xSize_pos n
      omega
    · intro cs hcs mn hf hfix
      cases cs with
      | nil => simp [findFirstList] at hf
      | cons c rest =>
        have := xSize_pos c
        simp only [xlSize] at hcs
        omega
  | succ m ih =>
    have hN : ∀ n : XNode, xSize n ≤ m + 1 → ∀ mn, findFirstNode t n = some mn →
        (f mn).1 = mn → replaceFirstNode t f n = some (n, (f mn).2) := by
      intro n hn mn hf hfix
      cases n with
      | elem tg a x cs tl =>
        have hsz : xlSize cs ≤ m := by
          simp only [xSize] at hn
          omega
        have hf2 : findFirstList t cs = some mn := hf
        have h2 := ih.2 cs hsz mn hf2 hfix
        simp only [replaceFirstNode, h2]
    refine ⟨hN, ?_⟩
    intro cs hcs mn hf hfix
    cases cs with
    | nil => simp [findFirstList] at hf
    | cons c rest =>
      have hszc := xSize_pos c
      simp only [xlSize] at hcs
      simp only [findFirstList] at hf
      simp only [replaceFirstList]
      by_cases hct : (c.tag == t) = true
      · rw [if_pos hct] at hf
        rw [if_pos hct]
        have hmn : c = mn := Option.some.inj hf
        subst hmn
        rw [hfix]
      · rw [if_neg hct] at hf
        rw [if_neg hct]
        cases hfc : findFirstNode t c with
        | some r2 =>
          rw [hfc] at hf
          have hmn : r2 = mn := Option.some.inj hf
          subst hmn
          have hrep := hN c (by omega) r2 hfc hfix
          rw [hrep]
        | none =>
          rw [hfc] at hf
          have hrn : replaceFirstNode t f c = none := by
            have hiso := (replace_find_isSome_aux t f (xSize c)).1 c le_rfl
            rw [hfc] at hiso
            simp only [Option.isSome_none] at hiso
            cases hq : replaceFirstNode t f c with
            | none => rfl
            | some p => rw [hq] at hiso; simp at hiso
          rw [hrn]
          have h2 := ih.2 rest (by omega) mn hf hfix
          rw [h2]

theorem replace_gives_find_aux {β : Type} (t : Str) (f : XNode → XNode × β)
    (htag : ∀ x, ((f x).1).tag = x.tag) :
    ∀ k : Nat,
      (∀ n : XNode, xSize n ≤ k → ∀ r b, replaceFirstNode t f n = some (r, b) →
        ∃ mn, findFirstNode t n = some mn ∧ findFirstNode t r = some ((f mn).1) ∧
          b = (f mn).2) ∧
      (∀ cs : List XNode, xlSize cs ≤ k → ∀ cs2 b,
        replaceFirstList t f cs = some (cs2, b) →
        ∃ mn, findFirstList t cs = some mn ∧ findFirstList t cs2 = some ((f mn).1) ∧
          b = (f mn).2) := by
  intro k
  induction k with
  | zero =>
    constructor
    · intro n hn
      have := xSize_pos n
      omega
    · intro cs hcs cs2 b h
      cases cs with
      | nil => simp [replaceFirstList] at h
      | cons c rest =>
        have := xSize_pos c
        simp only [xlSize] at hcs
        omega
  | succ m ih =>
    have hN : ∀ n : XNode, xSize n ≤ m + 1 → ∀ r b, replaceFirstNode t f n = some (r, b) →
        ∃ mn, findFirstNode t n = some mn ∧ findFirstNode t r = some ((f mn).1) ∧
          b = (f mn).2 := by
      intro n hn r b h
      cases n with
      | elem tg a x cs tl =>
        rcases replaceFirstNode_elem t f tg a x cs tl r b h with ⟨cs2, rfl, hlist⟩
        have hsz : xlSize cs ≤ m := by
          simp only [xSize] at hn
          omega
        rcases ih.2 cs hsz cs2 b hlist with ⟨mn, hf1, hf2, hb⟩
        exact ⟨mn, hf1, hf2, hb⟩
    refine ⟨hN, ?_⟩
    intro cs hcs cs2 b h
    cases cs with
    | nil => simp [replaceFirstList] at h
    | cons c rest =>
      have hszc := xSize_pos c
      simp only [xlSize] at hcs
      simp only [replaceFirstList] at h
      by_cases hct : (c.tag == t) = true
      · rw [if_pos hct] at h
        simp only [Option.some.injEq, Prod.mk.injEq] at h
        rcases h with ⟨hcs2, hb⟩
        refine ⟨c, ?_, ?_, hb.symm⟩
        · simp only [findFirstList]
          rw [if_pos hct]
        · rw [← hcs2]
          simp only [findFirstList]
          have htg : ((f c).1.tag == t) = true := by
            rw [htag c]
            exact hct
          rw [if_pos htg]
      · rw [if_neg hct] at h
        cases hrn : replaceFirstNode t f c with
        | some p =>
          rw [hrn] at h
          obtain ⟨c2, b2⟩ := p
          simp only [Option.some.injEq, Prod.mk.injEq] at h
          rcases h with ⟨hcs2, hb⟩
          rcases hN c (by omega) c2 b2 hrn with ⟨mn, hf1, hf2, hb2⟩
          refine ⟨mn, ?_, ?_, by rw [← hb, hb2]⟩
          · simp only [findFirstList]
            rw [if_neg hct, hf1]
          · rw [← hcs2]
            simp only [findFirstList]
            have hct2 : (c2.tag == t) = false := by
              rw [replaceFirstNode_tag t f c c2 b2 hrn]
              simpa using hct
            rw [if_neg (by simp [hct2]), hf2]
        | none =>
          rw [hrn] at h
          cases hrl : replaceFirstList t f rest with
          | some q =>
            rw [hrl] at h
            obtain ⟨rest2, b2⟩ := q
            simp only [Option.some.injEq, Prod.mk.injEq] at h
            rcases h with ⟨hcs2, hb⟩
            rcases ih.2 rest (by omega) rest2 b2 hrl with ⟨mn, hf1, hf2, hb2⟩
            have hfc : findFirstNode t c = none := by
              have hiso := (replace_find_isSome_aux t f (xSize c)).1 c le_rfl
              rw [hrn] at hiso
              simp only [Option.isSome_none] at hiso
              cases hq : findFirstNode t c with
              | none => rfl
              | some r2 => rw [hq] at hiso; simp at hiso
            refine ⟨mn, ?_, ?_, by rw [← hb, hb2]⟩
            · simp only [findFirstList]
              rw [if_neg hct, hfc, hf1]
            · rw [← hcs2]
              simp only [findFirstList]
              rw [if_neg hct, hfc, hf2]
          | none =>
            rw [hrl] at h
            simp at h

theorem stableSort_sorted_id {α : Type} (key : α → Nat) :
    ∀ l : List α, l.Pairwise (fun a b => key a ≤ key b) →
    stableSort (fun a b => decide (key a ≤ key b)) l = l := by
  intro l
  induction l with
  | nil => intro _; rfl
  | cons a t ih =>
    intro h
    rcases List.pairwise_cons.mp h with ⟨ha, ht⟩
    show sInsert _ a (stableSort _ t) = a :: t
    rw [ih ht]
    cases t with
    | nil => rfl
    | cons b t2 =>
      simp only [sInsert]
      rw [if_pos (decide_eq_true (ha b (List.mem_cons_self b t2)))]

theorem fill_filter (isT : XNode → Bool) :
    ∀ (cs q : List XNode), (∀ x ∈ q, isT x = true) →
      q.length = (cs.filter isT).length →
      (reorderPages.fill isT cs q).filter isT = q := by
  intro cs
  induction cs with
  | nil =>
    intro q _ hlen
    have hq0 : q = [] := List.eq_nil_of_length_eq_zero (by simpa using hlen)
    subst hq0
    rfl
  | cons c rest ih =>
    intro q hq hlen
    rw [fill_cons]
    by_cases hT : isT c = true
    · rw [if_pos hT]
      rw [List.filter_cons_of_pos hT] at hlen
      cases q with
      | nil => simp at hlen
      | cons q0 qs =>
        show (q0 :: reorderPages.fill isT rest qs).filter isT = q0 :: qs
        rw [List.filter_cons_of_pos (hq q0 (by simp))]
        rw [ih qs (fun x hx => hq x (List.mem_cons_of_mem _ hx))
          (by simp only [List.length_cons] at hlen; omega)]
    · rw [if_neg hT]
      rw [List.filter_cons_of_neg hT]
      rw [List.filter_cons_of_neg hT] at hlen
      exact ih q hq hlen

theorem fill_self (isT : XNode → Bool) :
    ∀ cs : List XNode, reorderPages.fill isT cs (cs.filter isT) = cs := by
  intro cs
  induction cs with
  | nil => rfl
  | cons c rest ih =>
    rw [fill_cons]
    by_cases hT : isT c = true
    · rw [if_pos hT, List.filter_cons_of_pos hT]
      show c :: reorderPages.fill isT rest (rest.filter isT) = c :: rest
      rw [ih]
    · rw [if_neg hT, List.filter_cons_of_neg hT, ih]

theorem reorder_core_idem (isT : XNode → Bool) (key : XNode → Nat) (cs : List XNode) :
    ((reorderPages.fill isT cs
        (stableSort (fun a b => decide (key a ≤ key b)) (cs.filter isT))).filter isT
      = stableSort (fun a b => decide (key a ≤ key b)) (cs.filter isT)) ∧
    (reorderPages.fill isT
        (reorderPages.fill isT cs
          (stableSort (fun a b => decide (key a ≤ key b)) (cs.filter isT)))
        (stableSort (fun a b => decide (key a ≤ key b))
          ((reorderPages.fill isT cs
            (stableSort (fun a b => decide (key a ≤ key b)) (cs.filter isT))).filter isT))
      = reorderPages.fill isT cs
          (stableSort (fun a b => decide (key a ≤ key b)) (cs.filter isT))) := by
  have hmemQ : ∀ x ∈ stableSort (fun a b => decide (key a ≤ key b)) (cs.filter isT),
      isT x = true := by
    intro x hx
    have hm := (perm_stableSort _ _).mem_iff.mp hx
    exact (List.mem_filter.mp hm).2
  have hlenQ : (stableSort (fun a b => decide (key a ≤ key b)) (cs.filter isT)).length
      = (cs.filter isT).length := (perm_stableSort _ _).length_eq
  have hfil := fill_filter isT cs _ hmemQ hlenQ
  refine ⟨hfil, ?_⟩
  rw [hfil]
  rw [stableSort_sorted_id key _ (pairwise_stableSort_key key _)]
  have hgen : ∀ out : List XNode,
      out.filter isT = stableSort (fun a b => decide (key a ≤ key b)) (cs.filter isT) →
      reorderPages.fill isT out
        (stableSort (fun a b => decide (key a ≤ key b)) (cs.filter isT)) = out := by
    intro out hout
    rw [← hout]
    exact fill_self isT out
  exact hgen _ hfil

theorem reorderPages_idem (ns tagName attr : Str) (cs : List XNode) :
    reorderPages ns tagName attr (reorderPages ns tagName attr cs) =
      reorderPages ns tagName attr cs := by
  by_cases hE : (cs.filter (fun c =>
      c.tag == ns ++ tagName && (pageIdNum (attrGetD c attr)).isSome)).isEmpty = true
  · have h1 : reorderPages ns tagName attr cs = cs := by
      unfold reorderPages
      rw [if_pos hE]
    rw [h1]
    exact h1
  · have h1 : reorderPages ns tagName attr cs =
        reorderPages.fill
          (fun c => c.tag == ns ++ tagName && (pageIdNum (attrGetD c attr)).isSome) cs
          (stableSort (fun a b =>
              decide ((pageIdNum (attrGetD a attr)).getD 0 ≤ (pageIdNum (attrGetD b attr)).getD 0))
            (cs.filter (fun c =>
              c.tag == ns ++ tagName && (pageIdNum (attrGetD c attr)).isSome))) := by
      unfold reorderPages
      rw [if_neg hE]
    have hcore := reorder_core_idem
      (fun c => c.tag == ns ++ tagName && (pageIdNum (attrGetD c attr)).isSome)
      (fun c => (pageIdNum (attrGetD c attr)).getD 0) cs
    have h0 : cs.filter (fun c =>
        c.tag == ns ++ tagName && (pageIdNum (attrGetD c attr)).isSome) ≠ [] := by
      intro h
      exact hE (by rw [h]; rfl)
    have h1sort : stableSort (fun a b =>
        decide ((pageIdNum (attrGetD a attr)).getD 0 ≤ (pageIdNum (attrGetD b attr)).getD 0))
        (cs.filter (fun c =>
          c.tag == ns ++ tagName && (pageIdNum (attrGetD c attr)).isSome)) ≠ [] := by
      intro h
      apply h0
      have hl := (perm_stableSort (fun a b =>
        decide ((pageIdNum (attrGetD a attr)).getD 0 ≤ (pageIdNum (attrGetD b attr)).getD 0))
        (cs.filter (fun c =>
          c.tag == ns ++ tagName && (pageIdNum (attrGetD c attr)).isSome))).length_eq
      rw [h] at hl
      exact List.eq_nil_of_length_eq_zero hl.symm
    rw [h1]
    unfold reorderPages
    rw [if_neg ?hne]
    case hne =>
      intro hcon
      apply h1sort
      rw [← hcore.1]
      exact List.isEmpty_iff.mp hcon
    exact hcore.2

theorem replaceFirst_of_fix {β : Type} (t : Str) (f : XNode → XNode × β)
    (n mn : XNode) (hf : findFirstNode t n = some mn) (hfix : (f mn).1 = mn) :
    replaceFirstNode t f n = some (n, (f mn).2) :=
  (replaceFirst_of_fix_aux t f (xSize n)).1 n le_rfl mn hf hfix

theorem replaceFirst_gives_find {β : Type} (t : Str) (f : XNode → XNode × β)
    (htag : ∀ x, ((f x).1).tag = x.tag)
    (n r : XNode) (b : β) (h : replaceFirstNode t f n = some (r, b)) :
    ∃ mn, findFirstNode t n = some mn ∧ findFirstNode t r = some ((f mn).1) ∧
      b = (f mn).2 :=
  (replace_gives_find_aux t f htag (xSize n)).1 n le_rfl r b h

theorem list_any_congr {α : Type} (l : List α) (p q : α → Bool)
    (h : ∀ a ∈ l, p a = q a) : l.any p = l.any q := by
  induction l with
  | nil => rfl
  | cons a t ih =>
    simp only [List.any_cons]
    rw [h a (by simp), ih (fun x hx => h x (List.mem_cons_of_mem _ hx))]

theorem contains_true_iff {α : Type} [BEq α] [LawfulBEq α] (l : List α) (a : α) :
    l.contains a = true ↔ a ∈ l := by
  induction l with
  | nil => simp
  | cons b t ih =>
    simp [List.contains_cons, ih]

theorem contains_congr_of_mem_iff {α : Type} [BEq α] [LawfulBEq α] (l1 l2 : List α)
    (h : ∀ x, x ∈ l1 ↔ x ∈ l2) : ∀ x, l1.contains x = l2.contains x := by
  intro x
  by_cases hm : x ∈ l1
  · rw [(contains_true_iff l1 x).mpr hm, (contains_true_iff l2 x).mpr ((h x).mp hm)]
  · have h2 : ¬ x ∈ l2 := fun hx => hm ((h x).mpr hx)
    cases hc1 : l1.contains x with
    | false =>
      cases hc2 : l2.contains x with
      | false => rfl
      | true => exact absurd ((contains_true_iff l2 x).mp hc2) h2
    | true => exact absurd ((contains_true_iff l1 x).mp hc1) hm

theorem hrefExists_congr (names names2 : List Str) (opfDir href : Str)
    (h : ∀ x, names2.contains x = names.contains x) :
    hrefExists names2 opfDir href = hrefExists names opfDir href := by
  unfold hrefExists
  exact list_any_congr _ _ _ (fun r _ => h r)

theorem mem_names_rewriteDedup (now : Nat) (uniq : Archive) (repl : List (Str × EData))
    (x : Str) :
    x ∈ namesOf (rewriteDedup now uniq repl) ↔ x ∈ namesOf uniq := by
  unfold namesOf rewriteDedup
  rw [List.map_append, List.mem_append]
  constructor
  · rintro (hhead | hbody)
    · cases hf : uniq.find? (fun e => e.name == str "mimetype") with
      | none => rw [hf] at hhead; simp at hhead
      | some m =>
        rw [hf] at hhead
        simp only [List.map_cons, List.map_nil, List.mem_singleton] at hhead
        have hmem := List.mem_of_find?_eq_some hf
        have hname : m.name = str "mimetype" := by
          have := List.find?_some hf
          simpa using this
        rw [hhead, ← hname]
        exact List.mem_map_of_mem _ hmem
    · rcases List.mem_map.mp hbody with ⟨y, hy, hyx⟩
      rcases mem_rewrite_body hy with ⟨i, hi, _, rfl⟩
      rw [← hyx]
      have h5 : i.name ∈ List.map (fun e : ZEntry => e.name) uniq :=
        List.mem_map_of_mem _ hi
      exact h5
  · intro hx
    rcases List.mem_map.mp hx with ⟨i, hi, hix⟩
    by_cases hmt : x = str "mimetype"
    · left
      have hfs : (uniq.find? (fun e => e.name == str "mimetype")).isSome = true := by
        rw [List.find?_isSome]
        exact ⟨i, hi, by rw [hix, hmt]; simp⟩
      cases hf : uniq.find? (fun e => e.name == str "mimetype") with
      | none => rw [hf] at hfs; simp at hfs
      | some m =>
        simp only [List.map_cons, List.map_nil, List.mem_singleton]
        exact hmt
    · right
      rw [List.mem_map]
      refine ⟨{ i with data := (getAssoc repl i.name).getD i.data }, ?_, hix⟩
      rw [List.mem_filterMap]
      refine ⟨i, hi, ?_⟩
      rw [if_neg (by intro hcon; exact hmt (by rw [← hix]; exact eq_of_beq hcon))]

theorem mem_names_uniqueEntries (A : Archive) (x : Str) :
    x ∈ namesOf (uniqueEntries A) ↔ x ∈ namesOf A := by
  unfold namesOf uniqueEntries
  constructor
  · intro hx
    rcases List.mem_map.mp hx with ⟨e, he, hex⟩
    rw [List.mem_reverse] at he
    have he2 := mem_dedupSeen A.reverse [] e he
    rw [List.mem_reverse] at he2
    rw [← hex]
    exact List.mem_map_of_mem _ he2
  · intro hx
    rcases List.mem_map.mp hx with ⟨e, he, hex⟩
    have hn : x ∈ A.reverse.map (·.name) := by
      rw [← hex]
      exact List.mem_map_of_mem _ (List.mem_reverse.mpr he)
    rcases dedupSeen_keeps_name A.reverse [] x hn rfl with ⟨u, hu, hux⟩
    rw [← hux]
    exact List.mem_map_of_mem _ (List.mem_reverse.mpr hu)

theorem names_contains_rewrite (now : Nat) (A : Archive) (repl : List (Str × EData)) :
    ∀ x, (namesOf (rewriteDedup now (uniqueEntries A) repl)).contains x
      = (namesOf A).contains x := by
  refine contains_congr_of_mem_iff _ _ ?_
  intro x
  rw [mem_names_rewriteDedup]
  exact mem_names_uniqueEntries A x

theorem getAssoc_eq_none {α β : Type} [BEq α] [LawfulBEq α] (l : List (α × β)) (k : α)
    (h : ∀ p ∈ l, ¬ p.1 = k) : getAssoc l k = none := by
  unfold getAssoc
  rw [List.find?_eq_none.mpr (fun p hp => by simpa using h p hp)]
  rfl

theorem getAssoc_of_mem_nodup {α β : Type} [BEq α] [LawfulBEq α] :
    ∀ (l : List (α × β)), ((l.map (·.1)).Nodup) → ∀ (k : α) (v : β), (k, v) ∈ l →
    getAssoc l k = some v := by
  intro l
  induction l with
  | nil => intro _ k v h; simp at h
  | cons kv t ih =>
    intro hnd k v h
    have hnd2 : (∀ b : β, (kv.1, b) ∉ t) ∧ (t.map (·.1)).Nodup := by
      simpa using hnd
    rcases List.mem_cons.mp h with he | ht
    · rw [← he]
      unfold getAssoc
      rw [List.find?_cons]
      simp
    · have hne : ¬ (kv.1 == k) = true := by
        intro hc
        have hkk : kv.1 = k := eq_of_beq hc
        exact hnd2.1 v (by rw [hkk]; exact ht)
      have hb : (kv.1 == k) = false := by simpa using hne
      unfold getAssoc
      rw [List.find?_cons]
      simp only [hb]
      exact ih hnd2.2 k v ht

theorem manifest_walk_stable (ns : Str) (names : List Str) (opfDir : Str) :
    ∀ (l : List XNode) (j : Nat) (st : ManifestWalk),
    ((l.filterMap (fun c =>
        if c.tag == ns ++ str "item" then attrTruthy (attrGet c (str "id")) else none)).Nodup) →
    (∀ c ∈ l, c.tag = ns ++ str "item" → ∀ d,
        attrTruthy (attrGet c (str "id")) = some d →
        getAssoc st.byId d = none ∧ fixItemHref names opfDir c = c) →
    (List.enumFrom j l).foldl (manifestStep ns names opfDir) st =
      ⟨st.kept ++ List.enumFrom j l,
       st.byId ++ (List.enumFrom j l).filterMap (fun ic =>
         if ic.2.tag == ns ++ str "item" then
           (attrTruthy (attrGet ic.2 (str "id"))).map (fun d => (d, ic))
         else none)⟩ := by
  intro l
  induction l with
  | nil =>
    intro j st _ _
    show st = _
    cases st
    simp
  | cons c t ih =>
    intro j st hnd h2
    have hef : List.enumFrom j (c :: t) = (j, c) :: List.enumFrom (j + 1) t := rfl
    rw [hef, List.foldl_cons]
    by_cases hct : (c.tag == ns ++ str "item") = true
    · cases hid : attrTruthy (attrGet c (str "id")) with
      | none =>
        have hstep : manifestStep ns names opfDir st (j, c) =
            { st with kept := st.kept ++ [(j, c)] } := by
          simp only [manifestStep]
          rw [if_neg (by simp [hct])]
          simp only [hid]
        rw [hstep]
        have hF0 : (if c.tag == ns ++ str "item" then
            (attrTruthy (attrGet c (str "id"))).map (fun d => (d, (j, c)))
          else none) = none := by
          rw [if_pos hct, hid]
          rfl
        have hg0 : (if c.tag == ns ++ str "item"
            then attrTruthy (attrGet c (str "id")) else none) = none := by
          rw [if_pos hct, hid]
        simp only [List.filterMap_cons, hg0] at hnd
        have h2t : ∀ c2 ∈ t, c2.tag = ns ++ str "item" → ∀ d,
            attrTruthy (attrGet c2 (str "id")) = some d →
            getAssoc st.byId d = none ∧ fixItemHref names opfDir c2 = c2 := by
          intro c2 hc2 ht2 d hd2
          exact h2 c2 (List.mem_cons_of_mem _ hc2) ht2 d hd2
        rw [ih (j + 1) { st with kept := st.kept ++ [(j, c)] } hnd h2t]
        simp only [List.filterMap_cons, hF0]
        simp
      | some d =>
        rcases h2 c (List.mem_cons_self _ _) (eq_of_beq hct) d hid with ⟨hfresh, hfix⟩
        have hstep : manifestStep ns names opfDir st (j, c) =
            { kept := st.kept ++ [(j, c)], byId := st.byId ++ [(d, (j, c))] } := by
          simp only [manifestStep]
          rw [if_neg (by simp [hct])]
          simp only [hid]
          rw [hfresh, hfix]
        rw [hstep]
        have hF1 : (if c.tag == ns ++ str "item" then
            (attrTruthy (attrGet c (str "id"))).map (fun d => (d, (j, c)))
          else none) = some (d, (j, c)) := by
          rw [if_pos hct, hid]
          rfl
        have hg1 : (if c.tag == ns ++ str "item"
            then attrTruthy (attrGet c (str "id")) else none) = some d := by
          rw [if_pos hct, hid]
        simp only [List.filterMap_cons, hg1] at hnd
        have hnd2 : (¬ d ∈ t.filterMap (fun c => if c.tag == ns ++ str "item"
            then attrTruthy (attrGet c (str "id")) else none)) ∧
            (t.filterMap (fun c => if c.tag == ns ++ str "item"
              then attrTruthy (attrGet c (str "id")) else none)).Nodup := by
          simpa using hnd
        have h2t : ∀ c2 ∈ t, c2.tag = ns ++ str "item" → ∀ d2,
            attrTruthy (attrGet c2 (str "id")) = some d2 →
            getAssoc (st.byId ++ [(d, (j, c))]) d2 = none ∧
              fixItemHref names opfDir c2 = c2 := by
          intro c2 hc2 ht2 d2 hd2
          rcases h2 c2 (List.mem_cons_of_mem _ hc2) ht2 d2 hd2 with ⟨hfr2, hfx2⟩
          constructor
          · rw [getAssoc_append, hfr2]
            refine getAssoc_eq_none _ _ ?_
            intro p hp
            simp only [List.mem_singleton] at hp
            rw [hp]
            show ¬ d = d2
            intro hdd
            have hd2mem : d2 ∈ t.filterMap (fun c => if c.tag == ns ++ str "item"
                then attrTruthy (attrGet c (str "id")) else none) := by
              rw [List.mem_filterMap]
              refine ⟨c2, hc2, ?_⟩
              rw [if_pos (by rw [ht2]; simp), hd2]
            exact hnd2.1 (by rw [hdd]; exact hd2mem)
          · exact hfx2
        rw [ih (j + 1) ⟨st.kept ++ [(j, c)], st.byId ++ [(d, (j, c))]⟩ hnd2.2 h2t]
        simp only [List.filterMap_cons, hF1]
        simp
    · have hstep : manifestStep ns names opfDir st (j, c) =
          { st with kept := st.kept ++ [(j, c)] } := by
        simp only [manifestStep]
        rw [if_pos (by simp [hct])]
      rw [hstep]
      have hF0 : (if c.tag == ns ++ str "item" then
          (attrTruthy (attrGet c (str "id"))).map (fun d => (d, (j, c)))
        else none) = none := by
        rw [if_neg hct]
      have hg0 : (if c.tag == ns ++ str "item"
          then attrTruthy (attrGet c (str "id")) else none) = none := by
        rw [if_neg hct]
      simp only [List.filterMap_cons, hg0] at hnd
      have h2t : ∀ c2 ∈ t, c2.tag = ns ++ str "item" → ∀ d,
          attrTruthy (attrGet c2 (str "id")) = some d →
          getAssoc st.byId d = none ∧ fixItemHref names opfDir c2 = c2 := by
        intro c2 hc2 ht2 d hd2
        exact h2 c2 (List.mem_cons_of_mem _ hc2) ht2 d hd2
      rw [ih (j + 1) { st with kept := st.kept ++ [(j, c)] } hnd h2t]
      simp only [List.filterMap_cons, hF0]
      simp

theorem enumFrom_map_snd {α : Type} : ∀ (l : List α) (n : Nat),
    (List.enumFrom n l).map (·.2) = l := by
  intro l
  induction l with
  | nil => intro n; rfl
  | cons a t ih =>
    intro n
    show (n, a).2 :: (List.enumFrom (n + 1) t).map (·.2) = a :: t
    rw [ih (n + 1)]

theorem mem_enumFrom_snd {α : Type} : ∀ (l : List α) (n : Nat) (p : Nat × α),
    p ∈ List.enumFrom n l → p.2 ∈ l := by
  intro l
  induction l with
  | nil => intro n p h; simp at h
  | cons a t ih =>
    intro n p h
    have h2 : p = (n, a) ∨ p ∈ List.enumFrom (n + 1) t := List.mem_cons.mp h
    rcases h2 with he | ht
    · rw [he]
      exact List.mem_cons_self _ _
    · exact List.mem_cons_of_mem _ (ih (n + 1) p ht)

theorem exists_mem_enumFrom {α : Type} : ∀ (l : List α) (n : Nat) (c : α),
    c ∈ l → ∃ i, (i, c) ∈ List.enumFrom n l := by
  intro l
  induction l with
  | nil => intro n c h; simp at h
  | cons a t ih =>
    intro n c h
    rcases List.mem_cons.mp h with he | ht
    · exact ⟨n, by rw [he]; exact List.mem_cons_self _ _⟩
    · rcases ih (n + 1) c ht with ⟨i, hi⟩
      exact ⟨i, List.mem_cons_of_mem _ hi⟩

theorem getAssoc_congr_keys {α β : Type} [BEq α] [LawfulBEq α]
    (l1 l2 : List (α × β)) (h1 : (l1.map (·.1)).Nodup) (h2 : (l2.map (·.1)).Nodup)
    (hm : ∀ q, q ∈ l1 ↔ q ∈ l2) : ∀ k, getAssoc l1 k = getAssoc l2 k := by
  intro k
  cases hg : getAssoc l2 k with
  | some v =>
    exact getAssoc_of_mem_nodup l1 h1 k v ((hm (k, v)).mpr (getAssoc_mem l2 k v hg))
  | none =>
    cases hg1 : getAssoc l1 k with
    | none => rfl
    | some v =>
      have := getAssoc_of_mem_nodup l2 h2 k v ((hm (k, v)).mp (getAssoc_mem l1 k v hg1))
      rw [this] at hg
      exact hg
  -- (orientation fixed below)

theorem anyKey_congr {α β : Type} [BEq α] [LawfulBEq α]
    (l1 l2 : List (α × β)) (hm : ∀ q, q ∈ l1 ↔ q ∈ l2) :
    ∀ k, l1.any (fun kv => kv.1 == k) = l2.any (fun kv => kv.1 == k) := by
  intro k
  cases ha : l2.any (fun kv => kv.1 == k) with
  | true =>
    rcases List.any_eq_true.mp ha with ⟨kv, hkv, hk⟩
    exact List.any_eq_true.mpr ⟨kv, (hm kv).mpr hkv, hk⟩
  | false =>
    cases hb : l1.any (fun kv => kv.1 == k) with
    | false => rfl
    | true =>
      rcases List.any_eq_true.mp hb with ⟨kv, hkv, hk⟩
      have h2 : l2.any (fun kv => kv.1 == k) = true :=
        List.any_eq_true.mpr ⟨kv, (hm kv).mp hkv, hk⟩
      rw [ha] at h2
      exact h2.symm

theorem dropDead_noop (names : List Str) (opfDir : Str) :
    ∀ (l : List (Str × Nat × XNode)) (acc : ManifestWalk),
    (∀ p ∈ l, ∀ href, attrTruthy (attrGet p.2.2 (str "href")) = some href →
      hrefExists names opfDir href = true ∨ deadTextHref opfDir href = false) →
    l.foldl (dropDeadStep names opfDir) acc = acc := by
  intro l
  induction l with
  | nil => intro acc _; rfl
  | cons kv t ih =>
    intro acc h
    obtain ⟨d, i, c⟩ := kv
    rw [List.foldl_cons]
    cases hh : attrTruthy (attrGet c (str "href")) with
    | none =>
      have hstep : dropDeadStep names opfDir acc (d, i, c) = acc := by
        simp only [dropDeadStep]
        rw [hh]
      rw [hstep]
      exact ih acc (fun p hp => h p (List.mem_cons_of_mem _ hp))
    | some href =>
      have hgood := h (d, i, c) (List.mem_cons_self _ _) href hh
      by_cases hex : hrefExists names opfDir href = true
      · have hstep : dropDeadStep names opfDir acc (d, i, c) = acc := by
          simp only [dropDeadStep]
          rw [hh]
          show (if hrefExists names opfDir href = true then acc
            else if deadTextHref opfDir href = true then
              { kept := acc.kept.filter (fun e => !(e.1 == i)),
                byId := acc.byId.filter (fun e => !(e.1 == d)) }
            else acc) = acc
          rw [if_pos hex]
        rw [hstep]
        exact ih acc (fun p hp => h p (List.mem_cons_of_mem _ hp))
      · have hdead : ¬ deadTextHref opfDir href = true := by
          rcases hgood with hg | hg
          · exact absurd hg hex
          · rw [hg]
            simp
        have hstep : dropDeadStep names opfDir acc (d, i, c) = acc := by
          simp only [dropDeadStep]
          rw [hh]
          show (if hrefExists names opfDir href = true then acc
            else if deadTextHref opfDir href = true then
              { kept := acc.kept.filter (fun e => !(e.1 == i)),
                byId := acc.byId.filter (fun e => !(e.1 == d)) }
            else acc) = acc
          rw [if_neg hex, if_neg hdead]
        rw [hstep]
        exact ih acc (fun p hp => h p (List.mem_cons_of_mem _ hp))

theorem walk_assoc_keys (ns : Str) : ∀ (X : List XNode) (n : Nat),
    (((List.enumFrom n X).filterMap (fun ic =>
      if ic.2.tag == ns ++ str "item" then
        (attrTruthy (attrGet ic.2 (str "id"))).map (fun d => (d, ic))
      else none)).map (fun kv => kv.1))
    = X.filterMap (fun c =>
        if c.tag == ns ++ str "item" then attrTruthy (attrGet c (str "id")) else none) := by
  intro X
  induction X with
  | nil => intro n; rfl
  | cons c t ih =>
    intro n
    have hef : List.enumFrom n (c :: t) = (n, c) :: List.enumFrom (n + 1) t := rfl
    rw [hef]
    by_cases hct : (c.tag == ns ++ str "item") = true
    · cases hid : attrTruthy (attrGet c (str "id")) with
      | none =>
        have hF : (if c.tag == ns ++ str "item" then
            (attrTruthy (attrGet c (str "id"))).map (fun d => (d, (n, c)))
          else none) = none := by rw [if_pos hct, hid]; rfl
        have hg : (if c.tag == ns ++ str "item"
            then attrTruthy (attrGet c (str "id")) else none) = none := by
          rw [if_pos hct, hid]
        simp only [List.filterMap_cons, hF, hg]
        exact ih (n + 1)
      | some d =>
        have hF : (if c.tag == ns ++ str "item" then
            (attrTruthy (attrGet c (str "id"))).map (fun d => (d, (n, c)))
          else none) = some (d, (n, c)) := by rw [if_pos hct, hid]; rfl
        have hg : (if c.tag == ns ++ str "item"
            then attrTruthy (attrGet c (str "id")) else none) = some d := by
          rw [if_pos hct, hid]
        simp only [List.filterMap_cons, hF, hg, List.map_cons]
        rw [ih (n + 1)]
    · have hF : (if c.tag == ns ++ str "item" then
          (attrTruthy (attrGet c (str "id"))).map (fun d => (d, (n, c)))
        else none) = none := by rw [if_neg hct]
      have hg : (if c.tag == ns ++ str "item"
          then attrTruthy (attrGet c (str "id")) else none) = none := by
        rw [if_neg hct]
      simp only [List.filterMap_cons, hF, hg]
      exact ih (n + 1)

theorem walk_assoc_mem (ns : Str) (X : List XNode) (q : Str × XNode) :
    q ∈ ((List.enumFrom 0 X).filterMap (fun ic =>
        if ic.2.tag == ns ++ str "item" then
          (attrTruthy (attrGet ic.2 (str "id"))).map (fun d => (d, ic))
        else none)).map (fun kv => (kv.1, kv.2.2)) ↔
      (q.2 ∈ X ∧ q.2.tag = ns ++ str "item" ∧
        attrTruthy (attrGet q.2 (str "id")) = some q.1) := by
  constructor
  · intro h
    rcases List.mem_map.mp h with ⟨kv, hkv, hq⟩
    rcases List.mem_filterMap.mp hkv with ⟨ic, hic, hF⟩
    by_cases hct : (ic.2.tag == ns ++ str "item") = true
    · rw [if_pos hct] at hF
      cases hid : attrTruthy (attrGet ic.2 (str "id")) with
      | none => rw [hid] at hF; simp at hF
      | some d =>
        rw [hid] at hF
        have hkv2 : (d, ic) = kv := by simpa using hF
        rw [← hq, ← hkv2]
        refine ⟨mem_enumFrom_snd X 0 ic hic, eq_of_beq hct, hid⟩
    · rw [if_neg hct] at hF
      simp at hF
  · rintro ⟨hmem, htag, hid⟩
    rcases exists_mem_enumFrom X 0 q.2 hmem with ⟨i, hi⟩
    refine List.mem_map.mpr ⟨(q.1, (i, q.2)), ?_, rfl⟩
    refine List.mem_filterMap.mpr ⟨(i, q.2), hi, ?_⟩
    show (if q.2.tag == ns ++ str "item" then
        (attrTruthy (attrGet q.2 (str "id"))).map (fun d => (d, (i, q.2)))
      else none) = some (q.1, (i, q.2))
    rw [if_pos (by rw [htag]; simp), hid]
    rfl

theorem normalizeManifest_children (ns : Str) (names : List Str) (opfDir : Str)
    (m m2 : XNode) (byIdOut : List (Str × XNode))
    (hm : normalizeManifest ns names opfDir m = (m2, byIdOut)) :
    ∃ cs, m2.children = reorderPages ns (str "item") (str "id") cs := by
  simp only [normalizeManifest, Prod.mk.injEq] at hm
  obtain ⟨hm1, _⟩ := hm
  exact ⟨_, by rw [← hm1, withChildren_children]⟩

theorem normalizeManifest_inv (ns : Str) (names : List Str) (opfDir : Str)
    (m m2 : XNode) (byIdOut : List (Str × XNode))
    (hm : normalizeManifest ns names opfDir m = (m2, byIdOut)) :
    (byIdOut.map (·.1)).Nodup ∧
    (∀ p ∈ byIdOut, p.2 ∈ m2.children ∧ p.2.tag = ns ++ str "item" ∧
        attrTruthy (attrGet p.2 (str "id")) = some p.1) ∧
    (∀ c ∈ m2.children, c.tag = ns ++ str "item" →
        ∀ id0, attrTruthy (attrGet c (str "id")) = some id0 → (id0, c) ∈ byIdOut) ∧
    ((m2.children.filterMap (fun c =>
        if c.tag == ns ++ str "item" then attrTruthy (attrGet c (str "id")) else none)).Nodup) ∧
    (∀ p ∈ byIdOut, ∀ href, attrTruthy (attrGet p.2 (str "href")) = some href →
        hrefExists names opfDir href = true ∨ deadTextHref opfDir href = false) := by
  set W1 : ManifestWalk :=
    (List.enumFrom 0 m.children).foldl (manifestStep ns names opfDir) ⟨[], []⟩ with hW1
  have hw1 := manifestFold_inv ns names opfDir m.children 0 ⟨[], []⟩ (by simp)
      (fun p hp => absurd hp (by simp)) (fun e he => absurd he (by simp)) (by simp)
      (fun e he => absurd he (by simp))
  rw [← hW1] at hw1
  obtain ⟨hA1, hB1, hC1, hD1⟩ := hw1
  set W3 : ManifestWalk := W1.byId.foldl (dropDeadStep names opfDir) W1 with hW3
  have hw3 := dropDead_fold_inv ns names opfDir W1.byId W1.kept hA1 hB1 hD1 W1.byId
      (fun x hx => hx) W1 hA1 hB1 hC1 hD1 (fun p hp => hp) (fun p hp => Or.inl hp)
  rw [← hW3] at hw3
  obtain ⟨hA3, hB3, hC3, hD3, hP3⟩ := hw3
  have hmm : normalizeManifest ns names opfDir m =
      (m.withChildren (reorderPages ns (str "item") (str "id") (W3.kept.map (·.2))),
       W3.byId.map (fun kv => (kv.1, kv.2.2))) := by
    rw [hW3, hW1]
    rfl
  rw [hmm] at hm
  injection hm with hm2 hmb
  subst hm2
  subst hmb
  refine ⟨?_, ?_, ?_, ?_, ?_⟩
  · rw [List.map_map]
    exact hA3
  · intro p hp
    rcases List.mem_map.mp hp with ⟨q, hq, hpe⟩
    rcases hB3 q hq with ⟨hqk, hqt, hqi⟩
    rw [← hpe]
    refine ⟨?_, ?_, ?_⟩
    · show q.2.2 ∈
        (m.withChildren (reorderPages ns (str "item") (str "id") (W3.kept.map (·.2)))).children
      rw [withChildren_children, mem_reorderPages]
      exact List.mem_map.mpr ⟨q.2, hqk, rfl⟩
    · show q.2.2.tag = ns ++ str "item"
      exact hqt
    · show attrTruthy (attrGet q.2.2 (str "id")) = some q.1
      exact hqi
  · intro c hc hct id0 hid
    rw [withChildren_children, mem_reorderPages] at hc
    rcases List.mem_map.mp hc with ⟨e, he, hce⟩
    have hce2 : e.2 = c := hce
    have hx9 := hC3 e he (by rw [hce2]; exact hct) id0 (by rw [hce2]; exact hid)
    exact List.mem_map.mpr ⟨(id0, e), hx9, by rw [← hce2]⟩
  · rw [withChildren_children]
    have hperm := reorderPages_perm ns (str "item") (str "id") (W3.kept.map (·.2))
    have hpf := hperm.filterMap (fun c =>
      if c.tag == ns ++ str "item" then attrTruthy (attrGet c (str "id")) else none)
    rw [hpf.nodup_iff, List.filterMap_map]
    refine filterMap_nodup_inj W3.kept _ (·.1) hD3 ?_
    intro x hx y hy b hfx hfy
    have hfx2 : (if x.2.tag == ns ++ str "item"
        then attrTruthy (attrGet x.2 (str "id")) else none) = some b := hfx
    have hfy2 : (if y.2.tag == ns ++ str "item"
        then attrTruthy (attrGet y.2 (str "id")) else none) = some b := hfy
    by_cases hcx : (x.2.tag == ns ++ str "item") = true
    · by_cases hcy : (y.2.tag == ns ++ str "item") = true
      · rw [if_pos hcx] at hfx2
        rw [if_pos hcy] at hfy2
        have hx9 := hC3 x hx (eq_of_beq hcx) b hfx2
        have hy9 := hC3 y hy (eq_of_beq hcy) b hfy2
        have hxy := keyNodup_mem_eq W3.byId hA3 b x y hx9 hy9
        rw [hxy]
      · rw [if_neg hcy] at hfy2
        exact Option.noConfusion hfy2
    · rw [if_neg hcx] at hfx2
      exact Option.noConfusion hfx2
  · intro p hp href hh
    rcases List.mem_map.mp hp with ⟨q, hq, hpe⟩
    have hpe2 : (q.1, q.2.2) = p := hpe
    have hh2 : attrTruthy (attrGet q.2.2 (str "href")) = some href := by
      rw [← hpe2] at hh
      exact hh
    exact hP3 q hq href hh2

theorem normalizeManifest_stable (ns : Str) (names names2 : List Str) (opfDir : Str)
    (m m2 : XNode) (byIdOut : List (Str × XNode))
    (hm : normalizeManifest ns names opfDir m = (m2, byIdOut))
    (hne : ∀ x, names2.contains x = names.contains x)
    (hfix : ∀ p ∈ byIdOut, fixItemHref names2 opfDir p.2 = p.2) :
    normalizeManifest ns names2 opfDir m2 =
      (m2, ((List.enumFrom 0 m2.children).filterMap (fun ic =>
        if ic.2.tag == ns ++ str "item" then
          (attrTruthy (attrGet ic.2 (str "id"))).map (fun d => (d, ic))
        else none)).map (fun kv => (kv.1, kv.2.2))) ∧
    (((((List.enumFrom 0 m2.children).filterMap (fun ic =>
        if ic.2.tag == ns ++ str "item" then
          (attrTruthy (attrGet ic.2 (str "id"))).map (fun d => (d, ic))
        else none)).map (fun kv => (kv.1, kv.2.2))).map (·.1)).Nodup) ∧
    (∀ q, q ∈ ((List.enumFrom 0 m2.children).filterMap (fun ic =>
        if ic.2.tag == ns ++ str "item" then
          (attrTruthy (attrGet ic.2 (str "id"))).map (fun d => (d, ic))
        else none)).map (fun kv => (kv.1, kv.2.2)) ↔ q ∈ byIdOut) := by
  obtain ⟨g1, g2, g3, g4, g5⟩ := normalizeManifest_inv ns names opfDir m m2 byIdOut hm
  have hwalk := manifest_walk_stable ns names2 opfDir m2.children 0 ⟨[], []⟩ g4
    (by
      intro c hc ht d hd
      exact ⟨rfl, hfix (d, c) (g3 c hc ht d hd)⟩)
  simp only [List.nil_append] at hwalk
  have hgood : ∀ p ∈ (List.enumFrom 0 m2.children).filterMap (fun ic =>
      if ic.2.tag == ns ++ str "item" then
        (attrTruthy (attrGet ic.2 (str "id"))).map (fun d => (d, ic))
      else none),
      ∀ href, attrTruthy (attrGet p.2.2 (str "href")) = some href →
        hrefExists names2 opfDir href = true ∨ deadTextHref opfDir href = false := by
    intro p hp href hh
    rcases List.mem_filterMap.mp hp with ⟨ic, hic, hF⟩
    by_cases hct : (ic.2.tag == ns ++ str "item") = true
    · rw [if_pos hct] at hF
      cases hid : attrTruthy (attrGet ic.2 (str "id")) with
      | none => rw [hid] at hF; simp at hF
      | some d =>
        rw [hid] at hF
        have hp2 : (d, ic) = p := by simpa using hF
        have hmem : (d, ic.2) ∈ byIdOut :=
          g3 ic.2 (mem_enumFrom_snd m2.children 0 ic hic) (eq_of_beq hct) d hid
        have hh2 : attrTruthy (attrGet ic.2 (str "href")) = some href := by
          rw [← hp2] at hh
          exact hh
        rcases g5 (d, ic.2) hmem href hh2 with hA | hB
        · left
          rw [hrefExists_congr names names2 opfDir href hne]
          exact hA
        · exact Or.inr hB
    · rw [if_neg hct] at hF
      simp at hF
  have hdropeq : dropDeadTextItems names2 opfDir
      (⟨List.enumFrom 0 m2.children,
        (List.enumFrom 0 m2.children).filterMap (fun ic =>
          if ic.2.tag == ns ++ str "item" then
            (attrTruthy (attrGet ic.2 (str "id"))).map (fun d => (d, ic))
          else none)⟩ : ManifestWalk) =
      ⟨List.enumFrom 0 m2.children,
        (List.enumFrom 0 m2.children).filterMap (fun ic =>
          if ic.2.tag == ns ++ str "item" then
            (attrTruthy (attrGet ic.2 (str "id"))).map (fun d => (d, ic))
          else none)⟩ := by
    show List.foldl (dropDeadStep names2 opfDir) _ _ = _
    exact dropDead_noop names2 opfDir _ _ hgood
  obtain ⟨cs0, hcs0⟩ := normalizeManifest_children ns names opfDir m m2 byIdOut hm
  have hre : reorderPages ns (str "item") (str "id") m2.children = m2.children := by
    rw [hcs0]
    exact reorderPages_idem ns (str "item") (str "id") cs0
  have hcomp : normalizeManifest ns names2 opfDir m2 =
      (m2.withChildren (reorderPages ns (str "item") (str "id")
        ((dropDeadTextItems names2 opfDir
          ((List.enumFrom 0 m2.children).foldl (manifestStep ns names2 opfDir)
            ⟨[], []⟩)).kept.map (·.2))),
       (dropDeadTextItems names2 opfDir
          ((List.enumFrom 0 m2.children).foldl (manifestStep ns names2 opfDir)
            ⟨[], []⟩)).byId.map (fun kv => (kv.1, kv.2.2))) := rfl
  rw [hwalk, hdropeq] at hcomp
  rw [show ((⟨List.enumFrom 0 m2.children,
        (List.enumFrom 0 m2.children).filterMap (fun ic =>
          if ic.2.tag == ns ++ str "item" then
            (attrTruthy (attrGet ic.2 (str "id"))).map (fun d => (d, ic))
          else none)⟩ : ManifestWalk).kept.map (·.2)) = m2.children
    from enumFrom_map_snd m2.children 0] at hcomp
  rw [hre, withChildren_self] at hcomp
  refine ⟨hcomp, ?_, ?_⟩
  · rw [List.map_map]
    show (((List.enumFrom 0 m2.children).filterMap (fun ic =>
        if ic.2.tag == ns ++ str "item" then
          (attrTruthy (attrGet ic.2 (str "id"))).map (fun d => (d, ic))
        else none)).map (fun kv => kv.1)).Nodup
    rw [walk_assoc_keys ns m2.children 0]
    exact g4
  · intro q
    rw [walk_assoc_mem ns m2.children q]
    constructor
    · rintro ⟨hc, ht, hi⟩
      exact g3 q.2 hc ht q.1 hi
    · intro hq
      exact g2 q hq

theorem spineFold_ok (ns : Str) (byId : List (Str × XNode)) :
    ∀ (l : List XNode) (acc : List XNode × List Str),
    (∀ c ∈ acc.1, c.tag = ns ++ str "itemref" →
      ∀ r, attrTruthy (attrGet c (str "idref")) = some r →
        byId.any (fun kv => kv.1 == r) = true) →
    (∀ c ∈ (l.foldl (spineStep ns byId) acc).1, c.tag = ns ++ str "itemref" →
      ∀ r, attrTruthy (attrGet c (str "idref")) = some r →
        byId.any (fun kv => kv.1 == r) = true) := by
  intro l
  induction l with
  | nil => intro acc hacc; exact hacc
  | cons c0 t ih =>
    intro acc hacc
    rw [List.foldl_cons]
    refine ih (spineStep ns byId acc c0) ?_
    intro c hc hct r hr
    cases htag : (c0.tag == ns ++ str "itemref") with
    | false =>
      have hstep : spineStep ns byId acc c0 = (acc.1 ++ [c0], acc.2) := by
        simp only [spineStep]
        rw [htag]
        rfl
      rw [hstep] at hc
      have hc2 : c ∈ acc.1 ++ [c0] := hc
      rcases List.mem_append.mp hc2 with h | h
      · exact hacc c h hct r hr
      · have hcc : c = c0 := by simpa using h
        rw [hcc] at hct
        rw [hct] at htag
        simp at htag
    | true =>
      cases hidr : attrTruthy (attrGet c0 (str "idref")) with
      | none =>
        have hstep : spineStep ns byId acc c0 = acc := by
          simp only [spineStep]
          rw [htag, hidr]
          rfl
        rw [hstep] at hc
        exact hacc c hc hct r hr
      | some idref =>
        by_cases hseen : (acc.2.contains idref || !(byId.any (fun kv => kv.1 == idref))) = true
        · have hstep : spineStep ns byId acc c0 = acc := by
            simp only [spineStep]
            rw [htag, hidr]
            show (if (acc.2.contains idref || !(byId.any (fun kv => kv.1 == idref))) = true
                then acc else (acc.1 ++ [c0], acc.2 ++ [idref])) = acc
            rw [if_pos hseen]
          rw [hstep] at hc
          exact hacc c hc hct r hr
        · have hstep : spineStep ns byId acc c0 = (acc.1 ++ [c0], acc.2 ++ [idref]) := by
            simp only [spineStep]
            rw [htag, hidr]
            show (if (acc.2.contains idref || !(byId.any (fun kv => kv.1 == idref))) = true
                then acc else (acc.1 ++ [c0], acc.2 ++ [idref])) =
              (acc.1 ++ [c0], acc.2 ++ [idref])
            rw [if_neg hseen]
          rw [hstep] at hc
          have hc2 : c ∈ acc.1 ++ [c0] := hc
          rcases List.mem_append.mp hc2 with h | h
          · exact hacc c h hct r hr
          · have hcc : c = c0 := by simpa using h
            rw [hcc, hidr] at hr
            have hri : idref = r := Option.some.inj hr
            rw [← hri]
            simp only [Bool.or_eq_true, not_or, Bool.not_eq_true, Bool.not_eq_false'] at hseen
            exact hseen.2

theorem normalizeSpine_ok (ns : Str) (byId : List (Str × XNode)) (children : List XNode) :
    ∀ c ∈ (normalizeSpine ns byId children).1, c.tag = ns ++ str "itemref" →
      ∀ r, attrTruthy (attrGet c (str "idref")) = some r →
        byId.any (fun kv => kv.1 == r) = true :=
  spineFold_ok ns byId children ([], []) (fun c hc => absurd hc (by simp))

theorem frontFold_ok (ns : Str) (byId : List (Str × XNode)) (names : List Str) (opfDir : Str) :
    ∀ (ids : List Str) (acc : List XNode × Nat × List Str),
    (∀ c ∈ acc.1, c.tag = ns ++ str "itemref" →
      ∀ r, attrTruthy (attrGet c (str "idref")) = some r →
        byId.any (fun kv => kv.1 == r) = true) →
    (∀ c ∈ (ids.foldl (frontStep ns byId names opfDir) acc).1, c.tag = ns ++ str "itemref" →
      ∀ r, attrTruthy (attrGet c (str "idref")) = some r →
        byId.any (fun kv => kv.1 == r) = true) := by
  intro ids
  induction ids with
  | nil => intro acc hacc; exact hacc
  | cons f0 t ih =>
    intro acc hacc
    rw [List.foldl_cons]
    refine ih (frontStep ns byId names opfDir acc f0) ?_
    intro c hc hct r hr
    obtain ⟨cs, idx, seen⟩ := acc
    by_cases hsn : (seen.contains f0) = true
    · have hstep : frontStep ns byId names opfDir (cs, idx, seen) f0 = (cs, idx, seen) := by
        simp only [frontStep]
        rw [if_pos hsn]
      rw [hstep] at hc
      exact hacc c hc hct r hr
    · cases hga : getAssoc byId f0 with
      | none =>
        have hstep : frontStep ns byId names opfDir (cs, idx, seen) f0 = (cs, idx, seen) := by
          simp only [frontStep]
          rw [if_neg hsn, hga]
        rw [hstep] at hc
        exact hacc c hc hct r hr
      | some item =>
        cases hhr : attrTruthy (attrGet item (str "href")) with
        | none =>
          have hstep : frontStep ns byId names opfDir (cs, idx, seen) f0 = (cs, idx, seen) := by
            simp only [frontStep]
            rw [if_neg hsn, hga]
            show (match attrTruthy (attrGet item (str "href")) with
              | some href =>
                if hrefExists names opfDir href = true then
                  (insertClamped cs idx
                    (XNode.elem (ns ++ str "itemref") [(str "idref", f0)] none [] none),
                   idx + 1, seen ++ [f0])
                else (cs, idx, seen)
              | none => (cs, idx, seen)) = (cs, idx, seen)
            rw [hhr]
          rw [hstep] at hc
          exact hacc c hc hct r hr
        | some href =>
          by_cases hex : hrefExists names opfDir href = true
          · have hstep : frontStep ns byId names opfDir (cs, idx, seen) f0 =
                (insertClamped cs idx
                  (XNode.elem (ns ++ str "itemref") [(str "idref", f0)] none [] none),
                 idx + 1, seen ++ [f0]) := by
              simp only [frontStep]
              rw [if_neg hsn, hga]
              show (match attrTruthy (attrGet item (str "href")) with
                | some href =>
                  if hrefExists names opfDir href = true then
                    (insertClamped cs idx
                      (XNode.elem (ns ++ str "itemref") [(str "idref", f0)] none [] none),
                     idx + 1, seen ++ [f0])
                  else (cs, idx, seen)
                | none => (cs, idx, seen)) =
                (insertClamped cs idx
                  (XNode.elem (ns ++ str "itemref") [(str "idref", f0)] none [] none),
                 idx + 1, seen ++ [f0])
              rw [hhr]
              show (if hrefExists names opfDir href = true then
                  (insertClamped cs idx
                    (XNode.elem (ns ++ str "itemref") [(str "idref", f0)] none [] none),
                   idx + 1, seen ++ [f0])
                else (cs, idx, seen)) =
                (insertClamped cs idx
                  (XNode.elem (ns ++ str "itemref") [(str "idref", f0)] none [] none),
                 idx + 1, seen ++ [f0])
              rw [if_pos hex]
            rw [hstep] at hc
            have hc2 : c ∈ insertClamped cs idx
                (XNode.elem (ns ++ str "itemref") [(str "idref", f0)] none [] none) := hc
            rw [mem_insertClamped] at hc2
            rcases hc2 with hcc | h
            · rw [hcc] at hr
              have hag : attrGet
                  (XNode.elem (ns ++ str "itemref") [(str "idref", f0)] none [] none)
                  (str "idref") = some f0 := rfl
              rw [hag] at hr
              cases f0 with
              | nil =>
                have ht9 : attrTruthy (some ([] : Str)) = none := rfl
                rw [ht9] at hr
                exact Option.noConfusion hr
              | cons a as =>
                have ht9 : attrTruthy (some (a :: as)) = some (a :: as) := rfl
                rw [ht9] at hr
                have hra : a :: as = r := Option.some.inj hr
                rw [← hra]
                exact getAssoc_some_any byId (a :: as) item hga
            · exact hacc c h hct r hr
          · have hstep : frontStep ns byId names opfDir (cs, idx, seen) f0 =
                (cs, idx, seen) := by
              simp only [frontStep]
              rw [if_neg hsn, hga]
              show (match attrTruthy (attrGet item (str "href")) with
                | some href =>
                  if hrefExists names opfDir href = true then
                    (insertClamped cs idx
                      (XNode.elem (ns ++ str "itemref") [(str "idref", f0)] none [] none),
                     idx + 1, seen ++ [f0])
                  else (cs, idx, seen)
                | none => (cs, idx, seen)) = (cs, idx, seen)
              rw [hhr]
              show (if hrefExists names opfDir href = true then
                  (insertClamped cs idx
                    (XNode.elem (ns ++ str "itemref") [(str "idref", f0)] none [] none),
                   idx + 1, seen ++ [f0])
                else (cs, idx, seen)) = (cs, idx, seen)
              rw [if_neg hex]
            rw [hstep] at hc
            exact hacc c hc hct r hr

theorem prependFrontMatter_ok (ns : Str) (byId : List (Str × XNode)) (names : List Str)
    (opfDir : Str) (children : List XNode) (seen : List Str)
    (hch : ∀ c ∈ children, c.tag = ns ++ str "itemref" →
      ∀ r, attrTruthy (attrGet c (str "idref")) = some r →
        byId.any (fun kv => kv.1 == r) = true) :
    ∀ c ∈ prependFrontMatter ns byId names opfDir children seen,
      c.tag = ns ++ str "itemref" →
      ∀ r, attrTruthy (attrGet c (str "idref")) = some r →
        byId.any (fun kv => kv.1 == r) = true := by
  intro c hc
  have hc2 : c ∈ (frontMatterIds.foldl (frontStep ns byId names opfDir)
      (children,
       (match children.findIdx? (fun c =>
          c.tag == ns ++ str "itemref" &&
            strStarts (attrGetD c (str "idref")) (str "page_")) with
        | some i => i
        | none => children.length), seen)).1 := hc
  exact frontFold_ok ns byId names opfDir frontMatterIds _ (fun c hc => hch c hc) c hc2

theorem spineFix_ok (ns : Str) (byId : List (Str × XNode)) (names : List Str)
    (opfDir : Str) (sp : XNode) :
    ∀ c ∈ ((spineFix ns byId names opfDir sp).1).children,
      c.tag = ns ++ str "itemref" →
      ∀ r, attrTruthy (attrGet c (str "idref")) = some r →
        byId.any (fun kv => kv.1 == r) = true := by
  intro c hc hct r hr
  cases hns : normalizeSpine ns byId sp.children with
  | mk nc nseen =>
    have hfix : (spineFix ns byId names opfDir sp).1.children =
        reorderPages ns (str "itemref") (str "idref")
          (prependFrontMatter ns byId names opfDir nc nseen) := by
      simp only [spineFix, hns]
      rw [withChildren_children]
    rw [hfix, mem_reorderPages] at hc
    have hnorm := normalizeSpine_ok ns byId sp.children
    rw [hns] at hnorm
    exact prependFrontMatter_ok ns byId names opfDir nc nseen
      (fun c hc => hnorm c hc) c hc hct r hr

theorem spineFold_facts (ns : Str) (byId : List (Str × XNode)) :
    ∀ (l : List XNode) (acc : List XNode × List Str),
    (∀ c ∈ acc.1, c.tag = ns ++ str "itemref" →
      (attrTruthy (attrGet c (str "idref"))).isSome = true) →
    (acc.2 = sidList ns acc.1) →
    ((sidList ns acc.1).Nodup) →
    ((∀ c ∈ (l.foldl (spineStep ns byId) acc).1, c.tag = ns ++ str "itemref" →
        (attrTruthy (attrGet c (str "idref"))).isSome = true) ∧
     ((l.foldl (spineStep ns byId) acc).2 = sidList ns (l.foldl (spineStep ns byId) acc).1) ∧
     ((sidList ns (l.foldl (spineStep ns byId) acc).1).Nodup)) := by
  intro l
  induction l with
  | nil => intro acc h1 h2 h3; exact ⟨h1, h2, h3⟩
  | cons c0 t ih =>
    intro acc h1 h2 h3
    rw [List.foldl_cons]
    cases htag : (c0.tag == ns ++ str "itemref") with
    | false =>
      have hstep : spineStep ns byId acc c0 = (acc.1 ++ [c0], acc.2) := by
        simp only [spineStep]
        rw [htag]
        rfl
      rw [hstep]
      have h0 : (if c0.tag == ns ++ str "itemref"
          then attrTruthy (attrGet c0 (str "idref")) else none) = none := by
        rw [htag]
        rfl
      have hsid : sidList ns (acc.1 ++ [c0]) = sidList ns acc.1 := by
        unfold sidList
        rw [List.filterMap_append]
        simp only [List.filterMap_cons, List.filterMap_nil, h0, List.append_nil]
      refine ih (acc.1 ++ [c0], acc.2) ?_ ?_ ?_
      · intro c hc hct
        rcases List.mem_append.mp hc with h | h
        · exact h1 c h hct
        · have hcc : c = c0 := by simpa using h
          rw [hcc] at hct
          rw [hct] at htag
          simp at htag
      · show acc.2 = sidList ns (acc.1 ++ [c0])
        rw [hsid]
        exact h2
      · show (sidList ns (acc.1 ++ [c0])).Nodup
        rw [hsid]
        exact h3
    | true =>
      cases hidr : attrTruthy (attrGet c0 (str "idref")) with
      | none =>
        have hstep : spineStep ns byId acc c0 = acc := by
          simp only [spineStep]
          rw [htag, hidr]
          rfl
        rw [hstep]
        exact ih acc h1 h2 h3
      | some idref =>
        by_cases hseen : (acc.2.contains idref || !(byId.any (fun kv => kv.1 == idref))) = true
        · have hstep : spineStep ns byId acc c0 = acc := by
            simp only [spineStep]
            rw [htag, hidr]
            show (if (acc.2.contains idref || !(byId.any (fun kv => kv.1 == idref))) = true
                then acc else (acc.1 ++ [c0], acc.2 ++ [idref])) = acc
            rw [if_pos hseen]
          rw [hstep]
          exact ih acc h1 h2 h3
        · have hstep : spineStep ns byId acc c0 = (acc.1 ++ [c0], acc.2 ++ [idref]) := by
            simp only [spineStep]
            rw [htag, hidr]
            show (if (acc.2.contains idref || !(byId.any (fun kv => kv.1 == idref))) = true
                then acc else (acc.1 ++ [c0], acc.2 ++ [idref])) =
              (acc.1 ++ [c0], acc.2 ++ [idref])
            rw [if_neg hseen]
          rw [hstep]
          have h0 : (if c0.tag == ns ++ str "itemref"
              then attrTruthy (attrGet c0 (str "idref")) else none) = some idref := by
            rw [htag, hidr]
            rfl
          have hsid : sidList ns (acc.1 ++ [c0]) = sidList ns acc.1 ++ [idref] := by
            unfold sidList
            rw [List.filterMap_append]
            simp only [List.filterMap_cons, List.filterMap_nil, h0]
          have hnotin : ¬ idref ∈ acc.2 := by
            intro hmem
            have hcn : acc.2.contains idref = true := (contains_true_iff acc.2 idref).mpr hmem
            rw [hcn] at hseen
            simp at hseen
          refine ih (acc.1 ++ [c0], acc.2 ++ [idref]) ?_ ?_ ?_
          · intro c hc hct
            rcases List.mem_append.mp hc with h | h
            · exact h1 c h hct
            · have hcc : c = c0 := by simpa using h
              rw [hcc, hidr]
              rfl
          · show acc.2 ++ [idref] = sidList ns (acc.1 ++ [c0])
            rw [hsid, h2]
          · show (sidList ns (acc.1 ++ [c0])).Nodup
            rw [hsid]
            rw [List.nodup_append]
            refine ⟨h3, by simp, ?_⟩
            intro a ha hb
            simp only [List.mem_singleton] at hb
            rw [hb] at ha
            rw [← h2] at ha
            exact hnotin ha

theorem normalizeSpine_facts (ns : Str) (byId : List (Str × XNode)) (children : List XNode) :
    (∀ c ∈ (normalizeSpine ns byId children).1, c.tag = ns ++ str "itemref" →
        (attrTruthy (attrGet c (str "idref"))).isSome = true) ∧
    ((normalizeSpine ns byId children).2 = sidList ns (normalizeSpine ns byId children).1) ∧
    ((sidList ns (normalizeSpine ns byId children).1).Nodup) :=
  spineFold_facts ns byId children ([], []) (fun c hc => absurd hc (by simp)) rfl
    (by show (sidList ns []).Nodup; simp [sidList])

theorem frontFold_facts (ns : Str) (byId : List (Str × XNode)) (names : List Str)
    (opfDir : Str) :
    ∀ (ids : List Str) (acc : List XNode × Nat × List Str),
    (∀ f ∈ ids, ¬ f = []) →
    (∀ c ∈ acc.1, c.tag = ns ++ str "itemref" →
      (attrTruthy (attrGet c (str "idref"))).isSome = true) →
    ((sidList ns acc.1).Nodup) →
    (∀ r, r ∈ acc.2.2 ↔ r ∈ sidList ns acc.1) →
    ((∀ c ∈ (ids.foldl (frontStep ns byId names opfDir) acc).1,
        c.tag = ns ++ str "itemref" →
        (attrTruthy (attrGet c (str "idref"))).isSome = true) ∧
     ((sidList ns (ids.foldl (frontStep ns byId names opfDir) acc).1).Nodup) ∧
     (∀ r, r ∈ sidList ns acc.1 →
        r ∈ sidList ns (ids.foldl (frontStep ns byId names opfDir) acc).1) ∧
     (∀ f ∈ ids, frontGood ns byId names opfDir
        (ids.foldl (frontStep ns byId names opfDir) acc).1 f)) := by
  intro ids
  induction ids with
  | nil =>
    intro acc _ h1 h2 _
    exact ⟨h1, h2, fun r hr => hr, by simp⟩
  | cons f0 t ih =>
    intro acc hne h1 h2 hiff
    rw [List.foldl_cons]
    obtain ⟨cs, idx, seen⟩ := acc
    have hnet : ∀ f ∈ t, ¬ f = [] := fun f hf => hne f (List.mem_cons_of_mem _ hf)
    by_cases hsn : (seen.contains f0) = true
    · have hstep : frontStep ns byId names opfDir (cs, idx, seen) f0 = (cs, idx, seen) := by
        simp only [frontStep]
        rw [if_pos hsn]
      rw [hstep]
      rcases ih (cs, idx, seen) hnet h1 h2 hiff with ⟨k1, k2, k3, k4⟩
      refine ⟨k1, k2, k3, ?_⟩
      intro f hf
      rcases List.mem_cons.mp hf with he | ht
      · left
        rw [he]
        exact k3 f0 ((hiff f0).mp ((contains_true_iff seen f0).mp hsn))
      · exact k4 f ht
    · cases hga : getAssoc byId f0 with
      | none =>
        have hstep : frontStep ns byId names opfDir (cs, idx, seen) f0 = (cs, idx, seen) := by
          simp only [frontStep]
          rw [if_neg hsn, hga]
        rw [hstep]
        rcases ih (cs, idx, seen) hnet h1 h2 hiff with ⟨k1, k2, k3, k4⟩
        refine ⟨k1, k2, k3, ?_⟩
        intro f hf
        rcases List.mem_cons.mp hf with he | ht
        · right
          left
          rw [he]
          exact hga
        · exact k4 f ht
      | some item =>
        cases hhr : attrTruthy (attrGet item (str "href")) with
        | none =>
          have hstep : frontStep ns byId names opfDir (cs, idx, seen) f0 = (cs, idx, seen) := by
            simp only [frontStep]
            rw [if_neg hsn, hga]
            show (match attrTruthy (attrGet item (str "href")) with
              | some href =>
                if hrefExists names opfDir href = true then
                  (insertClamped cs idx
                    (XNode.elem (ns ++ str "itemref") [(str "idref", f0)] none [] none),
                   idx + 1, seen ++ [f0])
                else (cs, idx, seen)
              | none => (cs, idx, seen)) = (cs, idx, seen)
            rw [hhr]
          rw [hstep]
          rcases ih (cs, idx, seen) hnet h1 h2 hiff with ⟨k1, k2, k3, k4⟩
          refine ⟨k1, k2, k3, ?_⟩
          intro f hf
          rcases List.mem_cons.mp hf with he | ht
          · right
            right
            rw [he]
            exact ⟨item, hga, Or.inl hhr⟩
          · exact k4 f ht
        | some href =>
          by_cases hex : hrefExists names opfDir href = true
          · have hstep : frontStep ns byId names opfDir (cs, idx, seen) f0 =
                (insertClamped cs idx
                  (XNode.elem (ns ++ str "itemref") [(str "idref", f0)] none [] none),
                 idx + 1, seen ++ [f0]) := by
              simp only [frontStep]
              rw [if_neg hsn, hga]
              show (match attrTruthy (attrGet item (str "href")) with
                | some href =>
                  if hrefExists names opfDir href = true then
                    (insertClamped cs idx
                      (XNode.elem (ns ++ str "itemref") [(str "idref", f0)] none [] none),
                     idx + 1, seen ++ [f0])
                  else (cs, idx, seen)
                | none => (cs, idx, seen)) =
                (insertClamped cs idx
                  (XNode.elem (ns ++ str "itemref") [(str "idref", f0)] none [] none),
                 idx + 1, seen ++ [f0])
              rw [hhr]
              show (if hrefExists names opfDir href = true then
                  (insertClamped cs idx
                    (XNode.elem (ns ++ str "itemref") [(str "idref", f0)] none [] none),
                   idx + 1, seen ++ [f0])
                else (cs, idx, seen)) =
                (insertClamped cs idx
                  (XNode.elem (ns ++ str "itemref") [(str "idref", f0)] none [] none),
                 idx + 1, seen ++ [f0])
              rw [if_pos hex]
            rw [hstep]
            have hne0 : ¬ f0 = [] := hne f0 (List.mem_cons_self _ _)
            have hperm : (insertClamped cs idx
                (XNode.elem (ns ++ str "itemref") [(str "idref", f0)] none [] none)).Perm
                ((XNode.elem (ns ++ str "itemref") [(str "idref", f0)] none [] none) :: cs) := by
              unfold insertClamped
              rw [List.append_assoc]
              have h9 : List.Perm
                  (cs.take idx ++ (XNode.elem (ns ++ str "itemref")
                    [(str "idref", f0)] none [] none) :: cs.drop idx)
                  ((XNode.elem (ns ++ str "itemref")
                    [(str "idref", f0)] none [] none) :: (cs.take idx ++ cs.drop idx)) :=
                List.perm_middle
              rw [List.take_append_drop] at h9
              exact h9
            have ht9 : (if (XNode.elem (ns ++ str "itemref")
                [(str "idref", f0)] none [] none).tag == ns ++ str "itemref"
              then attrTruthy (attrGet (XNode.elem (ns ++ str "itemref")
                [(str "idref", f0)] none [] none) (str "idref")) else none) = some f0 := by
              rw [if_pos (by simp [XNode.tag])]
              cases f0 with
              | nil => exact absurd rfl hne0
              | cons a as => rfl
            have hsidperm : (sidList ns (insertClamped cs idx
                (XNode.elem (ns ++ str "itemref") [(str "idref", f0)] none [] none))).Perm
                (f0 :: sidList ns cs) := by
              have hp2 := hperm.filterMap (fun c =>
                if c.tag == ns ++ str "itemref" then attrTruthy (attrGet c (str "idref"))
                else none)
              have hhead : ((XNode.elem (ns ++ str "itemref")
                  [(str "idref", f0)] none [] none) :: cs).filterMap (fun c =>
                  if c.tag == ns ++ str "itemref" then attrTruthy (attrGet c (str "idref"))
                  else none) = f0 :: sidList ns cs := by
                simp only [List.filterMap_cons, ht9]
                rfl
              rw [hhead] at hp2
              exact hp2
            have hnotin : ¬ f0 ∈ sidList ns cs := by
              intro hmem
              have : f0 ∈ seen := (hiff f0).mpr hmem
              exact hsn ((contains_true_iff seen f0).mpr this)
            have hF1i : ∀ c ∈ insertClamped cs idx
                (XNode.elem (ns ++ str "itemref") [(str "idref", f0)] none [] none),
                c.tag = ns ++ str "itemref" →
                (attrTruthy (attrGet c (str "idref"))).isSome = true := by
              intro c hc hct
              rcases (mem_insertClamped cs idx _ c).mp hc with he | hmm
              · rw [he]
                show (attrTruthy (getAssoc [(str "idref", f0)] (str "idref"))).isSome = true
                cases f0 with
                | nil => exact absurd rfl hne0
                | cons a as => rfl
              · exact h1 c hmm hct
            have hnodi : (sidList ns (insertClamped cs idx
                (XNode.elem (ns ++ str "itemref") [(str "idref", f0)] none [] none))).Nodup := by
              rw [hsidperm.nodup_iff]
              exact List.nodup_cons.mpr ⟨hnotin, h2⟩
            have hiffi : ∀ r, r ∈ seen ++ [f0] ↔ r ∈ sidList ns (insertClamped cs idx
                (XNode.elem (ns ++ str "itemref") [(str "idref", f0)] none [] none)) := by
              intro r
              rw [hsidperm.mem_iff, List.mem_append, List.mem_singleton, List.mem_cons]
              rw [hiff r]
              constructor
              · rintro (h | h)
                · exact Or.inr h
                · exact Or.inl h
              · rintro (h | h)
                · exact Or.inr h
                · exact Or.inl h
            rcases ih (insertClamped cs idx
                (XNode.elem (ns ++ str "itemref") [(str "idref", f0)] none [] none),
                idx + 1, seen ++ [f0]) hnet hF1i hnodi hiffi with ⟨k1, k2, k3, k4⟩
            refine ⟨k1, k2, ?_, ?_⟩
            · intro r hr
              exact k3 r (hsidperm.mem_iff.mpr (List.mem_cons_of_mem _ hr))
            · intro f hf
              rcases List.mem_cons.mp hf with he | ht
              · left
                rw [he]
                exact k3 f0 (hsidperm.mem_iff.mpr (List.mem_cons_self _ _))
              · exact k4 f ht
          · have hstep : frontStep ns byId names opfDir (cs, idx, seen) f0 =
                (cs, idx, seen) := by
              simp only [frontStep]
              rw [if_neg hsn, hga]
              show (match attrTruthy (attrGet item (str "href")) with
                | some href =>
                  if hrefExists names opfDir href = true then
                    (insertClamped cs idx
                      (XNode.elem (ns ++ str "itemref") [(str "idref", f0)] none [] none),
                     idx + 1, seen ++ [f0])
                  else (cs, idx, seen)
                | none => (cs, idx, seen)) = (cs, idx, seen)
              rw [hhr]
              show (if hrefExists names opfDir href = true then
                  (insertClamped cs idx
                    (XNode.elem (ns ++ str "itemref") [(str "idref", f0)] none [] none),
                   idx + 1, seen ++ [f0])
                else (cs, idx, seen)) = (cs, idx, seen)
              rw [if_neg hex]
            rw [hstep]
            rcases ih (cs, idx, seen) hnet h1 h2 hiff with ⟨k1, k2, k3, k4⟩
            refine ⟨k1, k2, k3, ?_⟩
            intro f hf
            rcases List.mem_cons.mp hf with he | ht
            · right
              right
              rw [he]
              refine ⟨item, hga, Or.inr ?_⟩
              intro h2x hh2
              rw [hhr] at hh2
              have : href = h2x := Option.some.inj hh2
              rw [← this]
              cases hq : hrefExists names opfDir href
              · rfl
              · exact absurd hq hex
            · exact k4 f ht

theorem frontFold_noop (ns : Str) (byId : List (Str × XNode)) (names : List Str)
    (opfDir : Str) :
    ∀ (ids : List Str) (acc : List XNode × Nat × List Str),
    (∀ f ∈ ids, f ∈ acc.2.2 ∨ getAssoc byId f = none ∨
      (∃ it, getAssoc byId f = some it ∧ (attrTruthy (attrGet it (str "href")) = none ∨
        (∀ h2, attrTruthy (attrGet it (str "href")) = some h2 →
          hrefExists names opfDir h2 = false)))) →
    ids.foldl (frontStep ns byId names opfDir) acc = acc := by
  intro ids
  induction ids with
  | nil => intro acc _; rfl
  | cons f0 t ih =>
    intro acc h
    rw [List.foldl_cons]
    obtain ⟨cs, idx, seen⟩ := acc
    have hrest : ∀ f ∈ t, f ∈ seen ∨ getAssoc byId f = none ∨
        (∃ it, getAssoc byId f = some it ∧ (attrTruthy (attrGet it (str "href")) = none ∨
          (∀ h2, attrTruthy (attrGet it (str "href")) = some h2 →
            hrefExists names opfDir h2 = false))) :=
      fun f hf => h f (List.mem_cons_of_mem _ hf)
    by_cases hsn : (seen.contains f0) = true
    · have hstep : frontStep ns byId names opfDir (cs, idx, seen) f0 = (cs, idx, seen) := by
        simp only [frontStep]
        rw [if_pos hsn]
      rw [hstep]
      exact ih (cs, idx, seen) hrest
    · have h0 := h f0 (List.mem_cons_self _ _)
      have h0b : getAssoc byId f0 = none ∨
          (∃ it, getAssoc byId f0 = some it ∧
            (attrTruthy (attrGet it (str "href")) = none ∨
            (∀ h2, attrTruthy (attrGet it (str "href")) = some h2 →
              hrefExists names opfDir h2 = false))) := by
        rcases h0 with hmem | hrest2
        · exact absurd ((contains_true_iff seen f0).mpr hmem) hsn
        · exact hrest2
      rcases h0b with hga | ⟨item, hga, hcond⟩
      · have hstep : frontStep ns byId names opfDir (cs, idx, seen) f0 = (cs, idx, seen) := by
          simp only [frontStep]
          rw [if_neg hsn, hga]
        rw [hstep]
        exact ih (cs, idx, seen) hrest
      · cases hhr : attrTruthy (attrGet item (str "href")) with
        | none =>
          have hstep : frontStep ns byId names opfDir (cs, idx, seen) f0 = (cs, idx, seen) := by
            simp only [frontStep]
            rw [if_neg hsn, hga]
            show (match attrTruthy (attrGet item (str "href")) with
              | some href =>
                if hrefExists names opfDir href = true then
                  (insertClamped cs idx
                    (XNode.elem (ns ++ str "itemref") [(str "idref", f0)] none [] none),
                   idx + 1, seen ++ [f0])
                else (cs, idx, seen)
              | none => (cs, idx, seen)) = (cs, idx, seen)
            rw [hhr]
          rw [hstep]
          exact ih (cs, idx, seen) hrest
        | some href =>
          have hex : hrefExists names opfDir href = false := by
            rcases hcond with hc | hc
            · rw [hc] at hhr
              exact Option.noConfusion hhr
            · exact hc href hhr
          have hstep : frontStep ns byId names opfDir (cs, idx, seen) f0 = (cs, idx, seen) := by
            simp only [frontStep]
            rw [if_neg hsn, hga]
            show (match attrTruthy (attrGet item (str "href")) with
              | some href =>
                if hrefExists names opfDir href = true then
                  (insertClamped cs idx
                    (XNode.elem (ns ++ str "itemref") [(str "idref", f0)] none [] none),
                   idx + 1, seen ++ [f0])
                else (cs, idx, seen)
              | none => (cs, idx, seen)) = (cs, idx, seen)
            rw [hhr]
            show (if hrefExists names opfDir href = true then
                (insertClamped cs idx
                  (XNode.elem (ns ++ str "itemref") [(str "idref", f0)] none [] none),
                 idx + 1, seen ++ [f0])
              else (cs, idx, seen)) = (cs, idx, seen)
            rw [if_neg (by rw [hex]; simp)]
          rw [hstep]
          exact ih (cs, idx, seen) hrest

theorem spineFold_stable (ns : Str) (byId2 : List (Str × XNode)) :
    ∀ (l : List XNode) (acc : List XNode × List Str),
    (∀ c ∈ l, c.tag = ns ++ str "itemref" →
      (attrTruthy (attrGet c (str "idref"))).isSome = true) →
    ((sidList ns l).Nodup) →
    (∀ r ∈ sidList ns l, ¬ r ∈ acc.2) →
    (∀ r ∈ sidList ns l, byId2.any (fun kv => kv.1 == r) = true) →
    l.foldl (spineStep ns byId2) acc = (acc.1 ++ l, acc.2 ++ sidList ns l) := by
  intro l
  induction l with
  | nil =>
    intro acc _ _ _ _
    show acc = _
    cases acc
    simp [sidList]
  | cons c0 t ih =>
    intro acc h1 h2 h3 h4
    rw [List.foldl_cons]
    cases htag : (c0.tag == ns ++ str "itemref") with
    | false =>
      have hstep : spineStep ns byId2 acc c0 = (acc.1 ++ [c0], acc.2) := by
        simp only [spineStep]
        rw [htag]
        rfl
      rw [hstep]
      have h0 : (if c0.tag == ns ++ str "itemref"
          then attrTruthy (attrGet c0 (str "idref")) else none) = none := by
        rw [htag]
        rfl
      have hsid : sidList ns (c0 :: t) = sidList ns t := by
        unfold sidList
        simp only [List.filterMap_cons, h0]
      rw [hsid] at h2 h3 h4
      rw [ih (acc.1 ++ [c0], acc.2)
        (fun c hc => h1 c (List.mem_cons_of_mem _ hc)) h2 h3 h4]
      rw [hsid]
      simp
    | true =>
      cases hidr : attrTruthy (attrGet c0 (str "idref")) with
      | none =>
        exfalso
        have := h1 c0 (List.mem_cons_self _ _) (eq_of_beq htag)
        rw [hidr] at this
        simp at this
      | some idref =>
        have h0 : (if c0.tag == ns ++ str "itemref"
            then attrTruthy (attrGet c0 (str "idref")) else none) = some idref := by
          rw [htag, hidr]
          rfl
        have hsid : sidList ns (c0 :: t) = idref :: sidList ns t := by
          unfold sidList
          simp only [List.filterMap_cons, h0]
        have hnotin : ¬ idref ∈ acc.2 := by
          refine h3 idref ?_
          rw [hsid]
          exact List.mem_cons_self _ _
        have hcn : acc.2.contains idref = false := by
          cases hq : acc.2.contains idref
          · rfl
          · exact absurd ((contains_true_iff acc.2 idref).mp hq) hnotin
        have hanyr : byId2.any (fun kv => kv.1 == idref) = true := by
          refine h4 idref ?_
          rw [hsid]
          exact List.mem_cons_self _ _
        have hcond : (acc.2.contains idref ||
            !(byId2.any (fun kv => kv.1 == idref))) = false := by
          rw [hcn, hanyr]
          rfl
        have hstep : spineStep ns byId2 acc c0 = (acc.1 ++ [c0], acc.2 ++ [idref]) := by
          simp only [spineStep]
          rw [htag, hidr]
          show (if (acc.2.contains idref || !(byId2.any (fun kv => kv.1 == idref))) = true
              then acc else (acc.1 ++ [c0], acc.2 ++ [idref])) =
            (acc.1 ++ [c0], acc.2 ++ [idref])
          rw [if_neg (by rw [hcond]; simp)]
        rw [hstep]
        have hndt : (sidList ns t).Nodup ∧ ¬ idref ∈ sidList ns t := by
          rw [hsid] at h2
          have := List.nodup_cons.mp h2
          exact ⟨this.2, this.1⟩
        rw [ih (acc.1 ++ [c0], acc.2 ++ [idref])
          (fun c hc => h1 c (List.mem_cons_of_mem _ hc)) hndt.1 ?_ ?_]
        · rw [hsid]
          simp
        · intro r hr hmem
          have hr2 : r ∈ sidList ns (c0 :: t) := by
            rw [hsid]
            exact List.mem_cons_of_mem _ hr
          rcases List.mem_append.mp hmem with hm | hm
          · exact h3 r hr2 hm
          · simp only [List.mem_singleton] at hm
            rw [hm] at hr
            exact hndt.2 hr
        · intro r hr
          refine h4 r ?_
          rw [hsid]
          exact List.mem_cons_of_mem _ hr

theorem spineFix_children (ns : Str) (byId : List (Str × XNode)) (names : List Str)
    (opfDir : Str) (sp : XNode) :
    ∃ pc, (spineFix ns byId names opfDir sp).1.children
      = reorderPages ns (str "itemref") (str "idref") pc := by
  cases hns : normalizeSpine ns byId sp.children with
  | mk nc nseen =>
    refine ⟨prependFrontMatter ns byId names opfDir nc nseen, ?_⟩
    simp only [spineFix, hns]
    rw [withChildren_children]

theorem spineFix_facts (ns : Str) (byId : List (Str × XNode)) (names : List Str)
    (opfDir : Str) (sp : XNode) :
    (∀ c ∈ (spineFix ns byId names opfDir sp).1.children, c.tag = ns ++ str "itemref" →
      (attrTruthy (attrGet c (str "idref"))).isSome = true) ∧
    ((sidList ns ((spineFix ns byId names opfDir sp).1.children)).Nodup) ∧
    (∀ f ∈ frontMatterIds, frontGood ns byId names opfDir
      ((spineFix ns byId names opfDir sp).1.children) f) := by
  cases hns : normalizeSpine ns byId sp.children with
  | mk nc nseen =>
    have hnf := normalizeSpine_facts ns byId sp.children
    rw [hns] at hnf
    obtain ⟨n1, n2, n3⟩ := hnf
    have hnonempty : ∀ f ∈ frontMatterIds, ¬ f = [] := by decide
    have hpf := frontFold_facts ns byId names opfDir frontMatterIds
      (nc, (match nc.findIdx? (fun c =>
        c.tag == ns ++ str "itemref" &&
          strStarts (attrGetD c (str "idref")) (str "page_")) with
        | some i => i
        | none => nc.length), nseen) hnonempty n1 n3
      (fun r => by rw [show nseen = sidList ns nc from n2])
    obtain ⟨p1, p2, p3, p4⟩ := hpf
    have hch : (spineFix ns byId names opfDir sp).1.children =
        reorderPages ns (str "itemref") (str "idref")
          (prependFrontMatter ns byId names opfDir nc nseen) := by
      simp only [spineFix, hns]
      rw [withChildren_children]
    have hsperm : (sidList ns ((spineFix ns byId names opfDir sp).1.children)).Perm
        (sidList ns (prependFrontMatter ns byId names opfDir nc nseen)) := by
      rw [hch]
      exact (reorderPages_perm ns (str "itemref") (str "idref") _).filterMap _
    refine ⟨?_, ?_, ?_⟩
    · intro c hc hct
      rw [hch, mem_reorderPages] at hc
      exact p1 c hc hct
    · rw [hsperm.nodup_iff]
      exact p2
    · intro f hf
      have hg := p4 f hf
      rcases hg with hg | hg | hg
      · left
        exact hsperm.mem_iff.mpr hg
      · exact Or.inr (Or.inl hg)
      · exact Or.inr (Or.inr hg)

theorem spineFix_stable (ns : Str) (byId byId2 : List (Str × XNode))
    (names names2 : List Str) (opfDir : Str) (sp : XNode)
    (hany : ∀ r, byId2.any (fun kv => kv.1 == r) = byId.any (fun kv => kv.1 == r))
    (hget : ∀ k, getAssoc byId2 k = getAssoc byId k)
    (hnef : ∀ x, names2.contains x = names.contains x) :
    spineFix ns byId2 names2 opfDir ((spineFix ns byId names opfDir sp).1)
      = ((spineFix ns byId names opfDir sp).1, ()) := by
  obtain ⟨f1, f2, f5⟩ := spineFix_facts ns byId names opfDir sp
  obtain ⟨pc0, hpc0⟩ := spineFix_children ns byId names opfDir sp
  have hanyall : ∀ r ∈ sidList ns ((spineFix ns byId names opfDir sp).1.children),
      byId2.any (fun kv => kv.1 == r) = true := by
    intro r hr
    rcases List.mem_filterMap.mp hr with ⟨c, hc, hFc⟩
    by_cases hct : (c.tag == ns ++ str "itemref") = true
    · rw [if_pos hct] at hFc
      rw [hany r]
      exact spineFix_ok ns byId names opfDir sp c hc (eq_of_beq hct) r hFc
    · rw [if_neg hct] at hFc
      exact Option.noConfusion hFc
  have hnorm2 : normalizeSpine ns byId2 ((spineFix ns byId names opfDir sp).1.children)
      = ((spineFix ns byId names opfDir sp).1.children,
         sidList ns ((spineFix ns byId names opfDir sp).1.children)) := by
    unfold normalizeSpine
    have h9 := spineFold_stable ns byId2
      ((spineFix ns byId names opfDir sp).1.children) ([], []) f1 f2
      (by intro r _ hm; simp at hm) hanyall
    simp only [List.nil_append] at h9
    exact h9
  have hnoop := frontFold_noop ns byId2 names2 opfDir frontMatterIds
    (((spineFix ns byId names opfDir sp).1.children),
     (match ((spineFix ns byId names opfDir sp).1.children).findIdx? (fun c =>
        c.tag == ns ++ str "itemref" &&
          strStarts (attrGetD c (str "idref")) (str "page_")) with
      | some i => i
      | none => ((spineFix ns byId names opfDir sp).1.children).length),
     sidList ns ((spineFix ns byId names opfDir sp).1.children))
    (by
      intro f hf
      rcases f5 f hf with hg | hg | ⟨it, hga, hcond⟩
      · exact Or.inl hg
      · right
        left
        rw [hget f]
        exact hg
      · right
        right
        refine ⟨it, by rw [hget f]; exact hga, ?_⟩
        rcases hcond with hc | hc
        · exact Or.inl hc
        · right
          intro h2x hh2
          rw [hrefExists_congr names names2 opfDir h2x hnef]
          exact hc h2x hh2)
  have hpre2 : prependFrontMatter ns byId2 names2 opfDir
      ((spineFix ns byId names opfDir sp).1.children)
      (sidList ns ((spineFix ns byId names opfDir sp).1.children))
      = (spineFix ns byId names opfDir sp).1.children := by
    show (frontMatterIds.foldl (frontStep ns byId2 names2 opfDir)
      (((spineFix ns byId names opfDir sp).1.children),
       (match ((spineFix ns byId names opfDir sp).1.children).findIdx? (fun c =>
          c.tag == ns ++ str "itemref" &&
            strStarts (attrGetD c (str "idref")) (str "page_")) with
        | some i => i
        | none => ((spineFix ns byId names opfDir sp).1.children).length),
       sidList ns ((spineFix ns byId names opfDir sp).1.children))).1
      = (spineFix ns byId names opfDir sp).1.children
    rw [hnoop]
  have hre2 : reorderPages ns (str "itemref") (str "idref")
      ((spineFix ns byId names opfDir sp).1.children)
      = (spineFix ns byId names opfDir sp).1.children := by
    rw [hpc0]
    exact reorderPages_idem ns (str "itemref") (str "idref") pc0
  have hcomp : spineFix ns byId2 names2 opfDir ((spineFix ns byId names opfDir sp).1) =
      (((spineFix ns byId names opfDir sp).1).withChildren
        (reorderPages ns (str "itemref") (str "idref")
          (prependFrontMatter ns byId2 names2 opfDir
            (normalizeSpine ns byId2 (((spineFix ns byId names opfDir sp).1).children)).1
            (normalizeSpine ns byId2 (((spineFix ns byId names opfDir sp).1).children)).2)),
       ()) := rfl
  rw [hcomp]
  simp only [hnorm2]
  rw [hpre2, hre2, withChildren_self]

theorem withChildren_tag (m : XNode) (cs : List XNode) :
    (m.withChildren cs).tag = m.tag := by
  cases m with
  | elem t a x c tl => rfl

theorem normalizeManifest_tag (ns : Str) (names : List Str) (opfDir : Str) (x : XNode) :
    ((normalizeManifest ns names opfDir x).1).tag = x.tag := by
  simp only [normalizeManifest]
  rw [withChildren_tag]

theorem spineFix_tag (ns : Str) (byId : List (Str × XNode)) (names : List Str)
    (opfDir : Str) (sp : XNode) :
    ((spineFix ns byId names opfDir sp).1).tag = sp.tag := by
  have h : (spineFix ns byId names opfDir sp).1 =
      sp.withChildren (reorderPages ns (str "itemref") (str "idref")
        (prependFrontMatter ns byId names opfDir
          (normalizeSpine ns byId sp.children).1
          (normalizeSpine ns byId sp.children).2)) := rfl
  rw [h, withChildren_tag]

theorem filterMap_eq_self {α : Type} (f : α → Option α) :
    ∀ l : List α, (∀ x ∈ l, f x = some x) → l.filterMap f = l := by
  intro l
  induction l with
  | nil => intro _; rfl
  | cons a t ih =>
    intro h
    simp only [List.filterMap_cons, h a (List.mem_cons_self a t)]
    rw [ih (fun x hx => h x (List.mem_cons_of_mem _ hx))]

theorem rewrite_body_self (repl : List (Str × EData)) (uniq : Archive) :
    ∀ x ∈ uniq.filterMap (fun info =>
        if info.name == str "mimetype" then none
        else some { info with data := (getAssoc repl info.name).getD info.data }),
      (if x.name == str "mimetype" then none
       else some { x with data := (getAssoc repl x.name).getD x.data }) = some x := by
  intro x hx
  rcases mem_rewrite_body hx with ⟨i, hi, hne, rfl⟩
  show (if i.name == str "mimetype" then none
    else some (ZEntry.mk i.name
      ((getAssoc repl i.name).getD ((getAssoc repl i.name).getD i.data))
      i.ctype i.mtime))
    = some (ZEntry.mk i.name ((getAssoc repl i.name).getD i.data) i.ctype i.mtime)
  rw [if_neg (by rw [hne]; simp)]
  cases hg : getAssoc repl i.name with
  | none => rfl
  | some v => rfl

theorem rewriteDedup_again (now1 now2 : Nat) (uniq : Archive) (repl : List (Str × EData)) :
    eraseMtimes (rewriteDedup now2 (rewriteDedup now1 uniq repl) repl)
      = eraseMtimes (rewriteDedup now1 uniq repl) := by
  have hbodyself := filterMap_eq_self _ _ (rewrite_body_self repl uniq)
  unfold rewriteDedup
  cases hf : uniq.find? (fun e => e.name == str "mimetype") with
  | none =>
    simp only [hf, List.nil_append]
    have hfind2 : ((uniq.filterMap (fun info =>
        if info.name == str "mimetype" then none
        else some { info with data := (getAssoc repl info.name).getD info.data })).find?
        (fun e => e.name == str "mimetype")) = none := by
      rw [List.find?_eq_none]
      intro x hx
      have hb := body_name_ne_mimetype hx
      simp [hb]
    simp only [hfind2, List.nil_append]
    rw [hbodyself]
  | some m =>
    simp only [hf, List.singleton_append]
    have hmt : ((ZEntry.mk (str "mimetype") m.data 0 now1).name == str "mimetype")
        = true := by
      simp
    have hfind2 : ((ZEntry.mk (str "mimetype") m.data 0 now1
        :: uniq.filterMap (fun info =>
          if info.name == str "mimetype" then none
          else some { info with data := (getAssoc repl info.name).getD info.data })).find?
        (fun e => e.name == str "mimetype"))
        = some (ZEntry.mk (str "mimetype") m.data 0 now1) := by
      rw [List.find?_cons]
      simp only [hmt]
    simp only [hfind2, List.singleton_append]
    have hbody2 : ((ZEntry.mk (str "mimetype") m.data 0 now1
        :: uniq.filterMap (fun info =>
          if info.name == str "mimetype" then none
          else some { info with data := (getAssoc repl info.name).getD info.data })).filterMap
        (fun info => if info.name == str "mimetype" then none
          else some { info with data := (getAssoc repl info.name).getD info.data }))
        = uniq.filterMap (fun info =>
          if info.name == str "mimetype" then none
          else some { info with data := (getAssoc repl info.name).getD info.data }) := by
      simp only [List.filterMap_cons]
      rw [show (if (ZEntry.mk (str "mimetype") m.data 0 now1).name == str "mimetype"
          then none
        else some { ZEntry.mk (str "mimetype") m.data 0 now1 with
          data := (getAssoc repl (ZEntry.mk (str "mimetype") m.data 0 now1).name).getD
            (ZEntry.mk (str "mimetype") m.data 0 now1).data })
        = (none : Option ZEntry) from by rw [if_pos hmt]]
      exact hbodyself
    rw [hbody2]
    rfl

/-- Claim C1's counterexample: on a package with a `mimetype` entry the
second repair run stamps a fresh timestamp onto the rewritten `mimetype`
entry, so the archive is not byte-identical to the first run's output. -/
theorem repair_not_byte_idempotent :
    ¬ (fix_content_opf_problems 8 (fix_content_opf_problems 7 archM)
        = fix_content_opf_problems 7 archM) := by
  intro h
  have h1 : ((fix_content_opf_problems 8 (fix_content_opf_problems 7 archM)).map (·.mtime))
      = ((fix_content_opf_problems 7 archM).map (·.mtime)) := by rw [h]
  have h2 : ((fix_content_opf_problems 8 (fix_content_opf_problems 7 archM)).map (·.mtime))
      = [8, 7] := by rfl
  have h3 : ((fix_content_opf_problems 7 archM).map (·.mtime)) = [7, 7] := by rfl
  rw [h2, h3] at h1
  simp at h1

/-- Claim C1 (amended): repairing twice is a no-op only up to the refreshed
`mimetype` timestamp.  Under the stated document-shape and href-stability
hypotheses, the second `fix_content_opf_problems` run rewrites the same
entry payloads, so the two archives agree after erasing modification
times; the timestamps themselves differ whenever a `mimetype` entry is
present and the clock moved. -/
theorem fix_content_opf_mtime_idempotent
    (now1 now2 : Nat) (A : Archive) (entry : ZEntry) (decl : Bool)
    (root root1 root2 : XNode) (byId2 : List (Str × XNode))
    (hpick : pickValidOpf A = some entry)
    (hdata : entry.data = EData.xml decl root)
    (hm : replaceFirstNode (nsOfTag root.tag ++ str "manifest")
        (normalizeManifest (nsOfTag root.tag) (namesOf A) (pyDirname entry.name)) root
        = some (root1, byId2))
    (hs : replaceFirstNode (nsOfTag root.tag ++ str "spine")
        (spineFix (nsOfTag root.tag) byId2 (namesOf A) (pyDirname entry.name)) root1
        = some (root2, ()))
    (hfm2 : findFirstNode (nsOfTag root.tag ++ str "manifest") root2
        = findFirstNode (nsOfTag root.tag ++ str "manifest") root1)
    (hfix : ∀ p ∈ byId2, fixItemHref
        (namesOf (rewriteDedup now1 (uniqueEntries A) [(entry.name, EData.xml decl root2)]))
        (pyDirname entry.name) p.2 = p.2) :
    eraseMtimes (fix_content_opf_problems now2 (fix_content_opf_problems now1 A))
      = eraseMtimes (fix_content_opf_problems now1 A) := by
  have hfx1 : fix_content_opf_problems now1 A
      = rewriteDedup now1 (uniqueEntries A) [(entry.name, EData.xml decl root2)] := by
    simp only [fix_content_opf_problems, hpick, hdata, hm, hs]
  have htagM : ∀ x, ((normalizeManifest (nsOfTag root.tag) (namesOf A)
      (pyDirname entry.name) x).1).tag = x.tag :=
    fun x => normalizeManifest_tag _ _ _ x
  rcases replaceFirst_gives_find _ _ htagM root root1 byId2 hm with ⟨mn, hfm0, hfm1, hbyId⟩
  have hnm : normalizeManifest (nsOfTag root.tag) (namesOf A) (pyDirname entry.name) mn
      = ((normalizeManifest (nsOfTag root.tag) (namesOf A) (pyDirname entry.name) mn).1,
         byId2) :=
    Prod.ext_iff.mpr ⟨rfl, hbyId.symm⟩
  have htagS : ∀ x, ((spineFix (nsOfTag root.tag) byId2 (namesOf A)
      (pyDirname entry.name) x).1).tag = x.tag :=
    fun x => spineFix_tag _ _ _ _ x
  rcases replaceFirst_gives_find _ _ htagS root1 root2 () hs with ⟨spn, hfs1, hfs2, _⟩
  have hne := names_contains_rewrite now1 A [(entry.name, EData.xml decl root2)]
  obtain ⟨g1, _, _, _, _⟩ := normalizeManifest_inv (nsOfTag root.tag) (namesOf A)
    (pyDirname entry.name) mn
    ((normalizeManifest (nsOfTag root.tag) (namesOf A) (pyDirname entry.name) mn).1)
    byId2 hnm
  obtain ⟨hnm2, hnd2, hmemiff⟩ := normalizeManifest_stable (nsOfTag root.tag)
    (namesOf A)
    (namesOf (rewriteDedup now1 (uniqueEntries A) [(entry.name, EData.xml decl root2)]))
    (pyDirname entry.name) mn
    ((normalizeManifest (nsOfTag root.tag) (namesOf A) (pyDirname entry.name) mn).1)
    byId2 hnm hne hfix
  have hrt1 : root1.tag = root.tag := replaceFirstNode_tag _ _ root root1 byId2 hm
  have hrt2 : root2.tag = root.tag := by
    rw [replaceFirstNode_tag _ _ root1 root2 () hs]
    exact hrt1
  have hvalid : entryValidOpf ⟨entry.name, EData.xml decl root2, 0, 0⟩ = true := by
    show ((findFirstNode (nsOfTag root2.tag ++ str "manifest") root2).isSome &&
      (findFirstNode (nsOfTag root2.tag ++ str "spine") root2).isSome) = true
    rw [hrt2, hfm2, hfm1, hfs2]
    rfl
  have hrepl : getAssoc [(entry.name, EData.xml decl root2)] entry.name
      = some (EData.xml decl root2) := by
    unfold getAssoc
    rw [List.find?_cons]
    simp
  have hkeys : ∀ nm d, (nm, d) ∈ ([(entry.name, EData.xml decl root2)] : List (Str × EData)) →
      nm = entry.name ∨ strEnds nm (str ".css") = true := by
    intro nm d hmem
    simp only [List.mem_singleton] at hmem
    left
    exact congrArg Prod.fst hmem
  obtain ⟨u, hpick2⟩ := pickValidOpf_rewrite now1 A entry
    [(entry.name, EData.xml decl root2)] (EData.xml decl root2) hpick hrepl hkeys hvalid
  have hfixMv : (normalizeManifest (nsOfTag root.tag)
      (namesOf (rewriteDedup now1 (uniqueEntries A) [(entry.name, EData.xml decl root2)]))
      (pyDirname entry.name)
      ((normalizeManifest (nsOfTag root.tag) (namesOf A) (pyDirname entry.name) mn).1)).2
      = ((List.enumFrom 0
          ((normalizeManifest (nsOfTag root.tag) (namesOf A)
            (pyDirname entry.name) mn).1).children).filterMap (fun ic =>
          if ic.2.tag == nsOfTag root.tag ++ str "item" then
            (attrTruthy (attrGet ic.2 (str "id"))).map (fun d => (d, ic))
          else none)).map (fun kv => (kv.1, kv.2.2)) := by
    rw [hnm2]
  have hm2x := replaceFirst_of_fix (nsOfTag root.tag ++ str "manifest")
    (normalizeManifest (nsOfTag root.tag)
      (namesOf (rewriteDedup now1 (uniqueEntries A) [(entry.name, EData.xml decl root2)]))
      (pyDirname entry.name)) root2
    ((normalizeManifest (nsOfTag root.tag) (namesOf A) (pyDirname entry.name) mn).1)
    (by rw [hfm2]; exact hfm1) (by rw [hnm2])
  rw [hfixMv] at hm2x
  have hanyc := anyKey_congr
    (((List.enumFrom 0
        ((normalizeManifest (nsOfTag root.tag) (namesOf A)
          (pyDirname entry.name) mn).1).children).filterMap (fun ic =>
        if ic.2.tag == nsOfTag root.tag ++ str "item" then
          (attrTruthy (attrGet ic.2 (str "id"))).map (fun d => (d, ic))
        else none)).map (fun kv => (kv.1, kv.2.2))) byId2 hmemiff
  have hgetc := getAssoc_congr_keys
    (((List.enumFrom 0
        ((normalizeManifest (nsOfTag root.tag) (namesOf A)
          (pyDirname entry.name) mn).1).children).filterMap (fun ic =>
        if ic.2.tag == nsOfTag root.tag ++ str "item" then
          (attrTruthy (attrGet ic.2 (str "id"))).map (fun d => (d, ic))
        else none)).map (fun kv => (kv.1, kv.2.2))) byId2 hnd2 g1 hmemiff
  have hspstab := spineFix_stable (nsOfTag root.tag) byId2
    (((List.enumFrom 0
        ((normalizeManifest (nsOfTag root.tag) (namesOf A)
          (pyDirname entry.name) mn).1).children).filterMap (fun ic =>
        if ic.2.tag == nsOfTag root.tag ++ str "item" then
          (attrTruthy (attrGet ic.2 (str "id"))).map (fun d => (d, ic))
        else none)).map (fun kv => (kv.1, kv.2.2)))
    (namesOf A)
    (namesOf (rewriteDedup now1 (uniqueEntries A) [(entry.name, EData.xml decl root2)]))
    (pyDirname entry.name) spn hanyc hgetc hne
  have hs2x := replaceFirst_of_fix (nsOfTag root.tag ++ str "spine")
    (spineFix (nsOfTag root.tag)
      (((List.enumFrom 0
          ((normalizeManifest (nsOfTag root.tag) (namesOf A)
            (pyDirname entry.name) mn).1).children).filterMap (fun ic =>
          if ic.2.tag == nsOfTag root.tag ++ str "item" then
            (attrTruthy (attrGet ic.2 (str "id"))).map (fun d => (d, ic))
          else none)).map (fun kv => (kv.1, kv.2.2)))
      (namesOf (rewriteDedup now1 (uniqueEntries A) [(entry.name, EData.xml decl root2)]))
      (pyDirname entry.name)) root2
    ((spineFix (nsOfTag root.tag) byId2 (namesOf A) (pyDirname entry.name) spn).1)
    hfs2 (by rw [hspstab])
  have hfx2 : fix_content_opf_problems now2
      (rewriteDedup now1 (uniqueEntries A) [(entry.name, EData.xml decl root2)])
      = rewriteDedup now2
          (uniqueEntries (rewriteDedup now1 (uniqueEntries A)
            [(entry.name, EData.xml decl root2)]))
          [(entry.name, EData.xml decl root2)] := by
    simp only [fix_content_opf_problems, hpick2]
    rw [hrt2]
    simp only [hm2x]
    simp only [hs2x]
  rw [hfx1, hfx2]
  rw [uniqueEntries_rewriteDedup now1 (uniqueEntries A)
    [(entry.name, EData.xml decl root2)] (uniqueEntries_names_nodup A)]
  exact rewriteDedup_again now1 now2 (uniqueEntries A) [(entry.name, EData.xml decl root2)]

/-- Concrete instance of the amended C1 theorem at the trivial valid
package `archW`, with every hypothesis discharged by computation. -/
theorem fix_content_opf_mtime_idempotent_witness :
    eraseMtimes (fix_content_opf_problems 9 (fix_content_opf_problems 7 archW))
      = eraseMtimes (fix_content_opf_problems 7 archW) :=
  fix_content_opf_mtime_idempotent 7 9 archW
    ⟨str "content.opf", EData.xml true opfW, 8, 7⟩ true opfW opfW opfW []
    rfl rfl rfl rfl rfl (fun p hp => absurd hp (by simp))

/-- Claim C2 (amended): `fix_content_opf_problems` rewrites the picked OPF
after passing its manifest through `normalizeManifest` and its spine through
`spineFix`; those transformations guarantee that the id-mapped manifest
items have pairwise distinct non-empty ids, appear among the manifest's
children, carry hrefs that resolve or at least do not point into a `/text/`
path, and that every spine itemref's non-empty idref names an id-mapped
manifest item. -/
theorem fix_content_opf_manifest_spine :
    (∀ (now : Nat) (A : Archive) (entry : ZEntry) (decl : Bool)
        (root root1 root2 : XNode) (byId2 : List (Str × XNode)),
      pickValidOpf A = some entry →
      entry.data = EData.xml decl root →
      replaceFirstNode (nsOfTag root.tag ++ str "manifest")
        (normalizeManifest (nsOfTag root.tag) (namesOf A) (pyDirname entry.name)) root
        = some (root1, byId2) →
      replaceFirstNode (nsOfTag root.tag ++ str "spine")
        (spineFix (nsOfTag root.tag) byId2 (namesOf A) (pyDirname entry.name)) root1
        = some (root2, ()) →
      fix_content_opf_problems now A
        = rewriteDedup now (uniqueEntries A) [(entry.name, EData.xml decl root2)]) ∧
    (∀ (ns : Str) (names : List Str) (opfDir : Str) (m m2 : XNode)
        (byIdOut : List (Str × XNode)) (sp : XNode),
      normalizeManifest ns names opfDir m = (m2, byIdOut) →
      ((byIdOut.map (·.1)).Nodup ∧
       (∀ p ∈ byIdOut, p.2 ∈ m2.children ∧ p.2.tag = ns ++ str "item" ∧
          attrTruthy (attrGet p.2 (str "id")) = some p.1) ∧
       (∀ c ∈ m2.children, c.tag = ns ++ str "item" →
          ∀ id0, attrTruthy (attrGet c (str "id")) = some id0 → (id0, c) ∈ byIdOut) ∧
       ((m2.children.filterMap (fun c =>
          if c.tag == ns ++ str "item" then attrTruthy (attrGet c (str "id")) else none)).Nodup) ∧
       (∀ p ∈ byIdOut, ∀ href, attrTruthy (attrGet p.2 (str "href")) = some href →
          hrefExists names opfDir href = true ∨ deadTextHref opfDir href = false) ∧
       (∀ c ∈ ((spineFix ns byIdOut names opfDir sp).1).children,
          c.tag = ns ++ str "itemref" →
          ∀ r, attrTruthy (attrGet c (str "idref")) = some r →
            byIdOut.any (fun kv => kv.1 == r) = true))) := by
  constructor
  · intro now A entry decl root root1 root2 byId2 hpick hdata hm hs
    simp only [fix_content_opf_problems, hpick, hdata, hm, hs]
  · intro ns names opfDir m m2 byIdOut sp hm
    obtain ⟨g1, g2, g3, g4, g5⟩ := normalizeManifest_inv ns names opfDir m m2 byIdOut hm
    exact ⟨g1, g2, g3, g4, g5, spineFix_ok ns byIdOut names opfDir sp⟩

/-- Concrete instance of the amended C2 theorem: the trivial valid package
`archW` is rewritten through its normalized document, and the normalized
empty manifest trivially has pairwise distinct item ids. -/
theorem fix_content_opf_manifest_spine_witness :
    (fix_content_opf_problems 7 archW
      = rewriteDedup 7 (uniqueEntries archW) [(str "content.opf", EData.xml true opfW)]) ∧
    (((XNode.elem (str "manifest") [] none [] none).children.filterMap (fun c =>
        if c.tag == ([] : Str) ++ str "item" then attrTruthy (attrGet c (str "id"))
        else none)).Nodup) :=
  ⟨fix_content_opf_manifest_spine.1 7 archW
      ⟨str "content.opf", EData.xml true opfW, 8, 7⟩ true opfW opfW opfW [] rfl rfl rfl rfl,
   (fix_content_opf_manifest_spine.2 [] [] []
      (XNode.elem (str "manifest") [] none [] none)
      (XNode.elem (str "manifest") [] none [] none) []
      (XNode.elem (str "spine") [] none [] none) rfl).2.2.2.1⟩

/-- Concrete instance of the amended C8 theorem at `bookC8`, with the
sorted-last hypothesis discharged by computation. -/
theorem write_epub_names_padded_witness :
    zfillWidth bookC8 = (natDecimal 2).length + 1 ∧
    (∀ e ∈ pageEntries bookC8,
        e.2.1 = pageFileName (zfillWidth bookC8) e.2.2 ∧
        (zeroPad (zfillWidth bookC8) (natDecimal e.2.2.pageNumber)).length =
          zfillWidth bookC8) ∧
    (pageEntries bookC8).Pairwise (fun a b =>
      a.2.2.part = b.2.2.part → strLe a.2.1 b.2.1 = true) :=
  write_epub_names_padded bookC8
    { pageNumber := 2, page := 2, part := some 10, textHtml := str "y" } (by decide)

end EbookConv
